import Mathlib

/-!
# build_zip_go: manifest resolution and archive writing

A shallow embedding of `pkg/build_zip.go`, `pkg/manifest.go` and
`pkg/build_info.go`, and theorems about it.

Conventions of the embedding.

* A Go `string` is a `Str` (a list of characters).  The strings this program
  handles come from JSON decoding and command-line flags and are read as
  valid UTF-8, for which the byte-wise order of Go's `<` on strings and the
  code-point order on `List Char` coincide, and for which the separator `/`
  is one character.
* Paths follow the Unix flavour of `path/filepath` (separator `/`, no volume
  names).
* A Go `map` is an association list in insertion order; the order in which a
  `range` loop visits it is an explicit argument (`RangeOrder`), because the
  language leaves that order unspecified.
* An unbounded Go loop is a function with a fuel argument that returns `none`
  when the fuel runs out before the loop exits.
-/

namespace BuildZip

/-- A Go string. -/
abbrev Str := List Char

/-! ## Standard library: `strings` -/

/-- `strings.TrimLeft(s, c)` for a one-byte cutset:
`for len(s) > 0 && s[0] == c { s = s[1:] }`. -/
def trimLeftByte : Str → Char → Str
  | [], _ => []
  | a :: s, c => if a = c then trimLeftByte s c else a :: s

/-- `strings.TrimRight(s, c)` for a one-byte cutset:
`for len(s) > 0 && s[len(s)-1] == c { s = s[:len(s)-1] }`. -/
def trimRightByte : Str → Char → Str
  | [], _ => []
  | a :: s, c =>
    match trimRightByte s c with
    | [] => if a = c then [] else [a]
    | b :: r => a :: b :: r

/-- `strings.HasSuffix(s, suffix)`. -/
def hasSuffix (s suffix : Str) : Bool :=
  suffix.length ≤ s.length && s.drop (s.length - suffix.length) == suffix

/-- `strings.TrimSuffix(s, suffix)`: `s[:len(s)-len(suffix)]` when `s` ends in
`suffix`, else `s`. -/
def trimSuffix (s suffix : Str) : Str :=
  if hasSuffix s suffix then s.take (s.length - suffix.length) else s

/-- `strings.Join(elems, sep)`. -/
def stringsJoin (elems : List Str) (sep : Str) : Str :=
  sep.intercalate elems

/-- `strings.Split(s, sep)` for a one-byte separator: the pieces of `s`
between the occurrences of the separator, one more than there are
occurrences. -/
def splitByte : Str → Char → List Str
  | [], _ => [[]]
  | a :: s, c =>
    if a = c then [] :: splitByte s c
    else
      match splitByte s c with
      | [] => [[a]]
      | p :: ps => (a :: p) :: ps

/-- `unicode.IsSpace(c)`: the white space characters that `strings.TrimSpace`
removes. -/
def isSpace (c : Char) : Bool :=
  c.toNat = 0x09 || c.toNat = 0x0A || c.toNat = 0x0B || c.toNat = 0x0C || c.toNat = 0x0D ||
  c = ' ' ||
  c.toNat = 0x85 || c.toNat = 0xA0 || c.toNat = 0x1680 ||
  (0x2000 ≤ c.toNat && c.toNat ≤ 0x200A) || c.toNat = 0x2028 || c.toNat = 0x2029 ||
  c.toNat = 0x202F || c.toNat = 0x205F || c.toNat = 0x3000

/-- `strings.TrimSpace(s)`: `s` without leading and trailing white space. -/
def trimSpace (s : Str) : Str :=
  (s.dropWhile isSpace).rdropWhile isSpace

/-! ## Standard library: `path/filepath` (Unix) -/

/-- The backtracking of `Clean` at a `..` element, as the new write index:
`out.w--; for out.w > dotdot && out.index(out.w) != '/' { out.w-- }`,
started at `w = out.w - 1`. -/
def backtrackTo (out : Str) (dotdot : Nat) : Nat → Nat
  | 0 => 0
  | w + 1 =>
    if w + 1 > dotdot ∧ out.getD (w + 1) '/' ≠ '/' then backtrackTo out dotdot w
    else w + 1

/-- The main loop of `Clean`, `for r < n { switch ... }`.  `rest` is
`path[r:]`, `out` is the written part of the buffer (`out.w = out.length`),
and each unit of fuel is one iteration; every iteration consumes at least
one character, so `rest.length` units are enough. -/
def cleanLoop (rooted : Bool) : Nat → Str → Str → Nat → Str
  | 0, _, out, _ => out
  | fuel + 1, rest, out, dotdot =>
    match rest with
    | [] => out
    | c :: t =>
      if c = '/' then
        -- empty path element
        cleanLoop rooted fuel t out dotdot
      else if c = '.' ∧ (t = [] ∨ t.head? = some '/') then
        -- . element
        cleanLoop rooted fuel t out dotdot
      else if c = '.' ∧ t.head? = some '.' ∧ (t.tail = [] ∨ t.tail.head? = some '/') then
        -- .. element: remove to last /
        if out.length > dotdot then
          cleanLoop rooted fuel t.tail
            (out.take (backtrackTo out dotdot (out.length - 1))) dotdot
        else if rooted = false then
          let out1 := (if out.length > 0 then out ++ ['/'] else out) ++ ['.', '.']
          cleanLoop rooted fuel t.tail out1 out1.length
        else
          cleanLoop rooted fuel t.tail out dotdot
      else
        -- real path element: add slash if needed, copy element
        let out1 :=
          if (rooted = true ∧ out.length ≠ 1) ∨ (rooted = false ∧ out.length ≠ 0)
          then out ++ ['/'] else out
        cleanLoop rooted fuel ((c :: t).dropWhile (fun x => x ≠ '/'))
          (out1 ++ (c :: t).takeWhile (fun x => x ≠ '/')) dotdot

/-- `filepath.Clean(path)`. -/
def Clean (path : Str) : Str :=
  if path = [] then ['.']
  else
    let rooted : Bool := path.head? = some '/'
    let out :=
      if rooted then cleanLoop true path.length path.tail ['/'] 1
      else cleanLoop false path.length path [] 0
    if out.length = 0 then ['.'] else out

/-- `filepath.Dir(path)`: drop the last element (everything after the final
separator), then `Clean`. -/
def Dir (path : Str) : Str :=
  Clean (path.rdropWhile (fun x => x ≠ '/'))

/-- `filepath.Join(elem...)`: ignore leading empty elements, join the rest with
the separator and `Clean`; the empty string when every element is empty. -/
def Join : List Str → Str
  | [] => []
  | e :: es => if e ≠ [] then Clean (stringsJoin (e :: es) ['/']) else Join es

/-! ## `combinePaths` -/

/-- `combinePaths(left, right)`. -/
def combinePaths (left right : Str) : Str :=
  let result := trimRightByte left '/' ++ ['/'] ++ trimLeftByte right '/'
  trimLeftByte result '/'

/-! ## Standard library: `strconv` -/

/-- The `Err` field of a `*strconv.NumError`. -/
inductive NumError where
  | ErrSyntax
  | ErrRange
  | ErrBase
  deriving DecidableEq, Repr

/-- The digit value `ParseUint` gives a byte: `c - '0'` for a decimal digit,
`lower(c) - 'a' + 10` for a letter (`lower(c) = c | ('x' - 'X')`), none
otherwise. -/
def digitVal (c : Char) : Option Nat :=
  if '0'.toNat ≤ c.toNat ∧ c.toNat ≤ '9'.toNat then some (c.toNat - '0'.toNat)
  else if 'a'.toNat ≤ (c.toNat ||| 0x20) ∧ (c.toNat ||| 0x20) ≤ 'z'.toNat then
    some ((c.toNat ||| 0x20) - 'a'.toNat + 10)
  else none

/-- The digit loop of `ParseUint` on `uint64` arithmetic, for a base given
explicitly (underscores are then not accepted). -/
def parseUintLoop (base cutoff maxVal : Nat) : Str → Nat → Nat × Option NumError
  | [], n => (n, none)
  | c :: s, n =>
    match digitVal c with
    | none => (0, some NumError.ErrSyntax)
    | some d =>
      if d ≥ base then (0, some NumError.ErrSyntax)
      else if n ≥ cutoff then (maxVal, some NumError.ErrRange)
      else
        let nb := (n * base) % 2 ^ 64
        let n1 := (nb + d) % 2 ^ 64
        if n1 < nb ∨ n1 > maxVal then (maxVal, some NumError.ErrRange)
        else parseUintLoop base cutoff maxVal s n1

/-- `strconv.ParseUint(s, base, bitSize)` for `2 ≤ base ≤ 36` and
`1 ≤ bitSize ≤ 64`, as the returned value and error.  Base 0 (prefix
detection) is not used by this program and is reported as a base error. -/
def ParseUint (s : Str) (base bitSize : Nat) : Nat × Option NumError :=
  if s = [] then (0, some NumError.ErrSyntax)
  else if ¬ (2 ≤ base ∧ base ≤ 36) then (0, some NumError.ErrBase)
  else
    let cutoff := (2 ^ 64 - 1) / base + 1
    let maxVal := 2 ^ bitSize - 1
    parseUintLoop base cutoff maxVal s 0

/-- `strconv.ParseInt(s, base, bitSize)` for an explicit base, as the returned
value and error. -/
def ParseInt (s : Str) (base bitSize : Nat) : Int × Option NumError :=
  if s = [] then (0, some NumError.ErrSyntax)
  else
    let neg : Bool := s.head? = some '-'
    let s1 := if s.head? = some '+' ∨ s.head? = some '-' then s.tail else s
    match ParseUint s1 base bitSize with
    | (_, some NumError.ErrSyntax) => (0, some NumError.ErrSyntax)
    | (_, some NumError.ErrBase) => (0, some NumError.ErrBase)
    | (un, _) =>
      let cutoff := 2 ^ (bitSize - 1)
      if neg = false ∧ un ≥ cutoff then (((cutoff - 1 : Nat) : Int), some NumError.ErrRange)
      else if neg = true ∧ un > cutoff then (-((cutoff : Nat) : Int), some NumError.ErrRange)
      else (if neg then -((un : Nat) : Int) else ((un : Nat) : Int), none)

/-- `strconv.Atoi(s)` with a 64-bit `int`: `ParseInt(s, 10, 0)`; the fast
path for short inputs computes the same result. -/
def Atoi (s : Str) : Int × Option NumError :=
  ParseInt s 10 64

/-! ## Manifest entries (`manifest.go`) -/

def ENTRY_IS_FILE : Str := "file".toList
def ENTRY_IS_LINK : Str := "symlink".toList
def ENTRY_IS_DIR : Str := "dir".toList
def ENTRY_IS_TREE : Str := "tree".toList
def ENTRY_IS_EMPTY_FILE : Str := "empty-file".toList

/-- `ManifestEntry`; the field `Typ` is the Go field `Type`. -/
structure ManifestEntry where
  Typ : Str
  Dest : Str
  Src : Str
  Mode : Str
  User : Str
  Group : Str
  UID : Int
  GID : Int
  Origin : Str
  deriving DecidableEq, Repr

/-! ## Go maps -/

/-- A `map[string]V`, as an association list with distinct keys. -/
abbrev GoMap (V : Type) := List (Str × V)

/-- Lookup `m[k]`; `none` is the zero value a missing key yields (`nil` for a
pointer, told apart from `""` where the value is a string). -/
def mapGet {V : Type} : GoMap V → Str → Option V
  | [], _ => none
  | (k1, v1) :: m, k => if k1 = k then some v1 else mapGet m k

/-- Assignment `m[k] = v`: replaces the value of an existing key, else adds
the key. -/
def mapSet {V : Type} : GoMap V → Str → V → GoMap V
  | [], k, v => [(k, v)]
  | (k1, v1) :: m, k, v => if k1 = k then (k, v) :: m else (k1, v1) :: mapSet m k v

/-- The order in which one `range` loop over a map visits its elements: any
rearrangement of them. -/
structure RangeOrder (α : Type) where
  perm : List α → List α
  isPerm : ∀ l, (perm l).Perm l

/-- Iteration in insertion order. -/
def RangeOrder.insertion (α : Type) : RangeOrder α :=
  ⟨fun l => l, fun l => List.Perm.refl l⟩

/-- Iteration in reverse insertion order. -/
def RangeOrder.reversed (α : Type) : RangeOrder α :=
  ⟨fun l => l.reverse, fun l => List.reverse_perm l⟩

/-! ## `loadManifest` -/

/-- The first loop of `loadManifest`: combine each destination with the
prefix and store the entry under it. -/
def readEntries (pfx : Str) : List ManifestEntry → GoMap ManifestEntry → GoMap ManifestEntry
  | [], manifestMap => manifestMap
  | entry :: entries, manifestMap =>
    let dest := combinePaths pfx entry.Dest
    readEntries pfx entries
      (mapSet manifestMap dest
        { Typ := entry.Typ
          Dest := dest
          Src := entry.Src
          Mode := entry.Mode
          User := entry.User
          Group := entry.Group
          UID := entry.UID
          GID := entry.GID
          Origin := entry.Origin })

/-- The entry `loadManifest` synthesizes for a missing parent. -/
def parentEntry (parent origin : Str) : ManifestEntry :=
  { Typ := ENTRY_IS_DIR
    Dest := parent
    Src := []
    Mode := "0o755".toList
    User := []
    Group := []
    UID := 0
    GID := 0
    Origin := "parent directory of ".toList ++ origin }

/-- The loop `for parent != "." { ... }` of `loadManifest` for the key `dest`,
one iteration per unit of fuel; `none` when the fuel runs out before the
loop exits, or when `manifestMap[dest]` is `nil` where it is dereferenced. -/
def parentLoop (dest : Str) : Nat → Str → GoMap ManifestEntry → Option (GoMap ManifestEntry)
  | 0, parent, manifestMap => if parent = ['.'] then some manifestMap else none
  | fuel + 1, parent, manifestMap =>
    if parent = ['.'] then some manifestMap
    else
      let parent1 := Dir parent
      if parent1 ≠ ['.'] ∧ mapGet manifestMap parent1 = none then
        match mapGet manifestMap dest with
        | none => none
        | some e =>
          parentLoop dest fuel parent1
            (mapSet manifestMap parent1 (parentEntry parent1 e.Origin))
      else parentLoop dest fuel parent1 manifestMap

/-- The loop `for _, dest := range manifestKeys { ... }` of `loadManifest`. -/
def synthesizeParents : List Str → GoMap ManifestEntry → Option (GoMap ManifestEntry)
  | [], manifestMap => some manifestMap
  | dest :: manifestKeys, manifestMap =>
    match parentLoop dest (dest.length + 1) dest manifestMap with
    | none => none
    | some m1 => synthesizeParents manifestKeys m1

/-- `sort.Slice(manifestEntries, less)` with `less i j` the comparison
`manifestEntries[i].Dest < manifestEntries[j].Dest`.  The destinations
sorted here are pairwise distinct, so the sorted arrangement is unique and
the choice of algorithm does not show. -/
def sortByDest (l : List ManifestEntry) : List ManifestEntry :=
  l.insertionSort (fun a b => a.Dest ≤ b.Dest)

/-- The comparison of `sortByDest` is total. -/
instance sortByDest_total : IsTotal ManifestEntry (fun a b => a.Dest ≤ b.Dest) :=
  ⟨fun a b => le_total a.Dest b.Dest⟩

/-- The comparison of `sortByDest` is transitive. -/
instance sortByDest_trans : IsTrans ManifestEntry (fun a b => a.Dest ≤ b.Dest) :=
  ⟨fun _ _ _ h1 h2 => le_trans h1 h2⟩

/-- What a run of `loadManifest` yields: the returned slice and the lines
written to standard output. -/
structure LoadResult where
  entries : List ManifestEntry
  printed : List Str
  deriving DecidableEq, Repr

/-- `loadManifest(prefix, manifestPath)` on the decoded entries of the
manifest file; `keyOrder` and `valueOrder` are the iteration orders of the two
`range` loops over `manifestMap`.  `none` when the run does not return. -/
def loadManifest (keyOrder valueOrder : RangeOrder (Str × ManifestEntry)) (pfx : Str)
    (entries : List ManifestEntry) : Option LoadResult :=
  let manifestMap := readEntries pfx entries []
  let manifestKeys := (keyOrder.perm manifestMap).map Prod.fst
  match synthesizeParents manifestKeys manifestMap with
  | none => none
  | some m1 =>
    let visited := (valueOrder.perm m1).map Prod.snd
    some { entries := sortByDest visited, printed := visited.map (fun e => e.Dest) }

/-! ## The archive writer -/

def zipEpoch : Int := 315532800

/-- `zip.Store`. -/
def zipStore : Nat := 0

/-- `zip.Deflate`. -/
def zipDeflate : Nat := 8

/-- The errors the program returns. -/
inductive Err where
  | invalidCompressionType (s : Str)
  | invalidCompressionLevel (s : Str)
  | createFailed (path : Str)
  | openFailed (path : Str)
  | walkFailed (path : Str)
  | readFailed (path : Str)
  | notANumber (s : Str)
  | missingTimestamp (path : Str)
  deriving DecidableEq, Repr

/-- The fields of `zip.FileHeader` the program sets.  `Modified` is the
instant `time.Unix(sec, 0)` as its number of seconds. -/
structure FileHeader where
  Name : Str
  Modified : Int
  Flags : Nat
  ExternalAttrs : Nat
  Method : Nat
  deriving DecidableEq, Repr

/-- A record of the archive: the header given to `CreateHeader` and the bytes
copied into the writer it returned. -/
structure ZipRecord where
  header : FileHeader
  content : List Nat
  deriving DecidableEq, Repr

/-- `ZipWriter`; the field `zipWriter` holds the records created so far. -/
structure ZipWriter where
  outputPath : Str
  timeStamp : Int
  defaultMode : Str
  compressionType : Nat
  compressionLevel : Nat
  zipWriter : List ZipRecord
  deriving DecidableEq, Repr

/-- A node visited by `filepath.Walk(treeTop, fn)`: the `path` given to the
callback, the result `rel` of `filepath.Rel(treeTop, path)`, and `info.Name()`
and `info.IsDir()`. -/
structure WalkNode where
  path : Str
  rel : Str
  name : Str
  isDir : Bool
  deriving DecidableEq, Repr

/-- The file system as the program reads it: the bytes `os.Open` and
`io.Copy` yield for a path (none when opening fails), whether `os.Stat`
succeeds, the nodes `filepath.Walk` visits from a root (none when the walk
reports an error), whether `os.Create` succeeds, and the text
`ioutil.ReadFile` yields for a path (none when reading fails). -/
structure FileSystem where
  contents : Str → Option (List Nat)
  statOk : Str → Bool
  walk : Str → Option (List WalkNode)
  createOk : Str → Bool
  readFile : Str → Option Str

/-- What the program has done to its surroundings: the lines written to
standard output and the files created. -/
structure World where
  stdout : List Str
  created : List Str
  deriving DecidableEq, Repr

/-- `parseMode(mode)`; `none` is the process exit of `log.Fatalf`. -/
def parseMode (mode : Str) : Option Nat :=
  if mode = [] then some 0
  else
    match ParseInt mode 8 32 with
    | (parsedMode, none) => some (parsedMode % 2 ^ 32).toNat
    | (_, some _) => none

/-- `parseCompression(compressionType)`. -/
def parseCompression (compressionType : Str) : Except Err Nat :=
  if compressionType = "deflated".toList then Except.ok zipDeflate
  else if compressionType = "stored".toList then Except.ok zipStore
  else if compressionType = [] then Except.ok zipDeflate
  else Except.error (Err.invalidCompressionType compressionType)

/-- `parseCompressionLevel(compressionLevel)`; the result is the `uint16`
conversion of the parsed `int`. -/
def parseCompressionLevel (compressionLevel : Str) : Except Err Nat :=
  if compressionLevel = [] then Except.ok zipStore
  else
    match Atoi compressionLevel with
    | (parsedLevel, none) => Except.ok (parsedLevel % 2 ^ 16).toNat
    | (_, some _) => Except.error (Err.invalidCompressionLevel compressionLevel)

/-- `NewZipWriter(outputPath, timeStamp, defaultMode, compressionType,
compressionLevel)`, with its effects on the world. -/
def NewZipWriter (fs : FileSystem) (w : World) (outputPath : Str) (timeStamp : Int)
    (defaultMode compressionType compressionLevel : Str) : Except Err ZipWriter × World :=
  match parseCompression compressionType with
  | Except.error err => (Except.error err, w)
  | Except.ok compression =>
    match parseCompressionLevel compressionLevel with
    | Except.error err => (Except.error err, w)
    | Except.ok level =>
      let w1 : World := { w with stdout := w.stdout ++ [outputPath] }
      if fs.createOk outputPath = false then (Except.error (Err.createFailed outputPath), w1)
      else
        let w2 : World :=
          { stdout := w1.stdout ++ ["Created ".toList ++ outputPath]
            created := w1.created ++ [outputPath] }
        (Except.ok
          { outputPath := outputPath
            timeStamp := timeStamp
            defaultMode := defaultMode
            compressionType := compression
            compressionLevel := level
            zipWriter := [] }, w2)

/-- `zw.makeZipInfo(path, mode)`; `none` is the process exit of `parseMode`.
`ExternalAttrs` is a `uint32`, so the shift keeps the low 32 bits. -/
def makeZipInfo (zw : ZipWriter) (path mode : Str) : Option FileHeader :=
  let attrs : Option Nat :=
    if mode ≠ [] then
      let fMode := (ParseUint mode 8 32).1
      some ((fMode % 2 ^ 32) * 2 ^ 16 % 2 ^ 32)
    else
      (parseMode zw.defaultMode).map (fun m => (m % 2 ^ 32) * 2 ^ 16 % 2 ^ 32)
  attrs.map (fun a =>
    { Name := path
      Modified := zw.timeStamp
      Flags := 0x800
      ExternalAttrs := a
      Method := 0 })

/-- `zw.zipWriter.CreateHeader(info)` followed by copying `content` into the
writer it returns: one more record. -/
def createRecord (zw : ZipWriter) (info : FileHeader) (content : List Nat) : ZipWriter :=
  { zw with zipWriter := zw.zipWriter ++ [{ header := info, content := content }] }

/-- The callback of `filepath.Walk` in `AddTree`, on the map `toWrite`. -/
def walkFn (dest : Str) (toWrite : GoMap Str) (node : WalkNode) : GoMap Str :=
  let destDir := Join [dest, node.rel]
  let toWrite1 := mapSet toWrite destDir []
  if node.isDir = false then mapSet toWrite1 (Join [destDir, node.name]) node.path
  else toWrite1

/-- The loop `for path, contentPath := range toWrite { ... }` of `AddTree`.
The outer `none` is a process exit; otherwise the writer after the loop and
the error returned, if any. -/
def addTreeEmit (fs : FileSystem) (mode : Str) :
    List (Str × Str) → ZipWriter → Option (ZipWriter × Option Err)
  | [], zw => some (zw, none)
  | (path, contentPath) :: rest, zw =>
    if contentPath ≠ [] then
      let fMode :=
        if mode = [] then (if fs.statOk contentPath then "0755".toList else zw.defaultMode)
        else mode
      match makeZipInfo zw path fMode with
      | none => none
      | some info =>
        match fs.contents contentPath with
        | none => some (zw, some (Err.openFailed contentPath))
        | some bytes => addTreeEmit fs mode rest (createRecord zw info bytes)
    else
      -- Implicitly created directory
      let dirPath := if hasSuffix path ['/'] = false then path ++ ['/'] else path
      match makeZipInfo zw dirPath "0755".toList with
      | none => none
      | some info =>
        addTreeEmit fs mode rest (createRecord zw { info with Method := zipStore } [])

/-- `zw.AddTree(treeTop, destPath, mode)`; `treeOrder` is the iteration order
of the `range` loop over `toWrite`. -/
def AddTree (fs : FileSystem) (treeOrder : RangeOrder (Str × Str)) (zw : ZipWriter)
    (treeTop destPath mode : Str) : Option (ZipWriter × Option Err) :=
  let treeTop1 := Clean treeTop
  let dest := Clean (trimSuffix destPath ['/'])
  match fs.walk treeTop1 with
  | none => some (zw, some (Err.walkFailed treeTop1))
  | some nodes =>
    let toWrite := nodes.foldl (walkFn dest) []
    addTreeEmit fs mode (treeOrder.perm toWrite) zw

/-- `zw.AddManifestEntry(entry)`.  The outer `none` is a process exit;
otherwise the writer afterwards and the error returned, if any. -/
def AddManifestEntry (fs : FileSystem) (treeOrder : RangeOrder (Str × Str)) (zw : ZipWriter)
    (entry : ManifestEntry) : Option (ZipWriter × Option Err) :=
  let entryType := entry.Typ
  let dest := entry.Dest
  let src := entry.Src
  let mode := entry.Mode
  let dstPath0 := trimSuffix dest ['/']
  let dstPath :=
    if entryType = ENTRY_IS_DIR ∧ hasSuffix dstPath0 ['/'] = false then dstPath0 ++ ['/']
    else dstPath0
  match makeZipInfo zw dstPath mode with
  | none => none
  | some entryInfo =>
    if entryType = ENTRY_IS_FILE then
      match fs.contents src with
      | none => some (zw, some (Err.openFailed src))
      | some bytes =>
        some (createRecord zw { entryInfo with Method := zw.compressionType } bytes, none)
    else if entryType = ENTRY_IS_TREE then
      AddTree fs treeOrder zw src dest mode
    else some (zw, none)



/-! ## The build timestamp (`build_info.go`, `main`) -/

/-- The loop over the lines in `GetTimestamp`: the first line that splits at
single spaces into more than one part, the first of them `BUILD_TIMESTAMP`,
decides; its second part is read with `Atoi`. -/
def scanTimestamp (volatileStatusFile : Str) : List Str → Int × Option Err
  | [] => (0, some (Err.missingTimestamp volatileStatusFile))
  | line :: lines =>
    let parts := splitByte (trimSpace line) ' '
    if parts.length > 1 ∧ parts.head? = some "BUILD_TIMESTAMP".toList then
      match Atoi (parts.getD 1 []) with
      | (timestamp, none) => (timestamp, none)
      | (_, some _) => (0, some (Err.notANumber (parts.getD 1 [])))
    else scanTimestamp volatileStatusFile lines

/-- `GetTimestamp(volatileStatusFile)`, as the returned value and error. -/
def GetTimestamp (fs : FileSystem) (volatileStatusFile : Str) : Int × Option Err :=
  match fs.readFile volatileStatusFile with
  | none => (0, some (Err.readFailed volatileStatusFile))
  | some content => scanTimestamp volatileStatusFile (splitByte content (Char.ofNat 10))

/-- The timestamp `main` gives the writer: `max(zipEpoch, timestamp)`, or, when
`-stamp_from` is set, the value `GetTimestamp` returns, its error dropped. -/
def mainTimestamp (fs : FileSystem) (timestamp : Int) (stampFrom : Str) : Int :=
  if stampFrom ≠ [] then (GetTimestamp fs stampFrom).1
  else max zipEpoch timestamp

/-! ## The words of the specification -/

/-- Strip all leading separators. -/
def stripLeading (s : Str) : Str := s.dropWhile (fun x => x == '/')

/-- Strip all trailing separators. -/
def stripTrailing (s : Str) : Str := s.rdropWhile (fun x => x == '/')

/-- The combination of a prefix and a destination as the specification words
it: strip trailing separators from the left part, leading separators from the
right part, join with one separator, strip leading separators. -/
def combineSpec (left right : Str) : Str :=
  stripLeading (stripTrailing left ++ ['/'] ++ stripLeading right)

/-! ## Measures used in the proofs about `Clean` -/

/-- One when the string ends in a separator, else zero. -/
def endsSlash (l : Str) : Nat := if l.getLast? = some '/' then 1 else 0

/-- One when `Clean` (on a path that is not rooted) is about to write a
separator before the element at the head of `rest`, else zero. -/
def needSep (rest out : Str) : Nat :=
  if out ≠ [] ∧ rest ≠ [] ∧ rest.head? ≠ some '/' then 1 else 0

/-! ## Invariants of `loadManifest` used in the proofs -/

/-- A manifest map is well formed: its keys are distinct and every entry is
stored under its own destination. -/
def MapOK (m : GoMap ManifestEntry) : Prop :=
  (m.map Prod.fst).Nodup ∧ ∀ kv ∈ m, kv.2.Dest = kv.1

/-- The map `m1` keeps every binding of `m`. -/
def Grows {V : Type} (m m1 : GoMap V) : Prop :=
  ∀ k, mapGet m k ≠ none → mapGet m1 k = mapGet m k

/-- The map `m` is the map `m0` of explicit entries with synthesized parents
added: well formed, it keeps every binding of `m0`, and every other binding is
the parent entry of a path reached by directory-name steps from a key of `m0`,
other than `.`, carrying the origin of the entry of that key. -/
def Synth (m0 m : GoMap ManifestEntry) : Prop :=
  MapOK m ∧ Grows m0 m ∧
  ∀ k v, mapGet m0 k = none → mapGet m k = some v →
    ∃ d e0 j, mapGet m0 d = some e0 ∧ k = Dir^[j + 1] d ∧ k ≠ ['.'] ∧
      v = parentEntry k e0.Origin

/-- Every path reached from `p` by one or more directory-name steps, other
than `.`, is a key of `m`. -/
def ChainIn (m : GoMap ManifestEntry) (p : Str) : Prop :=
  ∀ j, Dir^[j + 1] p ≠ ['.'] → mapGet m (Dir^[j + 1] p) ≠ none

/-! ## Octal numerals, as the specification reads a mode string -/

/-- The value of a non-empty string of octal digits; none for any other
string. -/
def octalValue (s : Str) : Option Nat :=
  if s ≠ [] ∧ s.all (fun c => decide ('0'.toNat ≤ c.toNat ∧ c.toNat ≤ '7'.toNat)) = true then
    some (s.foldl (fun n c => 8 * n + (c.toNat - '0'.toNat)) 0)
  else none

/-! ## Inputs used in the examples -/

/-- A writer with deflate compression and no default mode. -/
def exampleWriter : ZipWriter :=
  { outputPath := "out.zip".toList
    timeStamp := zipEpoch
    defaultMode := []
    compressionType := zipDeflate
    compressionLevel := 0
    zipWriter := [] }

/-- A file entry of a manifest, with the given destination, source and mode. -/
def fileEntry (dest src mode : Str) : ManifestEntry :=
  { Typ := ENTRY_IS_FILE, Dest := dest, Src := src, Mode := mode, User := [], Group := [],
    UID := 0, GID := 0, Origin := [] }

/-- A file system with one tree, `src`, that holds the single file
`src/sub/f.txt` (three bytes), and nothing else; `walk` lists the nodes
`filepath.Walk` visits from `src`: the top directory, `sub`, and the file. -/
def exampleFS : FileSystem :=
  { contents := fun p => if p = "src/sub/f.txt".toList then some [1, 2, 3] else none
    statOk := fun p =>
      p = "src".toList || p = "src/sub".toList || p = "src/sub/f.txt".toList
    walk := fun p =>
      if p = "src".toList then
        some [
          { path := "src".toList, rel := ".".toList, name := "src".toList, isDir := true },
          { path := "src/sub".toList, rel := "sub".toList, name := "sub".toList, isDir := true },
          { path := "src/sub/f.txt".toList, rel := "sub/f.txt".toList, name := "f.txt".toList,
            isDir := false }]
      else none
    createOk := fun _ => true
    readFile := fun _ => none }

/-! ## One iteration of the emission loop of `AddTree`, used in the proofs -/

/-- The outcome of one iteration of the loop of `addTreeEmit`: the process
exits, the loop returns an error, or a record is created. -/
inductive TreeStep where
  | fatal
  | fail (e : Err)
  | emit (r : ZipRecord)
  deriving DecidableEq, Repr

/-- One iteration of the loop of `addTreeEmit` for the pair
`(path, contentPath)`. -/
def treeStep (fs : FileSystem) (mode : Str) (zw : ZipWriter) (item : Str × Str) : TreeStep :=
  if item.2 ≠ [] then
    let fMode :=
      if mode = [] then (if fs.statOk item.2 then "0755".toList else zw.defaultMode)
      else mode
    match makeZipInfo zw item.1 fMode with
    | none => TreeStep.fatal
    | some info =>
      match fs.contents item.2 with
      | none => TreeStep.fail (Err.openFailed item.2)
      | some bytes => TreeStep.emit { header := info, content := bytes }
  else
    let dirPath := if hasSuffix item.1 ['/'] = false then item.1 ++ ['/'] else item.1
    match makeZipInfo zw dirPath "0755".toList with
    | none => TreeStep.fatal
    | some info => TreeStep.emit { header := { info with Method := zipStore }, content := [] }

/-- The record of a step that creates one, else an empty record. -/
def TreeStep.record : TreeStep → ZipRecord
  | TreeStep.emit r => r
  | _ => { header := { Name := [], Modified := 0, Flags := 0, ExternalAttrs := 0, Method := 0 },
           content := [] }

/-! ## Paths as sequences of segments, as the specification reads them -/

/-- A path segment that names something: not empty, without a separator, and
neither `.` nor `..`. -/
def normalSeg (s : Str) : Prop :=
  s ≠ [] ∧ '/' ∉ s ∧ s ≠ ['.'] ∧ s ≠ ['.', '.']

/-- The path made of the given segments, with one separator between two
segments: `a/b/c` for `a`, `b`, `c`. -/
def joinSegs : List Str → Str
  | [] => []
  | [s] => s
  | s :: t :: rest => s ++ '/' :: joinSegs (t :: rest)

/-- Parent completeness as the specification states it: for every entry of the
list and every split of its destination at a separator, with a non-empty part
before it, the list holds an entry of type `dir` whose destination is that
part. -/
def ParentComplete (l : List ManifestEntry) : Prop :=
  ∀ e ∈ l, ∀ p rest : Str, p ≠ [] → e.Dest = p ++ '/' :: rest →
    ∃ e1 ∈ l, e1.Dest = p ∧ e1.Typ = ENTRY_IS_DIR

/-! ## Numerals in a base up to ten, as the specification reads them -/

/-- The character is a digit of the base (at most ten). -/
def isDigitOf (base : Nat) (c : Char) : Bool :=
  decide ('0'.toNat ≤ c.toNat ∧ c.toNat < '0'.toNat + base)

/-- The value of the digits of `s` read after the value `n`. -/
def digitsFrom (base : Nat) (s : Str) (n : Nat) : Nat :=
  s.foldl (fun n c => base * n + (c.toNat - '0'.toNat)) n

/-- The value of a non-empty string of digits of the base; none for any other
string. -/
def digitsValue (base : Nat) (s : Str) : Option Nat :=
  if s ≠ [] ∧ s.all (isDigitOf base) = true then some (digitsFrom base s 0) else none

/-- The value of a decimal integer: an optional sign `+` or `-` and a non-empty
string of decimal digits; none for any other string. -/
def decimalValue (s : Str) : Option Int :=
  if s.head? = some '-' then (digitsValue 10 s.tail).map (fun (n : Nat) => -(n : Int))
  else if s.head? = some '+' then (digitsValue 10 s.tail).map (fun (n : Nat) => (n : Int))
  else (digitsValue 10 s).map (fun (n : Nat) => (n : Int))

/-! ## The status file, as the specification reads it -/

/-- The key of the status file that holds the timestamp. -/
def timestampKey : Str := "BUILD_TIMESTAMP".toList

/-- The first white-space-delimited token of a line: empty when the line is
blank. -/
def firstToken (l : Str) : Str :=
  (l.dropWhile isSpace).takeWhile (fun c => !isSpace c)

/-- The line after its first white-space-delimited token. -/
def afterFirstToken (l : Str) : Str :=
  (l.dropWhile isSpace).dropWhile (fun c => !isSpace c)

/-- The second white-space-delimited token of a line: empty when there is
none. -/
def secondToken (l : Str) : Str :=
  firstToken (afterFirstToken l)

/-- A file system in which every path reads as the given text. -/
def statusFS (content : Str) : FileSystem :=
  { exampleFS with readFile := fun _ => some content }

/-- The entry without its origin. -/
def dropOrigin (e : ManifestEntry) : ManifestEntry :=
  { e with Origin := [] }

/-- A file entry with the given destination and origin. -/
def originEntry (dest origin : Str) : ManifestEntry :=
  { Typ := ENTRY_IS_FILE, Dest := dest, Src := [], Mode := [], User := [], Group := [],
    UID := 0, GID := 0, Origin := origin }

/-- The name `AddManifestEntry` computes for the record of an entry: `dstPath`,
the destination without one trailing separator, with a separator added for a
directory unless it is there. -/
def entryDstPath (entry : ManifestEntry) : Str :=
  if entry.Typ = ENTRY_IS_DIR ∧ hasSuffix (trimSuffix entry.Dest ['/']) ['/'] = false then
    trimSuffix entry.Dest ['/'] ++ ['/']
  else trimSuffix entry.Dest ['/']

/-! ## `combinePaths` (C4) -/

theorem trimLeftByte_eq_dropWhile (s : Str) (c : Char) :
    trimLeftByte s c = s.dropWhile (fun x => x == c) := by
  induction s with
  | nil => rfl
  | cons a s ih =>
    by_cases h : a = c
    · simp [trimLeftByte, List.dropWhile_cons, h, ih]
    · simp [trimLeftByte, List.dropWhile_cons, h]

theorem trimLeftByte_head (s : Str) (c : Char) : (trimLeftByte s c).head? ≠ some c := by
  induction s with
  | nil => simp [trimLeftByte]
  | cons a s ih =>
    by_cases h : a = c
    · simpa [trimLeftByte, h] using ih
    · simp [trimLeftByte, h]

theorem trimRightByte_cons (a : Char) (s : Str) (c : Char) :
    trimRightByte (a :: s) c =
      match trimRightByte s c with
      | [] => if a = c then [] else [a]
      | b :: r => a :: b :: r := rfl

theorem trimRightByte_concat (s : Str) (x c : Char) :
    trimRightByte (s ++ [x]) c = if x = c then trimRightByte s c else s ++ [x] := by
  induction s with
  | nil => by_cases h : x = c <;> simp [trimRightByte, h]
  | cons a s ih =>
    rw [List.cons_append, trimRightByte_cons, ih, trimRightByte_cons]
    by_cases h : x = c
    · simp only [h, if_true]
    · simp only [h, if_false]
      cases s <;> rfl

theorem trimRightByte_eq_rdropWhile (s : Str) (c : Char) :
    trimRightByte s c = s.rdropWhile (fun x => x == c) := by
  induction s using List.reverseRecOn with
  | nil => simp [trimRightByte]
  | append_singleton s x ih =>
    rw [trimRightByte_concat, List.rdropWhile_concat, ih]
    simp

theorem combinePaths_head (left right : Str) :
    (combinePaths left right).head? ≠ some '/' :=
  trimLeftByte_head _ _

/-- C4: `combinePaths` never yields a path that begins with the separator; it
is the combination the specification words (trailing separators stripped from
the left, leading ones from the right, one separator between, leading ones
stripped from the whole); and it takes `/usr/`, `/lib/x` to `usr/lib/x` and
the empty prefix with `a/b` to `a/b`. -/
theorem combinePaths_spec (left right : Str) :
    (combinePaths left right).head? ≠ some '/' ∧
    combinePaths left right = combineSpec left right ∧
    combinePaths "/usr/".toList "/lib/x".toList = "usr/lib/x".toList ∧
    combinePaths [] "a/b".toList = "a/b".toList := by
  refine ⟨combinePaths_head left right, ?_, by decide, by decide⟩
  simp only [combinePaths, combineSpec, stripLeading, stripTrailing,
    trimLeftByte_eq_dropWhile, trimRightByte_eq_rdropWhile]

/-! ## `Clean` and `Dir` on paths that are not rooted -/

theorem endsSlash_cons_le (c : Char) (t : Str) (h : c ≠ '/') : endsSlash (c :: t) ≤ endsSlash t := by
  cases t with
  | nil => simp [endsSlash, h]
  | cons b t => simp [endsSlash, List.getLast?_cons_cons]

theorem endsSlash_slash_cons (t : Str) :
    endsSlash ('/' :: t) = if t = [] then 1 else endsSlash t := by
  cases t with
  | nil => simp [endsSlash]
  | cons b t => simp [endsSlash, List.getLast?_cons_cons]

theorem endsSlash_le_one (l : Str) : endsSlash l ≤ 1 := by
  unfold endsSlash; split <;> omega

theorem endsSlash_le_length (l : Str) : endsSlash l ≤ l.length := by
  cases l with
  | nil => simp [endsSlash]
  | cons a l => have := endsSlash_le_one (a :: l); simp; omega

theorem endsSlash_tail_le (t : Str) (h : t.head? ≠ some '/') : endsSlash t ≤ endsSlash t.tail := by
  cases t with
  | nil => simp [endsSlash]
  | cons b t => exact endsSlash_cons_le b t (by simpa using h)

theorem endsSlash_dropWhile (l : Str) :
    endsSlash l ≤ endsSlash (l.dropWhile (fun x => x ≠ '/')) := by
  induction l with
  | nil => simp
  | cons c t ih =>
    by_cases h : c = '/'
    · simp [List.dropWhile_cons, h]
    · simp only [List.dropWhile_cons, ne_eq, h, not_false_eq_true, decide_True, if_true]
      exact le_trans (endsSlash_cons_le c t h) ih

theorem needSep_le_one (rest out : Str) : needSep rest out ≤ 1 := by
  unfold needSep; split <;> omega

theorem needSep_of_boundary (rest out : Str) (h : rest = [] ∨ rest.head? = some '/') :
    needSep rest out = 0 := by
  unfold needSep
  rcases h with h | h <;> simp [h]

theorem needSep_nil_out (rest : Str) : needSep rest [] = 0 := by
  simp [needSep]

theorem dropWhile_boundary (l : Str) :
    l.dropWhile (fun x => x ≠ '/') = [] ∨ (l.dropWhile (fun x => x ≠ '/')).head? = some '/' := by
  induction l with
  | nil => simp
  | cons c t ih =>
    by_cases h : c = '/'
    · simp [List.dropWhile_cons, h]
    · simpa [List.dropWhile_cons, h] using ih

theorem takeWhile_length_add (l : Str) :
    (l.takeWhile (fun x => x ≠ '/')).length + (l.dropWhile (fun x => x ≠ '/')).length = l.length := by
  rw [← List.length_append, List.takeWhile_append_dropWhile]

theorem cleanLoop_zero (rooted : Bool) (rest out : Str) (dd : Nat) :
    cleanLoop rooted 0 rest out dd = out := rfl

theorem cleanLoop_nil (rooted : Bool) (fuel : Nat) (out : Str) (dd : Nat) :
    cleanLoop rooted fuel [] out dd = out := by
  cases fuel <;> rfl

theorem cleanLoop_succ_cons (rooted : Bool) (fuel : Nat) (c : Char) (t out : Str) (dotdot : Nat) :
    cleanLoop rooted (fuel + 1) (c :: t) out dotdot =
      if c = '/' then cleanLoop rooted fuel t out dotdot
      else if c = '.' ∧ (t = [] ∨ t.head? = some '/') then cleanLoop rooted fuel t out dotdot
      else if c = '.' ∧ t.head? = some '.' ∧ (t.tail = [] ∨ t.tail.head? = some '/') then
        if out.length > dotdot then
          cleanLoop rooted fuel t.tail
            (out.take (backtrackTo out dotdot (out.length - 1))) dotdot
        else if rooted = false then
          cleanLoop rooted fuel t.tail
            ((if out.length > 0 then out ++ ['/'] else out) ++ ['.', '.'])
            ((if out.length > 0 then out ++ ['/'] else out) ++ ['.', '.']).length
        else
          cleanLoop rooted fuel t.tail out dotdot
      else
        cleanLoop rooted fuel ((c :: t).dropWhile (fun x => x ≠ '/'))
          ((if (rooted = true ∧ out.length ≠ 1) ∨ (rooted = false ∧ out.length ≠ 0)
            then out ++ ['/'] else out) ++ (c :: t).takeWhile (fun x => x ≠ '/')) dotdot := rfl

theorem head?_take_ne (out : Str) (k : Nat) (h : out.head? ≠ some '/') :
    (out.take k).head? ≠ some '/' := by
  cases k with
  | zero => simp
  | succ k =>
    cases out with
    | nil => simp
    | cons a out => simpa using h

theorem head?_append_ne (out more : Str) (h : out.head? ≠ some '/')
    (h2 : out = [] → more.head? ≠ some '/') : (out ++ more).head? ≠ some '/' := by
  cases out with
  | nil => simpa using h2 rfl
  | cons a out => simpa using h

/-- One iteration of the loop of `Clean` on a path that is not rooted. -/
theorem cleanLoop_false_succ_cons (fuel : Nat) (c : Char) (t out : Str) (dotdot : Nat) :
    cleanLoop false (fuel + 1) (c :: t) out dotdot =
      if c = '/' then cleanLoop false fuel t out dotdot
      else if c = '.' ∧ (t = [] ∨ t.head? = some '/') then cleanLoop false fuel t out dotdot
      else if c = '.' ∧ t.head? = some '.' ∧ (t.tail = [] ∨ t.tail.head? = some '/') then
        if out.length > dotdot then
          cleanLoop false fuel t.tail
            (out.take (backtrackTo out dotdot (out.length - 1))) dotdot
        else
          cleanLoop false fuel t.tail
            ((if out = [] then out else out ++ ['/']) ++ ['.', '.'])
            ((if out = [] then out else out ++ ['/']) ++ ['.', '.']).length
      else
        cleanLoop false fuel ((c :: t).dropWhile (fun x => x ≠ '/'))
          ((if out = [] then out else out ++ ['/']) ++
            (c :: t).takeWhile (fun x => x ≠ '/')) dotdot := by
  rw [cleanLoop_succ_cons]
  cases out with
  | nil => simp
  | cons a out => simp

theorem sep_head (out : Str) (h : out.head? ≠ some '/') :
    (if out = [] then out else out ++ ['/']).head? ≠ some '/' := by
  cases out with
  | nil => simp
  | cons a out => simpa using h

theorem sep_length (out : Str) :
    (if out = [] then out else out ++ ['/']).length = out.length + (if out = [] then 0 else 1) := by
  cases out with
  | nil => simp
  | cons a out => simp

theorem sep_eq_nil (out : Str) : (if out = [] then out else out ++ ['/']) = [] ↔ out = [] := by
  cases out with
  | nil => simp
  | cons a out => simp

theorem cleanLoop_head (fuel : Nat) : ∀ (rest out : Str) (dd : Nat), out.head? ≠ some '/' →
    (cleanLoop false fuel rest out dd).head? ≠ some '/' := by
  induction fuel with
  | zero => intro rest out dd h; simpa [cleanLoop] using h
  | succ n ih =>
    intro rest out dd h
    cases rest with
    | nil => simpa [cleanLoop] using h
    | cons c t =>
      rw [cleanLoop_false_succ_cons]
      by_cases h1 : c = '/'
      · rw [if_pos h1]; exact ih _ _ _ h
      rw [if_neg h1]
      by_cases h2 : c = '.' ∧ (t = [] ∨ t.head? = some '/')
      · rw [if_pos h2]; exact ih _ _ _ h
      rw [if_neg h2]
      by_cases h3 : c = '.' ∧ t.head? = some '.' ∧ (t.tail = [] ∨ t.tail.head? = some '/')
      · rw [if_pos h3]
        by_cases h4 : out.length > dd
        · rw [if_pos h4]; exact ih _ _ _ (head?_take_ne _ _ h)
        · rw [if_neg h4]
          apply ih
          apply head?_append_ne _ _ (sep_head out h)
          intro _; simp
      · rw [if_neg h3]
        apply ih
        apply head?_append_ne _ _ (sep_head out h)
        intro _
        simp [List.takeWhile_cons, h1]

theorem cleanLoop_length (fuel : Nat) : ∀ (rest out : Str) (dd : Nat),
    (cleanLoop false fuel rest out dd).length + endsSlash rest
      ≤ out.length + rest.length + needSep rest out := by
  induction fuel with
  | zero =>
    intro rest out dd
    have := endsSlash_le_length rest
    simp only [cleanLoop_zero]; omega
  | succ n ih =>
    intro rest out dd
    cases rest with
    | nil => simp [cleanLoop_nil, endsSlash]
    | cons c t =>
      rw [cleanLoop_false_succ_cons]
      by_cases h1 : c = '/'
      · -- separator
        rw [if_pos h1]
        subst h1
        have := ih t out dd
        have h8 := needSep_le_one t out
        rw [endsSlash_slash_cons]
        by_cases ht : t = []
        · subst ht; simp [cleanLoop_nil]
        · simp only [ht, if_false, List.length_cons]; omega
      rw [if_neg h1]
      have hs : needSep (c :: t) out = if out = [] then 0 else 1 := by
        by_cases ho : out = [] <;> simp [needSep, ho, h1]
      by_cases h2 : c = '.' ∧ (t = [] ∨ t.head? = some '/')
      · -- dot element
        rw [if_pos h2]
        have := ih t out dd
        rw [needSep_of_boundary t out h2.2] at this
        have := endsSlash_cons_le c t h1
        simp only [List.length_cons]; omega
      rw [if_neg h2]
      by_cases h3 : c = '.' ∧ t.head? = some '.' ∧ (t.tail = [] ∨ t.tail.head? = some '/')
      · rw [if_pos h3]
        have h7 := endsSlash_cons_le c t h1
        have h8 : endsSlash t ≤ endsSlash t.tail := endsSlash_tail_le t (by simp [h3.2.1])
        have h10 : t.tail.length + 1 = t.length := by
          cases t with
          | nil => simp at h3
          | cons b t => simp
        by_cases h4 : out.length > dd
        · -- dotdot, backtracking
          rw [if_pos h4]
          have := ih t.tail (out.take (backtrackTo out dd (out.length - 1))) dd
          rw [needSep_of_boundary _ _ h3.2.2] at this
          have h9 : (out.take (backtrackTo out dd (out.length - 1))).length ≤ out.length := by
            rw [List.length_take]; exact Nat.min_le_right _ _
          simp only [List.length_cons]; omega
        · -- dotdot, appended
          rw [if_neg h4]
          have := ih t.tail ((if out = [] then out else out ++ ['/']) ++ ['.', '.'])
            ((if out = [] then out else out ++ ['/']) ++ ['.', '.']).length
          rw [needSep_of_boundary _ _ h3.2.2] at this
          have hl : ((if out = [] then out else out ++ ['/']) ++ ['.', '.']).length
              = out.length + (if out = [] then 0 else 1) + 2 := by
            rw [List.length_append, sep_length]; rfl
          rw [hs]
          simp only [List.length_cons]
          omega
      · -- real element
        rw [if_neg h3]
        have := ih ((c :: t).dropWhile (fun x => x ≠ '/'))
          ((if out = [] then out else out ++ ['/']) ++ (c :: t).takeWhile (fun x => x ≠ '/')) dd
        rw [needSep_of_boundary _ _ (dropWhile_boundary _), List.length_append, sep_length] at this
        have h7 := endsSlash_dropWhile (c :: t)
        have h8 := takeWhile_length_add (c :: t)
        rw [hs]
        simp only [List.length_cons] at this h8 ⊢
        omega

/-- `Clean` on a path that is not rooted. -/
theorem Clean_of_not_rooted (path : Str) (h : path.head? ≠ some '/') :
    Clean path =
      if cleanLoop false path.length path [] 0 = [] then ['.']
      else cleanLoop false path.length path [] 0 := by
  unfold Clean
  by_cases hp : path = []
  · subst hp; simp [cleanLoop]
  · simp [hp, h, List.length_eq_zero]

theorem Clean_head (path : Str) (h : path.head? ≠ some '/') : (Clean path).head? ≠ some '/' := by
  rw [Clean_of_not_rooted path h]
  split_ifs with h1
  · simp
  · exact cleanLoop_head _ _ _ _ (by simp)

theorem Clean_length (path : Str) (h : path.head? ≠ some '/') :
    Clean path = ['.'] ∨ (Clean path).length + endsSlash path ≤ path.length := by
  rw [Clean_of_not_rooted path h]
  split_ifs with h1
  · simp
  · right
    have := cleanLoop_length path.length path [] 0
    rw [needSep_nil_out] at this
    simpa using this

theorem Dir_dot : Dir ['.'] = ['.'] := by decide

theorem endsSlash_rdropWhile (p : Str) (h : p.rdropWhile (fun x => x ≠ '/') ≠ []) :
    endsSlash (p.rdropWhile (fun x => x ≠ '/')) = 1 := by
  have := List.rdropWhile_last_not (fun x => decide (x ≠ '/')) p h
  simp only [ne_eq, decide_not, Bool.not_eq_true', decide_eq_false_iff_not, not_not] at this
  unfold endsSlash
  rw [List.getLast?_eq_getLast _ h]
  simp [this]

/-- One step of the parent walk on a path that is not rooted: the directory
name is not rooted either, and it is `.` or strictly shorter. -/
theorem Dir_step (p : Str) (h : p.head? ≠ some '/') :
    (Dir p).head? ≠ some '/' ∧ (Dir p = ['.'] ∨ (Dir p).length < p.length) := by
  have hpre : p.rdropWhile (fun x => x ≠ '/') <+: p := List.rdropWhile_prefix _ _
  have hh : (p.rdropWhile (fun x => x ≠ '/')).head? ≠ some '/' := by
    obtain ⟨t, ht⟩ := hpre
    intro hq
    apply h
    rw [← ht]
    cases hq' : p.rdropWhile (fun x => x ≠ '/') with
    | nil => rw [hq'] at hq; simp at hq
    | cons a l => rw [hq'] at hq; simpa using hq
  refine ⟨Clean_head _ hh, ?_⟩
  unfold Dir
  by_cases hq : p.rdropWhile (fun x => x ≠ '/') = []
  · left; rw [hq]; decide
  · rcases Clean_length _ hh with h1 | h1
    · exact Or.inl h1
    · right
      rw [endsSlash_rdropWhile p hq] at h1
      have := hpre.length_le
      omega

theorem Dir_iterate_dot (j : Nat) : Dir^[j] ['.'] = ['.'] := by
  induction j with
  | zero => rfl
  | succ j ih => rw [Function.iterate_succ_apply, Dir_dot, ih]

/-! ## Go maps -/

theorem mapGet_mapSet {V : Type} (m : GoMap V) (k : Str) (v : V) (k1 : Str) :
    mapGet (mapSet m k v) k1 = if k = k1 then some v else mapGet m k1 := by
  induction m with
  | nil => simp [mapSet, mapGet]
  | cons kv m ih =>
    obtain ⟨k2, v2⟩ := kv
    by_cases h : k2 = k
    · subst h
      by_cases h1 : k2 = k1 <;> simp [mapSet, mapGet, h1]
    · by_cases h1 : k2 = k1
      · subst h1
        simp [mapSet, mapGet, h, Ne.symm h]
      · simp [mapSet, mapGet, h, h1, ih]

theorem mapGet_ne_none_iff {V : Type} (m : GoMap V) (k : Str) :
    mapGet m k ≠ none ↔ k ∈ m.map Prod.fst := by
  induction m with
  | nil => simp [mapGet]
  | cons kv m ih =>
    obtain ⟨k2, v2⟩ := kv
    rw [List.map_cons, List.mem_cons]
    by_cases h : k2 = k
    · subst h
      simp only [mapGet, if_true]
      exact ⟨fun _ => Or.inl trivial, fun _ => Option.some_ne_none _⟩
    · simp only [mapGet, h, if_false, ih]
      constructor
      · exact Or.inr
      · rintro (h1 | h1)
        · exact absurd h1.symm h
        · exact h1

theorem mapGet_eq_none_iff {V : Type} (m : GoMap V) (k : Str) :
    mapGet m k = none ↔ k ∉ m.map Prod.fst := by
  rw [← mapGet_ne_none_iff]; simp

theorem mapGet_eq_some_iff {V : Type} (m : GoMap V) (hm : (m.map Prod.fst).Nodup) (k : Str)
    (v : V) : mapGet m k = some v ↔ (k, v) ∈ m := by
  induction m with
  | nil => simp [mapGet]
  | cons kv m ih =>
    obtain ⟨k2, v2⟩ := kv
    simp only [List.map_cons, List.nodup_cons] at hm
    by_cases h : k2 = k
    · subst h
      simp only [mapGet, if_true, Option.some.injEq, List.mem_cons, Prod.mk.injEq, true_and]
      constructor
      · intro h1; exact Or.inl h1.symm
      · rintro (h1 | h1)
        · exact h1.symm
        · exact absurd (List.mem_map_of_mem Prod.fst h1) hm.1
    · simp only [mapGet, h, if_false, ih hm.2, List.mem_cons, Prod.mk.injEq]
      constructor
      · exact Or.inr
      · rintro (h1 | h1)
        · exact absurd h1.1.symm h
        · exact h1

theorem mapKeys_mapSet {V : Type} (m : GoMap V) (k : Str) (v : V) :
    (mapSet m k v).map Prod.fst =
      if k ∈ m.map Prod.fst then m.map Prod.fst else m.map Prod.fst ++ [k] := by
  induction m with
  | nil => simp [mapSet]
  | cons kv m ih =>
    obtain ⟨k2, v2⟩ := kv
    by_cases h : k2 = k
    · subst h
      simp only [mapSet, if_true, List.map_cons, List.mem_cons, true_or]
    · have h2 : ¬ k = k2 := fun h3 => h h3.symm
      simp only [mapSet, h, if_false, List.map_cons, ih, List.mem_cons, h2, false_or]
      split_ifs
      · rfl
      · rfl

theorem mem_mapSet {V : Type} (m : GoMap V) (k : Str) (v : V) (kv : Str × V)
    (h : kv ∈ mapSet m k v) : kv = (k, v) ∨ kv ∈ m := by
  induction m with
  | nil => simpa [mapSet] using h
  | cons kv2 m ih =>
    obtain ⟨k2, v2⟩ := kv2
    by_cases h1 : k2 = k
    · simp only [mapSet, h1, if_true, List.mem_cons] at h
      rcases h with h | h
      · exact Or.inl h
      · exact Or.inr (List.mem_cons_of_mem _ h)
    · simp only [mapSet, h1, if_false, List.mem_cons] at h
      rcases h with h | h
      · exact Or.inr (h ▸ List.mem_cons_self _ _)
      · rcases ih h with h2 | h2
        · exact Or.inl h2
        · exact Or.inr (List.mem_cons_of_mem _ h2)

theorem MapOK_nil : MapOK [] := by
  simp [MapOK]

theorem MapOK_mapSet (m : GoMap ManifestEntry) (k : Str) (v : ManifestEntry) (hm : MapOK m)
    (hv : v.Dest = k) : MapOK (mapSet m k v) := by
  constructor
  · rw [mapKeys_mapSet]
    split_ifs with h
    · exact hm.1
    · refine List.Nodup.append hm.1 (List.nodup_singleton k) ?_
      intro a ha hb
      rw [List.mem_singleton] at hb
      exact h (hb ▸ ha)
  · intro kv hkv
    rcases mem_mapSet m k v kv hkv with h | h
    · rw [h]; exact hv
    · exact hm.2 kv h

theorem Grows_refl {V : Type} (m : GoMap V) : Grows m m := fun _ _ => rfl

theorem Grows_trans {V : Type} {m1 m2 m3 : GoMap V} (h12 : Grows m1 m2) (h23 : Grows m2 m3) :
    Grows m1 m3 := by
  intro k hk
  have h1 := h12 k hk
  rw [h23 k (by rw [h1]; exact hk), h1]

theorem Grows_mapSet {V : Type} (m : GoMap V) (k : Str) (v : V) (h : mapGet m k = none) :
    Grows m (mapSet m k v) := by
  intro k1 hk1
  rw [mapGet_mapSet]
  split_ifs with h1
  · subst h1; exact absurd h hk1
  · rfl

/-! ## The loops of `loadManifest` -/

theorem ChainIn_dot (m : GoMap ManifestEntry) : ChainIn m ['.'] := by
  intro j hj
  exact absurd (Dir_iterate_dot (j + 1)) hj

theorem ChainIn_mono {m m1 : GoMap ManifestEntry} {p : Str} (h : ChainIn m p)
    (hg : Grows m m1) : ChainIn m1 p := by
  intro j hj
  have h1 := h j hj
  rw [hg _ h1]; exact h1

theorem ChainIn_iterate {m : GoMap ManifestEntry} {p : Str} (h : ChainIn m p) (i : Nat) :
    ChainIn m (Dir^[i] p) := by
  intro j hj
  rw [← Function.iterate_add_apply] at hj ⊢
  have : j + 1 + i = (j + i) + 1 := by omega
  rw [this] at hj ⊢
  exact h _ hj

theorem ChainIn_of_step {m : GoMap ManifestEntry} {p : Str} (h : ChainIn m (Dir p))
    (h1 : Dir p ≠ ['.'] → mapGet m (Dir p) ≠ none) : ChainIn m p := by
  intro j hj
  cases j with
  | zero => exact h1 hj
  | succ j =>
    rw [Function.iterate_succ_apply] at hj ⊢
    exact h j hj

/-- The parent walk for one key: it exits, the map stays a map of explicit
entries plus synthesized parents, nothing is replaced, and afterwards every
ancestor of the starting point is a key. -/
theorem parentLoop_spec (m0 : GoMap ManifestEntry) (dest : Str) (e0 : ManifestEntry)
    (h0 : mapGet m0 dest = some e0) (fuel : Nat) :
    ∀ (parent : Str) (m : GoMap ManifestEntry) (i : Nat), parent = Dir^[i] dest →
      Synth m0 m → parent.head? ≠ some '/' → (parent = ['.'] ∨ parent.length < fuel) →
      ∃ m1, parentLoop dest fuel parent m = some m1 ∧ Synth m0 m1 ∧ Grows m m1 ∧
        ChainIn m1 parent := by
  induction fuel with
  | zero =>
    intro parent m i _ hs _ hlen
    have hp : parent = ['.'] := by
      rcases hlen with h | h
      · exact h
      · exact absurd h (Nat.not_lt_zero _)
    subst hp
    exact ⟨m, by simp [parentLoop], hs, Grows_refl m, ChainIn_dot m⟩
  | succ n ih =>
    intro parent m i hi hs hroot hlen
    by_cases hp : parent = ['.']
    · subst hp
      exact ⟨m, by simp [parentLoop], hs, Grows_refl m, ChainIn_dot m⟩
    · have hstep := Dir_step parent hroot
      have hlen1 : Dir parent = ['.'] ∨ (Dir parent).length < n := by
        rcases hstep.2 with h | h
        · exact Or.inl h
        · rcases hlen with h2 | h2
          · exact absurd h2 hp
          · right; omega
      have hi1 : Dir parent = Dir^[i + 1] dest := by
        rw [Function.iterate_succ_apply', ← hi]
      have hdest : mapGet m dest = some e0 := by
        rw [hs.2.1 dest (by rw [h0]; exact Option.some_ne_none _), h0]
      by_cases hc : Dir parent ≠ ['.'] ∧ mapGet m (Dir parent) = none
      · have hs1 : Synth m0 (mapSet m (Dir parent) (parentEntry (Dir parent) e0.Origin)) := by
          refine ⟨MapOK_mapSet _ _ _ hs.1 rfl, Grows_trans hs.2.1 (Grows_mapSet _ _ _ hc.2), ?_⟩
          intro k v hk hv
          rw [mapGet_mapSet] at hv
          by_cases hk1 : Dir parent = k
          · rw [if_pos hk1] at hv
            refine ⟨dest, e0, i, h0, ?_, ?_, ?_⟩
            · rw [← hk1]; exact hi1
            · rw [← hk1]; exact hc.1
            · rw [← hk1]; exact (Option.some.inj hv).symm
          · rw [if_neg hk1] at hv
            exact hs.2.2 k v hk hv
        obtain ⟨m1, hm1, hs2, hg, hch⟩ :=
          ih (Dir parent) _ (i + 1) hi1 hs1 hstep.1 hlen1
        refine ⟨m1, ?_, hs2, Grows_trans (Grows_mapSet _ _ _ hc.2) hg, ?_⟩
        · simp only [parentLoop, hp, if_false, hc, hdest]
          simpa [hc.1] using hm1
        · apply ChainIn_of_step hch
          intro _
          rw [hg _ (by rw [mapGet_mapSet, if_pos rfl]; exact Option.some_ne_none _),
            mapGet_mapSet, if_pos rfl]
          exact Option.some_ne_none _
      · obtain ⟨m1, hm1, hs2, hg, hch⟩ := ih (Dir parent) m (i + 1) hi1 hs hstep.1 hlen1
        refine ⟨m1, ?_, hs2, hg, ?_⟩
        · simp only [parentLoop, hp, if_false, hc]
          exact hm1
        · apply ChainIn_of_step hch
          intro hne
          have hin : mapGet m (Dir parent) ≠ none := fun h => hc ⟨hne, h⟩
          rw [hg _ hin]; exact hin

/-- The loop over the keys: it exits, and afterwards every ancestor of every
visited key is a key. -/
theorem synthesizeParents_spec (m0 : GoMap ManifestEntry) :
    ∀ (ks : List Str) (m : GoMap ManifestEntry),
      (∀ k ∈ ks, mapGet m0 k ≠ none ∧ k.head? ≠ some '/') → Synth m0 m →
      ∃ m1, synthesizeParents ks m = some m1 ∧ Synth m0 m1 ∧ Grows m m1 ∧
        ∀ k ∈ ks, ChainIn m1 k := by
  intro ks
  induction ks with
  | nil =>
    intro m _ hs
    exact ⟨m, rfl, hs, Grows_refl m, by simp⟩
  | cons dest ks ih =>
    intro m hks hs
    obtain ⟨hd, hroot⟩ := hks dest (List.mem_cons_self _ _)
    obtain ⟨e0, he0⟩ := Option.ne_none_iff_exists'.mp hd
    obtain ⟨m1, hm1, hs1, hg1, hch1⟩ :=
      parentLoop_spec m0 dest e0 he0 (dest.length + 1) dest m 0 rfl hs hroot
        (Or.inr (Nat.lt_succ_self _))
    obtain ⟨m2, hm2, hs2, hg2, hch2⟩ :=
      ih m1 (fun k hk => hks k (List.mem_cons_of_mem _ hk)) hs1
    refine ⟨m2, ?_, hs2, Grows_trans hg1 hg2, ?_⟩
    · simp only [synthesizeParents, hm1]
      exact hm2
    · intro k hk
      rcases List.mem_cons.mp hk with h | h
      · rw [h]; exact ChainIn_mono hch1 hg2
      · exact hch2 k h

theorem readEntries_append (pfx : Str) (a b : List ManifestEntry) (m : GoMap ManifestEntry) :
    readEntries pfx (a ++ b) m = readEntries pfx b (readEntries pfx a m) := by
  induction a generalizing m with
  | nil => rfl
  | cons e a ih =>
    rw [List.cons_append]
    simp only [readEntries]
    exact ih _

theorem readEntries_MapOK (pfx : Str) (es : List ManifestEntry) (m : GoMap ManifestEntry)
    (hm : MapOK m) : MapOK (readEntries pfx es m) := by
  induction es generalizing m with
  | nil => exact hm
  | cons e es ih =>
    simp only [readEntries]
    exact ih _ (MapOK_mapSet _ _ _ hm rfl)

theorem readEntries_get_of_not (pfx : Str) (es : List ManifestEntry) (m : GoMap ManifestEntry)
    (d : Str) (h : ∀ x ∈ es, combinePaths pfx x.Dest ≠ d) :
    mapGet (readEntries pfx es m) d = mapGet m d := by
  induction es generalizing m with
  | nil => rfl
  | cons e es ih =>
    simp only [readEntries]
    rw [ih _ (fun x hx => h x (List.mem_cons_of_mem _ hx)), mapGet_mapSet,
      if_neg (h e (List.mem_cons_self _ _))]

theorem readEntries_get_ne_none (pfx : Str) (es : List ManifestEntry)
    (m : GoMap ManifestEntry) (k : Str) :
    mapGet (readEntries pfx es m) k ≠ none ↔
      mapGet m k ≠ none ∨ ∃ e ∈ es, combinePaths pfx e.Dest = k := by
  induction es generalizing m with
  | nil => simp [readEntries]
  | cons e es ih =>
    simp only [readEntries]
    rw [ih, mapGet_mapSet]
    by_cases h : combinePaths pfx e.Dest = k
    · simp only [h, if_true]
      constructor
      · intro _; exact Or.inr ⟨e, List.mem_cons_self _ _, h⟩
      · intro _; exact Or.inl (Option.some_ne_none _)
    · simp only [h, if_false]
      constructor
      · rintro (h1 | ⟨x, hx, hxk⟩)
        · exact Or.inl h1
        · exact Or.inr ⟨x, List.mem_cons_of_mem _ hx, hxk⟩
      · rintro (h1 | ⟨x, hx, hxk⟩)
        · exact Or.inl h1
        · rcases List.mem_cons.mp hx with h2 | h2
          · rw [h2] at hxk; exact absurd hxk h
          · exact Or.inr ⟨x, h2, hxk⟩

theorem readEntries_key_head (pfx : Str) (es : List ManifestEntry) (k : Str)
    (h : mapGet (readEntries pfx es []) k ≠ none) : k.head? ≠ some '/' := by
  rcases (readEntries_get_ne_none pfx es [] k).mp h with h1 | ⟨e, _, he⟩
  · exact absurd rfl h1
  · rw [← he]; exact combinePaths_head pfx e.Dest

theorem Synth_refl (m0 : GoMap ManifestEntry) (h : MapOK m0) : Synth m0 m0 := by
  refine ⟨h, Grows_refl m0, ?_⟩
  intro k v hk hv
  rw [hk] at hv
  exact absurd hv (by simp)

/-- A run of `loadManifest` returns: the map after parent synthesis is the map
of explicit entries plus synthesized parents, closed under directory-name
steps, and the result is its values, sorted. -/
theorem loadManifest_run (keyOrder valueOrder : RangeOrder (Str × ManifestEntry)) (pfx : Str)
    (raws : List ManifestEntry) :
    ∃ m1, Synth (readEntries pfx raws []) m1 ∧ (∀ k, mapGet m1 k ≠ none → ChainIn m1 k) ∧
      loadManifest keyOrder valueOrder pfx raws =
        some { entries := sortByDest ((valueOrder.perm m1).map Prod.snd)
               printed := ((valueOrder.perm m1).map Prod.snd).map (fun e => e.Dest) } := by
  have hok : MapOK (readEntries pfx raws []) := readEntries_MapOK pfx raws [] MapOK_nil
  have hks : ∀ k ∈ (keyOrder.perm (readEntries pfx raws [])).map Prod.fst,
      mapGet (readEntries pfx raws []) k ≠ none ∧ k.head? ≠ some '/' := by
    intro k hk
    have hk1 : k ∈ (readEntries pfx raws []).map Prod.fst :=
      ((keyOrder.isPerm _).map Prod.fst).mem_iff.mp hk
    have hk2 := (mapGet_ne_none_iff _ k).mpr hk1
    exact ⟨hk2, readEntries_key_head pfx raws k hk2⟩
  obtain ⟨m1, hm1, hs, _, hch⟩ :=
    synthesizeParents_spec (readEntries pfx raws []) _ (readEntries pfx raws []) hks
      (Synth_refl _ hok)
  refine ⟨m1, hs, ?_, ?_⟩
  · intro k hk
    cases hk0 : mapGet (readEntries pfx raws []) k with
    | some e =>
      apply hch
      apply ((keyOrder.isPerm _).map Prod.fst).mem_iff.mpr
      apply (mapGet_ne_none_iff _ k).mp
      rw [hk0]; exact Option.some_ne_none _
    | none =>
      obtain ⟨v, hv⟩ := Option.ne_none_iff_exists'.mp hk
      obtain ⟨d, e0, j, hd, hkd, _, _⟩ := hs.2.2 k v hk0 hv
      rw [hkd]
      apply ChainIn_iterate
      apply hch
      apply ((keyOrder.isPerm _).map Prod.fst).mem_iff.mpr
      apply (mapGet_ne_none_iff _ d).mp
      rw [hd]; exact Option.some_ne_none _
  · simp only [loadManifest, hm1]

theorem mem_entries_iff (valueOrder : RangeOrder (Str × ManifestEntry))
    (m1 : GoMap ManifestEntry) (hm : MapOK m1) (e : ManifestEntry) :
    e ∈ sortByDest ((valueOrder.perm m1).map Prod.snd) ↔ mapGet m1 e.Dest = some e := by
  unfold sortByDest
  rw [List.mem_insertionSort, ((valueOrder.isPerm m1).map Prod.snd).mem_iff,
    mapGet_eq_some_iff m1 hm.1]
  constructor
  · intro h
    obtain ⟨kv, hkv, hkv2⟩ := List.mem_map.mp h
    have := hm.2 kv hkv
    rw [← hkv2, this]
    exact hkv
  · intro h
    exact List.mem_map.mpr ⟨(e.Dest, e), h, rfl⟩

theorem entries_dest_nodup (valueOrder : RangeOrder (Str × ManifestEntry))
    (m1 : GoMap ManifestEntry) (hm : MapOK m1) :
    ((sortByDest ((valueOrder.perm m1).map Prod.snd)).map (fun e => e.Dest)).Nodup := by
  have h1 : ((sortByDest ((valueOrder.perm m1).map Prod.snd)).map (fun e => e.Dest)).Perm
      (m1.map (fun kv => kv.2.Dest)) := by
    unfold sortByDest
    have := ((List.perm_insertionSort (fun a b : ManifestEntry => a.Dest ≤ b.Dest)
      ((valueOrder.perm m1).map Prod.snd)).trans ((valueOrder.isPerm m1).map Prod.snd)).map
        (fun e => e.Dest)
    simpa [List.map_map] using this
  have h2 : m1.map (fun kv => kv.2.Dest) = m1.map Prod.fst :=
    List.map_congr_left (fun kv hkv => hm.2 kv hkv)
  rw [h1.nodup_iff, h2]
  exact hm.1

theorem sortByDest_sorted (l : List ManifestEntry) :
    ((sortByDest l).map (fun e => e.Dest)).Sorted (· ≤ ·) := by
  unfold sortByDest
  have := List.sorted_insertionSort (fun a b : ManifestEntry => a.Dest ≤ b.Dest) l
  exact List.pairwise_map.mpr this

/-- C2: `loadManifest` returns, and the destinations of the returned list are
in strictly ascending lexicographic order; in particular no two returned
entries share a destination. -/
theorem loadManifest_sorted (keyOrder valueOrder : RangeOrder (Str × ManifestEntry))
    (pfx : Str) (raws : List ManifestEntry) :
    ∃ r, loadManifest keyOrder valueOrder pfx raws = some r ∧
      (r.entries.map (fun e => e.Dest)).Sorted (· < ·) ∧
      (r.entries.map (fun e => e.Dest)).Nodup := by
  obtain ⟨m1, hs, _, hr⟩ := loadManifest_run keyOrder valueOrder pfx raws
  refine ⟨_, hr, ?_, entries_dest_nodup valueOrder m1 hs.1⟩
  exact (sortByDest_sorted _).lt_of_le (entries_dest_nodup valueOrder m1 hs.1)

/-! ## Last write wins (C3) -/

theorem exists_last_of_exists {α : Type} (P : α → Prop) (l : List α) (h : ∃ x ∈ l, P x) :
    ∃ pre e post, l = pre ++ e :: post ∧ P e ∧ ∀ x ∈ post, ¬ P x := by
  induction l with
  | nil => obtain ⟨x, hx, _⟩ := h; exact absurd hx (List.not_mem_nil x)
  | cons a l ih =>
    by_cases hl : ∃ x ∈ l, P x
    · obtain ⟨pre, e, post, h1, h2, h3⟩ := ih hl
      exact ⟨a :: pre, e, post, by rw [h1]; rfl, h2, h3⟩
    · obtain ⟨x, hx, hpx⟩ := h
      rcases List.mem_cons.mp hx with h1 | h1
      · subst h1
        exact ⟨[], x, l, rfl, hpx, fun y hy hpy => hl ⟨y, hy, hpy⟩⟩
      · exact absurd ⟨x, h1, hpx⟩ hl

theorem filter_dest_eq_singleton (l : List ManifestEntry)
    (hn : (l.map (fun e => e.Dest)).Nodup) (x : ManifestEntry) (hx : x ∈ l) :
    l.filter (fun e => e.Dest = x.Dest) = [x] := by
  induction l with
  | nil => exact absurd hx (List.not_mem_nil x)
  | cons a l ih =>
    simp only [List.map_cons, List.nodup_cons] at hn
    rcases List.mem_cons.mp hx with h1 | h1
    · subst h1
      rw [List.filter_cons_of_pos (by simp)]
      congr 1
      apply List.filter_eq_nil_iff.mpr
      intro b hb hbx
      apply hn.1
      have : b.Dest = x.Dest := by simpa using hbx
      rw [← this]
      exact List.mem_map_of_mem _ hb
    · have hne : a.Dest ≠ x.Dest := by
        intro h
        apply hn.1
        rw [h]
        exact List.mem_map_of_mem _ h1
      rw [List.filter_cons_of_neg (by simpa using hne)]
      exact ih hn.2 h1

theorem readEntries_get_last (pfx : Str) (pre post : List ManifestEntry) (e : ManifestEntry)
    (m : GoMap ManifestEntry) (hpost : ∀ x ∈ post, combinePaths pfx x.Dest ≠ combinePaths pfx e.Dest) :
    mapGet (readEntries pfx (pre ++ e :: post) m) (combinePaths pfx e.Dest) =
      some { e with Dest := combinePaths pfx e.Dest } := by
  rw [readEntries_append]
  simp only [readEntries]
  rw [readEntries_get_of_not pfx post _ _ hpost, mapGet_mapSet, if_pos rfl]

/-- C3: for every destination `d` that is the combined destination of some raw
entry, with `e` the last raw entry whose combined destination is `d`, the
resolved manifest holds exactly one entry with destination `d`, and it is `e`
with its destination rewritten: type, source, mode, user, group, uid, gid and
origin are those of `e`, whether or not `d` is an ancestor of another
destination. -/
theorem loadManifest_last_write_wins (keyOrder valueOrder : RangeOrder (Str × ManifestEntry))
    (pfx : Str) (raws : List ManifestEntry) (d : Str)
    (hd : ∃ x ∈ raws, combinePaths pfx x.Dest = d) :
    ∃ pre e post, raws = pre ++ e :: post ∧ combinePaths pfx e.Dest = d ∧
      (∀ x ∈ post, combinePaths pfx x.Dest ≠ d) ∧
      ∃ r, loadManifest keyOrder valueOrder pfx raws = some r ∧
        r.entries.filter (fun x => x.Dest = d) = [{ e with Dest := d }] := by
  obtain ⟨pre, e, post, hl, he, hpost⟩ :=
    exists_last_of_exists (fun x => combinePaths pfx x.Dest = d) raws hd
  refine ⟨pre, e, post, hl, he, hpost, ?_⟩
  obtain ⟨m1, hs, _, hr⟩ := loadManifest_run keyOrder valueOrder pfx raws
  refine ⟨_, hr, ?_⟩
  subst he
  have hget : mapGet (readEntries pfx raws []) (combinePaths pfx e.Dest) =
      some { e with Dest := combinePaths pfx e.Dest } := by
    rw [hl]; exact readEntries_get_last pfx pre post e [] hpost
  have hget1 : mapGet m1 (combinePaths pfx e.Dest) =
      some { e with Dest := combinePaths pfx e.Dest } := by
    rw [hs.2.1 _ (by rw [hget]; exact Option.some_ne_none _), hget]
  have hmem := (mem_entries_iff valueOrder m1 hs.1
    { e with Dest := combinePaths pfx e.Dest }).mpr hget1
  exact filter_dest_eq_singleton _ (entries_dest_nodup valueOrder m1 hs.1) _ hmem

/-- Two raw entries for `/a.txt` that differ in their source: the second one
is the entry of the resolved manifest. -/
theorem loadManifest_last_write_wins_witness :
    ∃ pre e post,
      [({ Typ := ENTRY_IS_FILE, Dest := "/a.txt".toList, Src := "one".toList, Mode := [],
          User := [], Group := [], UID := 0, GID := 0, Origin := [] } : ManifestEntry),
       { Typ := ENTRY_IS_FILE, Dest := "/a.txt".toList, Src := "two".toList, Mode := [],
          User := [], Group := [], UID := 0, GID := 0, Origin := [] }] = pre ++ e :: post ∧
      combinePaths ['/'] e.Dest = "a.txt".toList ∧
      (∀ x ∈ post, combinePaths ['/'] x.Dest ≠ "a.txt".toList) ∧
      ∃ r, loadManifest (RangeOrder.insertion _) (RangeOrder.reversed _) ['/']
          [{ Typ := ENTRY_IS_FILE, Dest := "/a.txt".toList, Src := "one".toList, Mode := [],
             User := [], Group := [], UID := 0, GID := 0, Origin := [] },
           { Typ := ENTRY_IS_FILE, Dest := "/a.txt".toList, Src := "two".toList, Mode := [],
             User := [], Group := [], UID := 0, GID := 0, Origin := [] }] = some r ∧
        r.entries.filter (fun x => x.Dest = "a.txt".toList) = [{ e with Dest := "a.txt".toList }] :=
  loadManifest_last_write_wins (RangeOrder.insertion _) (RangeOrder.reversed _) ['/'] _ _
    ⟨_, List.mem_cons_self _ _, by decide⟩

/-! ## `parseCompression` (C10) -/

/-- C10: `parseCompression` accepts exactly three inputs: `deflated` and the
empty string give deflate (method 8), `stored` gives store (method 0), each
without error; every other string gives an error, and `NewZipWriter` then fails
with that error leaving the world as it was, so no output file is created. -/
theorem parseCompression_accepts_exactly (s : Str) :
    parseCompression "deflated".toList = Except.ok 8 ∧
    parseCompression "stored".toList = Except.ok 0 ∧
    parseCompression [] = Except.ok 8 ∧
    ((s = "deflated".toList ∨ s = "stored".toList ∨ s = []) ∨
      (parseCompression s = Except.error (Err.invalidCompressionType s) ∧
        ∀ (fs : FileSystem) (w : World) (outputPath : Str) (timeStamp : Int)
          (defaultMode compressionLevel : Str),
          NewZipWriter fs w outputPath timeStamp defaultMode s compressionLevel =
            (Except.error (Err.invalidCompressionType s), w))) := by
  refine ⟨rfl, rfl, rfl, ?_⟩
  by_cases h1 : s = "deflated".toList
  · exact Or.inl (Or.inl h1)
  by_cases h2 : s = "stored".toList
  · exact Or.inl (Or.inr (Or.inl h2))
  by_cases h3 : s = []
  · exact Or.inl (Or.inr (Or.inr h3))
  right
  have hp : parseCompression s = Except.error (Err.invalidCompressionType s) := by
    simp only [parseCompression, h1, h2, h3, if_false]
  refine ⟨hp, ?_⟩
  intro fs w outputPath timeStamp defaultMode compressionLevel
  simp only [NewZipWriter, hp]

/-! ## Mode packing (C5, C9) -/

theorem digitVal_octal (c : Char) (h : '0'.toNat ≤ c.toNat ∧ c.toNat ≤ '7'.toNat) :
    digitVal c = some (c.toNat - '0'.toNat) := by
  have h9 : c.toNat ≤ '9'.toNat := le_trans h.2 (by decide)
  simp only [digitVal, h.1, h9, and_self, if_true]

theorem octal_foldl_ge (s : Str) (n : Nat) :
    n ≤ s.foldl (fun n c => 8 * n + (c.toNat - '0'.toNat)) n := by
  induction s generalizing n with
  | nil => exact le_refl n
  | cons c s ih =>
    simp only [List.foldl_cons]
    exact le_trans (by omega) (ih _)

theorem parseUintLoop_octal (s : Str) :
    ∀ n, (∀ c ∈ s, '0'.toNat ≤ c.toNat ∧ c.toNat ≤ '7'.toNat) →
      s.foldl (fun n c => 8 * n + (c.toNat - '0'.toNat)) n < 2 ^ 32 →
      parseUintLoop 8 ((2 ^ 64 - 1) / 8 + 1) (2 ^ 32 - 1) s n =
        (s.foldl (fun n c => 8 * n + (c.toNat - '0'.toNat)) n, none) := by
  induction s with
  | nil => intro n _ _; rfl
  | cons c s ih =>
    intro n hs hv
    have hc := hs c (List.mem_cons_self _ _)
    have hd : c.toNat - '0'.toNat < 8 := by
      have h0 : '0'.toNat = 48 := by decide
      have h7 : '7'.toNat = 55 := by decide
      omega
    simp only [List.foldl_cons] at hv ⊢
    have hn1 := octal_foldl_ge s (8 * n + (c.toNat - '0'.toNat))
    have hlt : 8 * n + (c.toNat - '0'.toNat) < 2 ^ 32 := lt_of_le_of_lt hn1 hv
    have key := ih (8 * n + (c.toNat - '0'.toNat))
      (fun x hx => hs x (List.mem_cons_of_mem _ hx)) hv
    rw [parseUintLoop, digitVal_octal c hc]
    simp only []
    have e1 : ¬ (c.toNat - '0'.toNat ≥ 8) := by omega
    have e2 : ¬ (n ≥ (2 ^ 64 - 1) / 8 + 1) := by norm_num at hlt ⊢; omega
    have e3 : (n * 8) % 2 ^ 64 = n * 8 := Nat.mod_eq_of_lt (by norm_num at hlt ⊢; omega)
    have e4 : (n * 8 + (c.toNat - '0'.toNat)) % 2 ^ 64 = 8 * n + (c.toNat - '0'.toNat) := by
      rw [Nat.mod_eq_of_lt (by norm_num at hlt ⊢; omega)]; omega
    rw [if_neg e1, if_neg e2, e3, e4]
    have e5 : ¬ (8 * n + (c.toNat - '0'.toNat) < n * 8 ∨
        8 * n + (c.toNat - '0'.toNat) > 2 ^ 32 - 1) := by
      norm_num at hlt ⊢; omega
    rw [if_neg e5]
    exact key

theorem octalValue_spec (s : Str) (m : Nat) (h : octalValue s = some m) :
    s ≠ [] ∧ (∀ c ∈ s, '0'.toNat ≤ c.toNat ∧ c.toNat ≤ '7'.toNat) ∧
      s.foldl (fun n c => 8 * n + (c.toNat - '0'.toNat)) 0 = m := by
  unfold octalValue at h
  split_ifs at h with h1
  refine ⟨h1.1, ?_, Option.some.inj h⟩
  intro c hc
  have := List.all_eq_true.mp h1.2 c hc
  simpa using this

/-- `ParseUint` in base 8 reads an octal numeral that fits in 32 bits as its
value, without error. -/
theorem ParseUint_octal (s : Str) (m : Nat) (h : octalValue s = some m) (hm : m < 2 ^ 32) :
    ParseUint s 8 32 = (m, none) := by
  obtain ⟨h1, h2, h3⟩ := octalValue_spec s m h
  unfold ParseUint
  rw [if_neg h1, if_neg (by decide)]
  simp only []
  rw [parseUintLoop_octal s 0 h2 (by rw [h3]; exact hm), h3]

theorem octalValue_head (s : Str) (m : Nat) (h : octalValue s = some m) :
    s.head? ≠ some '+' ∧ s.head? ≠ some '-' := by
  obtain ⟨h1, h2, _⟩ := octalValue_spec s m h
  cases s with
  | nil => exact absurd rfl h1
  | cons c s =>
    have hc := h2 c (List.mem_cons_self _ _)
    constructor
    · intro hp
      have : c = '+' := by simpa using hp
      rw [this] at hc
      exact absurd hc (by decide)
    · intro hp
      have : c = '-' := by simpa using hp
      rw [this] at hc
      exact absurd hc (by decide)

/-- `parseMode` reads an octal numeral below `2 ^ 31` as its value. -/
theorem parseMode_octal (s : Str) (m : Nat) (h : octalValue s = some m) (hm : m < 2 ^ 31) :
    parseMode s = some m := by
  obtain ⟨h1, _, _⟩ := octalValue_spec s m h
  obtain ⟨hp, hn⟩ := octalValue_head s m h
  have hu := ParseUint_octal s m h (lt_trans hm (by norm_num))
  have hi : ParseInt s 8 32 = ((m : Int), none) := by
    unfold ParseInt
    rw [if_neg h1]
    simp only [hp, hn, or_self, if_false, hu, decide_False]
    have e1 : ¬ (m ≥ 2 ^ (32 - 1)) := by norm_num at hm ⊢; omega
    simp only [e1, and_false, if_false]
    simp
  unfold parseMode
  rw [if_neg h1, hi]
  simp only []
  congr 1
  have : ((m : Int) % 2 ^ 32) = (m : Int) :=
    Int.emod_eq_of_lt (Int.natCast_nonneg m) (by norm_num at hm ⊢; omega)
  rw [this]; rfl

theorem pack_eq (m : Nat) :
    (m % 2 ^ 32) * 2 ^ 16 % 2 ^ 32 = (m % 2 ^ 16) * 2 ^ 16 ∧
      ((m % 2 ^ 16) * 2 ^ 16) % 2 ^ 16 = 0 ∧
      (m < 2 ^ 16 → (m % 2 ^ 16) * 2 ^ 16 = m <<< 16 ∧ ((m % 2 ^ 16) * 2 ^ 16) >>> 16 = m) := by
  refine ⟨by norm_num; omega, by norm_num, ?_⟩
  intro hm
  rw [Nat.shiftLeft_eq, Nat.shiftRight_eq_div_pow, Nat.mod_eq_of_lt hm]
  exact ⟨rfl, by norm_num⟩

/-- The header for a non-empty mode. -/
theorem makeZipInfo_of_mode (zw : ZipWriter) (path mode : Str) (h : mode ≠ []) :
    makeZipInfo zw path mode =
      some { Name := path, Modified := zw.timeStamp, Flags := 0x800,
             ExternalAttrs := ((ParseUint mode 8 32).1 % 2 ^ 32) * 2 ^ 16 % 2 ^ 32,
             Method := 0 } := by
  simp only [makeZipInfo, h, ne_eq, not_false_eq_true, if_true, Option.map_some']

/-- The header for an empty mode. -/
theorem makeZipInfo_of_empty (zw : ZipWriter) (path : Str) :
    makeZipInfo zw path [] =
      (parseMode zw.defaultMode).map (fun m =>
        { Name := path, Modified := zw.timeStamp, Flags := 0x800,
          ExternalAttrs := (m % 2 ^ 32) * 2 ^ 16 % 2 ^ 32, Method := 0 }) := by
  simp only [makeZipInfo, ne_eq, not_true_eq_false, if_false, Option.map_map]
  rfl

/-- C5, as the code has it: an entry mode that is an octal numeral of value
`m < 2 ^ 32` gives `ExternalAttrs = (m mod 2 ^ 16) * 2 ^ 16`, whatever the
default mode, which is `m << 16` with `m` in the upper 16 bits when
`m < 2 ^ 16`; an empty entry mode gives the same for the value `m < 2 ^ 31` of
an octal default mode, and 0 for an empty default mode; the low 16 bits are
zero; and with an empty entry mode and a default mode that `parseMode` rejects
there is no header, the process exits. -/
theorem makeZipInfo_attrs (zw : ZipWriter) (path mode : Str) (m : Nat) :
    (octalValue mode = some m → m < 2 ^ 32 →
      ∃ h, makeZipInfo zw path mode = some h ∧ h.ExternalAttrs = (m % 2 ^ 16) * 2 ^ 16 ∧
        h.ExternalAttrs % 2 ^ 16 = 0 ∧
        (m < 2 ^ 16 → h.ExternalAttrs = m <<< 16 ∧ h.ExternalAttrs >>> 16 = m) ∧
        ∀ zw1 : ZipWriter, (makeZipInfo zw1 path mode).map (fun x => x.ExternalAttrs) =
          some h.ExternalAttrs) ∧
    (mode = [] → octalValue zw.defaultMode = some m → m < 2 ^ 31 →
      ∃ h, makeZipInfo zw path mode = some h ∧ h.ExternalAttrs = (m % 2 ^ 16) * 2 ^ 16 ∧
        h.ExternalAttrs % 2 ^ 16 = 0 ∧
        (m < 2 ^ 16 → h.ExternalAttrs = m <<< 16 ∧ h.ExternalAttrs >>> 16 = m)) ∧
    (mode = [] → zw.defaultMode = [] →
      ∃ h, makeZipInfo zw path mode = some h ∧ h.ExternalAttrs = 0) ∧
    (mode = [] → parseMode zw.defaultMode = none → makeZipInfo zw path mode = none) := by
  refine ⟨?_, ?_, ?_, ?_⟩
  · intro hv hm
    have hne := (octalValue_spec mode m hv).1
    have hu := ParseUint_octal mode m hv hm
    obtain ⟨p1, p2, p3⟩ := pack_eq m
    refine ⟨_, makeZipInfo_of_mode zw path mode hne, ?_, ?_, ?_, ?_⟩
    · simp only [hu]; exact p1
    · simp only [hu, p1]; exact p2
    · intro h16; simp only [hu, p1]; exact p3 h16
    · intro zw1
      rw [makeZipInfo_of_mode zw1 path mode hne]; rfl
  · intro hmode hv hm
    have hp := parseMode_octal zw.defaultMode m hv hm
    obtain ⟨p1, p2, p3⟩ := pack_eq m
    subst hmode
    refine ⟨_, by rw [makeZipInfo_of_empty, hp]; rfl, ?_, ?_, ?_⟩
    · exact p1
    · simp only [p1]; exact p2
    · intro h16; simp only [p1]; exact p3 h16
  · intro hmode hd
    subst hmode
    refine ⟨_, by rw [makeZipInfo_of_empty, hd]; rfl, ?_⟩
    norm_num
  · intro hmode hd
    subst hmode
    rw [makeZipInfo_of_empty, hd]; rfl

/-- The entry mode `644` gives `0o644 << 16`, here for a writer whose default
mode is `755`. -/
theorem makeZipInfo_attrs_witness :
    ∃ h, makeZipInfo { exampleWriter with defaultMode := "755".toList } "a.txt".toList
        "644".toList = some h ∧
      h.ExternalAttrs = (420 % 2 ^ 16) * 2 ^ 16 ∧ h.ExternalAttrs % 2 ^ 16 = 0 ∧
      (420 < 2 ^ 16 → h.ExternalAttrs = 420 <<< 16 ∧ h.ExternalAttrs >>> 16 = 420) ∧
      ∀ zw1 : ZipWriter, (makeZipInfo zw1 "a.txt".toList "644".toList).map
        (fun x => x.ExternalAttrs) = some h.ExternalAttrs :=
  (makeZipInfo_attrs { exampleWriter with defaultMode := "755".toList } "a.txt".toList
    "644".toList 420).1 (by decide) (by decide)

/-- C5 fails as stated: the entry mode `200000` is an octal numeral of value
65536, and the header gets `ExternalAttrs = 0`, which is not `65536 << 16` and
does not hold 65536 in its upper 16 bits; and with an empty entry mode and the
default mode `rwx` no header is produced. -/
theorem makeZipInfo_attrs_counterexample :
    octalValue "200000".toList = some 65536 ∧
    (makeZipInfo exampleWriter "a.txt".toList "200000".toList).map
      (fun h => h.ExternalAttrs) = some 0 ∧
    (0 : Nat) ≠ 65536 <<< 16 ∧ (0 : Nat) >>> 16 ≠ 65536 ∧
    makeZipInfo { exampleWriter with defaultMode := "rwx".toList } "a.txt".toList [] = none := by
  decide

/-! ## Synthesized parents (C9) -/

theorem readEntries_get_some (pfx : Str) (es : List ManifestEntry) (m : GoMap ManifestEntry)
    (d : Str) (e0 : ManifestEntry) (h : mapGet (readEntries pfx es m) d = some e0) :
    mapGet m d = some e0 ∨
      ∃ x ∈ es, combinePaths pfx x.Dest = d ∧ e0 = { x with Dest := d } := by
  induction es generalizing m with
  | nil => exact Or.inl h
  | cons e es ih =>
    simp only [readEntries] at h
    rcases ih _ h with h1 | ⟨x, hx, hxd, hxe⟩
    · rw [mapGet_mapSet] at h1
      by_cases hk : combinePaths pfx e.Dest = d
      · rw [if_pos hk] at h1
        right
        refine ⟨e, List.mem_cons_self _ _, hk, ?_⟩
        rw [← Option.some.inj h1, hk]
      · rw [if_neg hk] at h1
        exact Or.inl h1
    · exact Or.inr ⟨x, List.mem_cons_of_mem _ hx, hxd, hxe⟩

/-- C9, as the code has it: every entry of the resolved manifest whose
destination is not the combined destination of a raw entry is a synthesized
directory: its source, user and group are empty, its uid and gid are 0, its
origin is `parent directory of ` followed by the origin of a raw entry below
it, and its mode is the string `0o755`, which `makeZipInfo` packs to
`ExternalAttrs = 0` for every writer, not to `0o755 << 16`; so it is for the
parent `x` of the single raw entry `x/y.txt`. -/
theorem synthesized_parent_attrs (keyOrder valueOrder : RangeOrder (Str × ManifestEntry))
    (pfx : Str) (raws : List ManifestEntry) :
    (∃ r, loadManifest keyOrder valueOrder pfx raws = some r ∧
      ∀ e ∈ r.entries, (∀ x ∈ raws, combinePaths pfx x.Dest ≠ e.Dest) →
        e.Typ = ENTRY_IS_DIR ∧ e.Mode = "0o755".toList ∧ e.Src = [] ∧ e.User = [] ∧
        e.Group = [] ∧ e.UID = 0 ∧ e.GID = 0 ∧
        (∃ x ∈ raws, e.Origin = "parent directory of ".toList ++ x.Origin ∧
          ∃ j, e.Dest = Dir^[j + 1] (combinePaths pfx x.Dest)) ∧
        ∀ (zw : ZipWriter) (path : Str),
          (makeZipInfo zw path e.Mode).map (fun h => h.ExternalAttrs) = some 0) ∧
    (loadManifest (RangeOrder.insertion _) (RangeOrder.insertion _) ['/']
        [fileEntry "x/y.txt".toList "y.txt".toList []]).map (fun r => r.entries) =
      some [parentEntry "x".toList [], fileEntry "x/y.txt".toList "y.txt".toList []] ∧
    (makeZipInfo exampleWriter "x/".toList (parentEntry "x".toList []).Mode).map
      (fun h => h.ExternalAttrs) = some 0 ∧
    (0 : Nat) ≠ 0o755 <<< 16 := by
  refine ⟨?_, by decide, by decide, by decide⟩
  obtain ⟨m1, hs, _, hr⟩ := loadManifest_run keyOrder valueOrder pfx raws
  refine ⟨_, hr, ?_⟩
  intro e he hne
  have hget := (mem_entries_iff valueOrder m1 hs.1 e).mp he
  have h0 : mapGet (readEntries pfx raws []) e.Dest = none := by
    rw [mapGet_eq_none_iff, ← mapGet_ne_none_iff, readEntries_get_ne_none]
    rintro (h | ⟨x, hx, hxd⟩)
    · exact h rfl
    · exact hne x hx hxd
  obtain ⟨d, e0, j, hd, hk, _, hv⟩ := hs.2.2 e.Dest e h0 hget
  rcases readEntries_get_some pfx raws [] d e0 hd with h1 | ⟨x, hx, hxd, hxe⟩
  · exact absurd h1 (by simp [mapGet])
  · rw [hv]
    refine ⟨rfl, rfl, rfl, rfl, rfl, rfl, rfl, ⟨x, hx, ?_, j, ?_⟩, ?_⟩
    · rw [hxe]; rfl
    · rw [hxd]; exact hk
    · intro zw path
      have hmode : (parentEntry e.Dest e0.Origin).Mode = "0o755".toList := rfl
      rw [hmode, makeZipInfo_of_mode zw path _ (by decide)]
      have hp : ParseUint "0o755".toList 8 32 = (0, some NumError.ErrSyntax) := by decide
      rw [hp]; rfl

/-! ## The archive writer (C6, C7, C8) -/

theorem makeZipInfo_fields (zw : ZipWriter) (path mode : Str) (h : FileHeader)
    (hh : makeZipInfo zw path mode = some h) :
    h.Name = path ∧ h.Modified = zw.timeStamp ∧ h.Method = 0 := by
  unfold makeZipInfo at hh
  simp only [Option.map_eq_some'] at hh
  obtain ⟨a, _, ha⟩ := hh
  rw [← ha]
  exact ⟨rfl, rfl, rfl⟩

theorem makeZipInfo_createRecord (zw : ZipWriter) (info : FileHeader) (content : List Nat)
    (path mode : Str) :
    makeZipInfo (createRecord zw info content) path mode = makeZipInfo zw path mode := rfl

theorem treeStep_createRecord (fs : FileSystem) (mode : Str) (zw : ZipWriter)
    (info : FileHeader) (content : List Nat) (item : Str × Str) :
    treeStep fs mode (createRecord zw info content) item = treeStep fs mode zw item := rfl

theorem step_aux {α : Type} (o : Option FileHeader) (c : Option (List Nat)) (e : Err)
    (zw : ZipWriter) (k : ZipWriter → α) (z : α) (f : ZipWriter × Option Err → α) :
    (match o with
      | none => z
      | some info =>
        match c with
        | none => f (zw, some e)
        | some bytes => k (createRecord zw info bytes)) =
    match (match o with
      | none => TreeStep.fatal
      | some info =>
        match c with
        | none => TreeStep.fail e
        | some bytes => TreeStep.emit { header := info, content := bytes }) with
    | TreeStep.fatal => z
    | TreeStep.fail e => f (zw, some e)
    | TreeStep.emit r => k (createRecord zw r.header r.content) := by
  cases o with
  | none => rfl
  | some info =>
    cases c with
    | none => rfl
    | some bytes => rfl

/-- The emission loop of `AddTree`, one iteration at a time. -/
theorem addTreeEmit_cons (fs : FileSystem) (mode : Str) (item : Str × Str)
    (rest : List (Str × Str)) (zw : ZipWriter) :
    addTreeEmit fs mode (item :: rest) zw =
      match treeStep fs mode zw item with
      | TreeStep.fatal => none
      | TreeStep.fail e => some (zw, some e)
      | TreeStep.emit r => addTreeEmit fs mode rest (createRecord zw r.header r.content) := by
  obtain ⟨path, contentPath⟩ := item
  by_cases hc : contentPath = []
  · subst hc
    simp only [addTreeEmit, treeStep, ne_eq, not_true_eq_false, if_false]
    cases makeZipInfo zw (if hasSuffix path ['/'] = false then path ++ ['/'] else path)
        "0755".toList with
    | none => rfl
    | some info => rfl
  · simp only [addTreeEmit, treeStep, hc, ne_eq, not_false_eq_true, if_true]
    exact step_aux _ _ _ zw (addTreeEmit fs mode rest) none some

theorem treeStep_method (fs : FileSystem) (mode : Str) (zw : ZipWriter) (item : Str × Str)
    (r : ZipRecord) (h : treeStep fs mode zw item = TreeStep.emit r) :
    r.header.Method = zipStore := by
  obtain ⟨path, contentPath⟩ := item
  by_cases hc : contentPath = []
  · subst hc
    simp only [treeStep, ne_eq, not_true_eq_false, if_false] at h
    cases hm : makeZipInfo zw (if hasSuffix path ['/'] = false then path ++ ['/'] else path)
        "0755".toList with
    | none => rw [hm] at h; exact absurd h (by simp)
    | some info =>
      rw [hm] at h
      simp only [TreeStep.emit.injEq] at h
      rw [← h]
  · simp only [treeStep, hc, ne_eq, not_false_eq_true, if_true] at h
    cases hm : makeZipInfo zw path
        (if mode = [] then (if fs.statOk contentPath = true then "0755".toList
          else zw.defaultMode) else mode) with
    | none => rw [hm] at h; exact absurd h (by simp)
    | some info =>
      rw [hm] at h
      cases hb : fs.contents contentPath with
      | none => rw [hb] at h; exact absurd h (by simp)
      | some bytes =>
        rw [hb] at h
        simp only [TreeStep.emit.injEq] at h
        rw [← h]
        exact (makeZipInfo_fields _ _ _ _ hm).2.2

theorem addTreeEmit_stored (fs : FileSystem) (mode : Str) (items : List (Str × Str)) :
    ∀ (zw : ZipWriter) (res : ZipWriter × Option Err), addTreeEmit fs mode items zw = some res →
      ∃ recs, res.1.zipWriter = zw.zipWriter ++ recs ∧
        ∀ r ∈ recs, r.header.Method = zipStore := by
  induction items with
  | nil =>
    intro zw res h
    simp only [addTreeEmit, Option.some.injEq] at h
    exact ⟨[], by rw [← h]; simp, by simp⟩
  | cons item rest ih =>
    intro zw res h
    rw [addTreeEmit_cons] at h
    cases hstep : treeStep fs mode zw item with
    | fatal => rw [hstep] at h; exact absurd h (by simp)
    | fail e =>
      rw [hstep] at h
      simp only [Option.some.injEq] at h
      exact ⟨[], by rw [← h]; simp, by simp⟩
    | emit r =>
      rw [hstep] at h
      obtain ⟨recs, h1, h2⟩ := ih _ res h
      refine ⟨r :: recs, ?_, ?_⟩
      · rw [h1]; simp [createRecord]
      · intro x hx
        rcases List.mem_cons.mp hx with h3 | h3
        · rw [h3]; exact treeStep_method fs mode zw item r hstep
        · exact h2 x h3

/-- C8, as the code has it: whatever the configured compression type, every
record `AddTree` creates, file or directory, has `Method = Store`; with a
deflate writer the file record of the example tree is stored, not deflated. -/
theorem AddTree_records_stored (fs : FileSystem) (treeOrder : RangeOrder (Str × Str))
    (zw : ZipWriter) (treeTop destPath mode : Str) :
    (AddTree fs treeOrder zw treeTop destPath mode = none ∨
      ∃ zw1 err recs, AddTree fs treeOrder zw treeTop destPath mode = some (zw1, err) ∧
        zw1.zipWriter = zw.zipWriter ++ recs ∧ ∀ r ∈ recs, r.header.Method = zipStore) ∧
    exampleWriter.compressionType = zipDeflate ∧ zipDeflate = 8 ∧ zipStore = 0 ∧
    (AddTree exampleFS (RangeOrder.insertion _) exampleWriter "src".toList "t".toList []).map
      (fun res => res.1.zipWriter.map (fun r => (r.header.Name, r.header.Method, r.content))) =
      some [("t/".toList, 0, []), ("t/sub/".toList, 0, []), ("t/sub/f.txt/".toList, 0, []),
            ("t/sub/f.txt/f.txt".toList, 0, [1, 2, 3])] := by
  refine ⟨?_, rfl, rfl, rfl, by decide⟩
  cases h : AddTree fs treeOrder zw treeTop destPath mode with
  | none => exact Or.inl rfl
  | some res =>
    right
    unfold AddTree at h
    simp only [] at h
    split at h
    · simp only [Option.some.injEq] at h
      exact ⟨zw, _, [], by rw [← h], by simp, by simp⟩
    · obtain ⟨recs, h1, h2⟩ := addTreeEmit_stored fs mode _ zw res h
      exact ⟨res.1, res.2, recs, rfl, h1, h2⟩

/-- C7, as the code has it: for an entry of type `dir`, `AddManifestEntry`
creates no record: it returns without error and leaves the archive as it was,
or the process exits in `parseMode` (empty entry mode and a default mode that
does not parse). -/
theorem AddManifestEntry_dir_writes_nothing (fs : FileSystem)
    (treeOrder : RangeOrder (Str × Str)) (zw : ZipWriter) (entry : ManifestEntry)
    (h : entry.Typ = ENTRY_IS_DIR) :
    (AddManifestEntry fs treeOrder zw entry = some (zw, none) ∨
      AddManifestEntry fs treeOrder zw entry = none) ∧
    ((entry.Mode ≠ [] ∨ parseMode zw.defaultMode ≠ none) →
      AddManifestEntry fs treeOrder zw entry = some (zw, none)) := by
  have hf : ¬ (ENTRY_IS_DIR = ENTRY_IS_FILE) := by decide
  have ht : ¬ (ENTRY_IS_DIR = ENTRY_IS_TREE) := by decide
  have hsome : (entry.Mode ≠ [] ∨ parseMode zw.defaultMode ≠ none) →
      ∀ p, makeZipInfo zw p entry.Mode ≠ none := by
    intro hm p
    by_cases hmode : entry.Mode = []
    · rw [hmode, makeZipInfo_of_empty]
      rcases hm with hm | hm
      · exact absurd hmode hm
      · obtain ⟨d, hd⟩ := Option.ne_none_iff_exists'.mp hm
        rw [hd]; exact Option.some_ne_none _
    · rw [makeZipInfo_of_mode _ _ _ hmode]; exact Option.some_ne_none _
  unfold AddManifestEntry
  simp only [h, hf, ht, if_false]
  constructor
  · split
    · exact Or.inr rfl
    · exact Or.inl rfl
  · intro hm
    split
    · rename_i heq
      exact absurd heq (hsome hm _)
    · rfl

/-- A directory entry `x` with mode `755`: the archive stays empty. -/
theorem AddManifestEntry_dir_writes_nothing_witness :
    (AddManifestEntry exampleFS (RangeOrder.insertion _) exampleWriter
        { Typ := ENTRY_IS_DIR, Dest := "x".toList, Src := [], Mode := "755".toList, User := [],
          Group := [], UID := 0, GID := 0, Origin := [] } = some (exampleWriter, none) ∨
      AddManifestEntry exampleFS (RangeOrder.insertion _) exampleWriter
        { Typ := ENTRY_IS_DIR, Dest := "x".toList, Src := [], Mode := "755".toList, User := [],
          Group := [], UID := 0, GID := 0, Origin := [] } = none) ∧
    ((("755".toList : Str) ≠ [] ∨ parseMode exampleWriter.defaultMode ≠ none) →
      AddManifestEntry exampleFS (RangeOrder.insertion _) exampleWriter
        { Typ := ENTRY_IS_DIR, Dest := "x".toList, Src := [], Mode := "755".toList, User := [],
          Group := [], UID := 0, GID := 0, Origin := [] } = some (exampleWriter, none)) :=
  AddManifestEntry_dir_writes_nothing exampleFS (RangeOrder.insertion _) exampleWriter
    { Typ := ENTRY_IS_DIR, Dest := "x".toList, Src := [], Mode := "755".toList, User := [],
      Group := [], UID := 0, GID := 0, Origin := [] } rfl

theorem addTreeEmit_all_emit (fs : FileSystem) (mode : Str) (items : List (Str × Str)) :
    ∀ zw : ZipWriter,
      (∀ it ∈ items, treeStep fs mode zw it = TreeStep.emit (treeStep fs mode zw it).record) →
      addTreeEmit fs mode items zw =
        some ({ zw with zipWriter :=
                  zw.zipWriter ++ items.map (fun it => (treeStep fs mode zw it).record) }, none) := by
  induction items with
  | nil => intro zw _; simp [addTreeEmit]
  | cons item rest ih =>
    intro zw h
    have h1 := h item (List.mem_cons_self _ _)
    rw [addTreeEmit_cons]
    generalize hr : (treeStep fs mode zw item).record = r at h1
    rw [h1]
    simp only []
    rw [ih (createRecord zw r.header r.content)
      (fun it hit => h it (List.mem_cons_of_mem _ hit))]
    simp only [treeStep_createRecord, List.map_cons, hr]
    simp only [createRecord, List.append_assoc, List.singleton_append]

theorem AddTree_of_walk (fs : FileSystem) (treeOrder : RangeOrder (Str × Str)) (zw : ZipWriter)
    (treeTop destPath mode : Str) (nodes : List WalkNode)
    (hw : fs.walk (Clean treeTop) = some nodes) :
    AddTree fs treeOrder zw treeTop destPath mode =
      addTreeEmit fs mode
        (treeOrder.perm (nodes.foldl (walkFn (Clean (trimSuffix destPath ['/']))) [])) zw := by
  unfold AddTree
  simp only [hw]

/-- C6, as the code has it: for the tree `src` that holds the single file
`sub/f.txt`, expanded under the destination `t`, `AddTree` creates four records
whatever the iteration order of its map: the directories `t/` and `t/sub/`, a
directory `t/sub/f.txt/` for the file node, and the file itself under the name
`t/sub/f.txt/f.txt`; there is no record named `t/sub/f.txt`. -/
theorem AddTree_example_records (treeOrder : RangeOrder (Str × Str)) :
    ∃ zw1, AddTree exampleFS treeOrder exampleWriter "src".toList "t".toList [] =
        some (zw1, none) ∧
      (zw1.zipWriter.map (fun r => (r.header.Name, r.content))).Perm
        [("t/".toList, []), ("t/sub/".toList, []), ("t/sub/f.txt/".toList, []),
         ("t/sub/f.txt/f.txt".toList, [1, 2, 3])] ∧
      ∀ r ∈ zw1.zipWriter, r.header.Name ≠ "t/sub/f.txt".toList := by
  have hw : exampleFS.walk (Clean "src".toList) = some [
      { path := "src".toList, rel := ".".toList, name := "src".toList, isDir := true },
      { path := "src/sub".toList, rel := "sub".toList, name := "sub".toList, isDir := true },
      { path := "src/sub/f.txt".toList, rel := "sub/f.txt".toList, name := "f.txt".toList,
        isDir := false }] := by decide
  have htw : List.foldl (walkFn (Clean (trimSuffix "t".toList ['/']))) [] [
      ({ path := "src".toList, rel := ".".toList, name := "src".toList, isDir := true } : WalkNode),
      { path := "src/sub".toList, rel := "sub".toList, name := "sub".toList, isDir := true },
      { path := "src/sub/f.txt".toList, rel := "sub/f.txt".toList, name := "f.txt".toList,
        isDir := false }] =
      [("t".toList, []), ("t/sub".toList, []), ("t/sub/f.txt".toList, []),
       ("t/sub/f.txt/f.txt".toList, "src/sub/f.txt".toList)] := by decide
  have hall : ∀ it ∈ [(("t".toList : Str), ([] : Str)), ("t/sub".toList, []),
      ("t/sub/f.txt".toList, []), ("t/sub/f.txt/f.txt".toList, "src/sub/f.txt".toList)],
      treeStep exampleFS [] exampleWriter it =
        TreeStep.emit (treeStep exampleFS [] exampleWriter it).record := by decide
  have hmap : List.map (fun it => (fun r : ZipRecord => (r.header.Name, r.content))
        (treeStep exampleFS [] exampleWriter it).record)
      [(("t".toList : Str), ([] : Str)), ("t/sub".toList, []),
       ("t/sub/f.txt".toList, []), ("t/sub/f.txt/f.txt".toList, "src/sub/f.txt".toList)] =
      [("t/".toList, []), ("t/sub/".toList, []), ("t/sub/f.txt/".toList, []),
       ("t/sub/f.txt/f.txt".toList, [1, 2, 3])] := by decide
  have hperm := treeOrder.isPerm [(("t".toList : Str), ([] : Str)), ("t/sub".toList, []),
      ("t/sub/f.txt".toList, []), ("t/sub/f.txt/f.txt".toList, "src/sub/f.txt".toList)]
  have hrun := addTreeEmit_all_emit exampleFS [] _ exampleWriter
    (fun it hit => hall it (hperm.mem_iff.mp hit))
  have hnames : (List.map (fun r : ZipRecord => (r.header.Name, r.content))
      (exampleWriter.zipWriter ++ List.map (fun it => (treeStep exampleFS [] exampleWriter it).record)
        (treeOrder.perm [(("t".toList : Str), ([] : Str)), ("t/sub".toList, []),
          ("t/sub/f.txt".toList, []), ("t/sub/f.txt/f.txt".toList, "src/sub/f.txt".toList)]))).Perm
      [("t/".toList, []), ("t/sub/".toList, []), ("t/sub/f.txt/".toList, []),
       ("t/sub/f.txt/f.txt".toList, [1, 2, 3])] := by
    have := (hperm.map (fun it => (treeStep exampleFS [] exampleWriter it).record)).map
      (fun r : ZipRecord => (r.header.Name, r.content))
    rw [List.map_map, List.map_map] at this
    rw [show exampleWriter.zipWriter = [] from rfl, List.nil_append, List.map_map]
    refine this.trans ?_
    rw [← hmap]
    rfl
  rw [AddTree_of_walk _ _ _ _ _ _ _ hw, htw, hrun]
  refine ⟨_, rfl, hnames, ?_⟩
  · intro r hr hname
    have hmem : (r.header.Name, r.content) ∈
        List.map (fun r : ZipRecord => (r.header.Name, r.content))
          (exampleWriter.zipWriter ++
            List.map (fun it => (treeStep exampleFS [] exampleWriter it).record)
              (treeOrder.perm [(("t".toList : Str), ([] : Str)), ("t/sub".toList, []),
                ("t/sub/f.txt".toList, []),
                ("t/sub/f.txt/f.txt".toList, "src/sub/f.txt".toList)])) :=
      List.mem_map_of_mem _ hr
    have hmem2 := hnames.mem_iff.mp hmem
    rw [hname] at hmem2
    simp only [List.mem_cons, Prod.mk.injEq, List.mem_singleton, List.not_mem_nil, or_false] at hmem2
    rcases hmem2 with h | h | h | h <;> exact absurd h.1 (by decide)

/-! ## Directory names of paths made of normal segments (C1) -/

theorem cleanLoop_slash (fuel : Nat) (t out : Str) (dd : Nat) :
    cleanLoop false (fuel + 1) ('/' :: t) out dd = cleanLoop false fuel t out dd := by
  rw [cleanLoop_false_succ_cons, if_pos rfl]

theorem takeWhile_seg (s t : Str) (hs : '/' ∉ s) (ht : t = [] ∨ t.head? = some '/') :
    (s ++ t).takeWhile (fun x => x ≠ '/') = s ∧ (s ++ t).dropWhile (fun x => x ≠ '/') = t := by
  induction s with
  | nil =>
    rcases ht with ht | ht
    · subst ht; simp
    · cases t with
      | nil => simp
      | cons a t =>
        have : a = '/' := by simpa using ht
        subst this
        simp [List.takeWhile_cons, List.dropWhile_cons]
  | cons c s ih =>
    have hc : c ≠ '/' := fun h => hs (h ▸ List.mem_cons_self _ _)
    have hs1 : '/' ∉ s := fun h => hs (List.mem_cons_of_mem _ h)
    obtain ⟨h1, h2⟩ := ih hs1
    simp only [List.cons_append, List.takeWhile_cons, List.dropWhile_cons, ne_eq, hc,
      not_false_eq_true, decide_True, if_true]
    exact ⟨by rw [h1], h2⟩

/-- The loop of `Clean` copies a normal segment, after a separator when
something was written before. -/
theorem cleanLoop_seg (fuel : Nat) (s t out : Str) (dd : Nat) (hs : normalSeg s)
    (ht : t = [] ∨ t.head? = some '/') :
    cleanLoop false (fuel + 1) (s ++ t) out dd =
      cleanLoop false fuel t ((if out = [] then out else out ++ ['/']) ++ s) dd := by
  obtain ⟨hne, hsl, hdot, hdd⟩ := hs
  cases s with
  | nil => exact absurd rfl hne
  | cons c s =>
    have hc : c ≠ '/' := fun h => hsl (h ▸ List.mem_cons_self _ _)
    have hs1 : '/' ∉ s := fun h => hsl (List.mem_cons_of_mem _ h)
    have htw := takeWhile_seg (c :: s) t hsl ht
    rw [List.cons_append, cleanLoop_false_succ_cons, if_neg hc]
    have h2 : ¬ (c = '.' ∧ (s ++ t = [] ∨ (s ++ t).head? = some '/')) := by
      rintro ⟨h1, h3⟩
      subst h1
      cases s with
      | nil => exact hdot rfl
      | cons b s =>
        have hb : b ≠ '/' := fun h => hs1 (h ▸ List.mem_cons_self _ _)
        rcases h3 with h3 | h3
        · simp at h3
        · simp at h3; exact hb h3
    have h3 : ¬ (c = '.' ∧ (s ++ t).head? = some '.' ∧
        ((s ++ t).tail = [] ∨ (s ++ t).tail.head? = some '/')) := by
      rintro ⟨h1, h4, h5⟩
      subst h1
      cases s with
      | nil => exact hdot rfl
      | cons b s =>
        have hb : b = '.' := by simpa using h4
        subst hb
        cases s with
        | nil => exact hdd rfl
        | cons a s =>
          have ha : a ≠ '/' := fun h =>
            hs1 (h ▸ List.mem_cons_of_mem _ (List.mem_cons_self _ _))
          rcases h5 with h5 | h5
          · simp at h5
          · simp at h5; exact ha h5
    rw [if_neg h2, if_neg h3]
    rw [List.cons_append] at htw
    rw [htw.1, htw.2]

theorem joinSegs_cons_cons (s t : Str) (rest : List Str) :
    joinSegs (s :: t :: rest) = s ++ '/' :: joinSegs (t :: rest) := rfl

theorem joinSegs_ne_nil (segs : List Str) (hne : segs ≠ [])
    (hs : ∀ s ∈ segs, normalSeg s) : joinSegs segs ≠ [] := by
  cases segs with
  | nil => exact absurd rfl hne
  | cons s rest =>
    have h1 := (hs s (List.mem_cons_self _ _)).1
    cases rest with
    | nil => exact h1
    | cons t rest => rw [joinSegs_cons_cons]; simp [h1]

theorem joinSegs_head (segs : List Str) (hs : ∀ s ∈ segs, normalSeg s) :
    (joinSegs segs).head? ≠ some '/' := by
  cases segs with
  | nil => simp [joinSegs]
  | cons s rest =>
    obtain ⟨h1, h2, _, _⟩ := hs s (List.mem_cons_self _ _)
    have hh : s.head? ≠ some '/' := by
      cases s with
      | nil => exact absurd rfl h1
      | cons c s =>
        intro h
        have : c = '/' := by simpa using h
        exact h2 (this ▸ List.mem_cons_self _ _)
    cases rest with
    | nil => exact hh
    | cons t rest =>
      rw [joinSegs_cons_cons]
      cases s with
      | nil => exact absurd rfl h1
      | cons c s => simpa using hh

/-- The loop of `Clean` on a path of normal segments followed by a separator
writes the path without that separator. -/
theorem cleanLoop_joinSegs (segs : List Str) :
    ∀ (out : Str) (fuel dd : Nat), segs ≠ [] → (∀ s ∈ segs, normalSeg s) →
      2 * segs.length ≤ fuel →
      cleanLoop false fuel (joinSegs segs ++ ['/']) out dd =
        (if out = [] then out else out ++ ['/']) ++ joinSegs segs := by
  induction segs with
  | nil => intro out fuel dd hne; exact absurd rfl hne
  | cons s rest ih =>
    intro out fuel dd _ hs hf
    have hs0 := hs s (List.mem_cons_self _ _)
    obtain ⟨f, hf2⟩ : ∃ f, fuel = f + 2 := ⟨fuel - 2, by simp at hf; omega⟩
    subst hf2
    cases rest with
    | nil =>
      show cleanLoop false (f + 1 + 1) (s ++ ['/']) out dd = _
      rw [cleanLoop_seg (f + 1) s ['/'] out dd hs0 (Or.inr rfl), cleanLoop_slash, cleanLoop_nil]
      rfl
    | cons t rest =>
      rw [joinSegs_cons_cons]
      have e : s ++ '/' :: joinSegs (t :: rest) ++ ['/'] =
          s ++ ('/' :: (joinSegs (t :: rest) ++ ['/'])) := by simp
      rw [e]
      show cleanLoop false (f + 1 + 1) _ out dd = _
      rw [cleanLoop_seg (f + 1) s ('/' :: (joinSegs (t :: rest) ++ ['/'])) out dd hs0 (Or.inr rfl),
        cleanLoop_slash, ih _ f dd (by simp) (fun x hx => hs x (List.mem_cons_of_mem _ hx))
          (by simp at hf ⊢; omega)]
      have hne : (if out = [] then out else out ++ ['/']) ++ s ≠ [] := by
        simp [hs0.1]
      rw [if_neg hne]
      simp

theorem Clean_joinSegs_slash (segs : List Str) (hne : segs ≠ [])
    (hs : ∀ s ∈ segs, normalSeg s) : Clean (joinSegs segs ++ ['/']) = joinSegs segs := by
  have hh : (joinSegs segs ++ ['/']).head? ≠ some '/' := by
    have h1 := joinSegs_head segs hs
    have h2 := joinSegs_ne_nil segs hne hs
    cases hj : joinSegs segs with
    | nil => exact absurd hj h2
    | cons c l => rw [hj] at h1; simpa using h1
  have hlen : 2 * segs.length ≤ (joinSegs segs ++ ['/']).length := by
    clear hh
    induction segs with
    | nil => simp
    | cons s rest ih =>
      have h1 : s.length ≥ 1 := List.length_pos.mpr (hs s (List.mem_cons_self _ _)).1
      cases rest with
      | nil => simp [joinSegs]; omega
      | cons t rest =>
        have := ih (by simp) (fun x hx => hs x (List.mem_cons_of_mem _ hx))
        rw [joinSegs_cons_cons]
        simp only [List.length_append, List.length_cons, List.length_nil] at this ⊢
        omega
  rw [Clean_of_not_rooted _ hh, cleanLoop_joinSegs segs [] _ 0 hne hs hlen]
  simp [joinSegs_ne_nil segs hne hs]

theorem joinSegs_concat (segs : List Str) (s : Str) (hne : segs ≠ []) :
    joinSegs (segs ++ [s]) = joinSegs segs ++ '/' :: s := by
  induction segs with
  | nil => exact absurd rfl hne
  | cons a rest ih =>
    cases rest with
    | nil => rfl
    | cons b rest =>
      have := ih (by simp)
      simp only [List.cons_append] at this ⊢
      rw [joinSegs_cons_cons, joinSegs_cons_cons, this]
      simp

theorem rdropWhile_append_all (l s : Str) (hs : '/' ∉ s) :
    (l ++ s).rdropWhile (fun x => x ≠ '/') = l.rdropWhile (fun x => x ≠ '/') := by
  induction s using List.reverseRecOn with
  | nil => simp
  | append_singleton s x ih =>
    have hx : x ≠ '/' := fun h => hs (by simp [h])
    have hs1 : '/' ∉ s := fun h => hs (by simp [h])
    rw [← List.append_assoc, List.rdropWhile_concat_pos _ _ _ (by simpa using hx)]
    exact ih hs1

/-- The directory name of a path of normal segments is the path without its
last segment. -/
theorem Dir_joinSegs (segs : List Str) (s : Str) (hne : segs ≠ [])
    (hs : ∀ x ∈ segs ++ [s], normalSeg x) : Dir (joinSegs (segs ++ [s])) = joinSegs segs := by
  have hs0 : '/' ∉ s := (hs s (by simp)).2.1
  have e : joinSegs segs ++ '/' :: s = (joinSegs segs ++ ['/']) ++ s := by simp
  unfold Dir
  rw [joinSegs_concat segs s hne, e, rdropWhile_append_all _ _ hs0,
    List.rdropWhile_concat_neg _ _ _ (by simp)]
  exact Clean_joinSegs_slash segs hne (fun x hx => hs x (by simp [hx]))

theorem joinSegs_ne_dot (segs : List Str) (hs : ∀ s ∈ segs, normalSeg s) :
    joinSegs segs ≠ ['.'] := by
  cases segs with
  | nil => simp [joinSegs]
  | cons s rest =>
    have h0 := hs s (List.mem_cons_self _ _)
    cases rest with
    | nil => exact h0.2.2.1
    | cons t rest =>
      rw [joinSegs_cons_cons]
      intro h
      have hl := congrArg List.length h
      have h1 : s.length ≥ 1 := List.length_pos.mpr h0.1
      simp only [List.length_append, List.length_cons, List.length_nil] at hl
      omega

theorem Dir_iterate_joinSegs (segs : List Str) (hs : ∀ s ∈ segs, normalSeg s) (k : Nat)
    (hk : k < segs.length) :
    Dir^[k] (joinSegs segs) = joinSegs (segs.take (segs.length - k)) := by
  induction k with
  | zero => simp
  | succ k ih =>
    rw [Function.iterate_succ_apply', ih (by omega)]
    have hm : segs.length - k = (segs.length - (k + 1)) + 1 := by omega
    have hlt : segs.length - (k + 1) < segs.length := by omega
    rw [hm, List.take_succ, List.getElem?_eq_getElem hlt]
    simp only [Option.toList_some]
    apply Dir_joinSegs
    · intro h
      have := congrArg List.length h
      simp only [List.length_take, List.length_nil] at this
      omega
    · intro x hx
      rcases List.mem_append.mp hx with h | h
      · exact hs x (List.mem_of_mem_take h)
      · rw [List.mem_singleton] at h
        rw [h]
        exact hs _ (List.getElem_mem _)

/-- C1, as the code has it: `loadManifest` returns a list in which, for every
entry, every path reached from its destination by one or more directory-name
steps, other than `.`, is the destination of an entry; for a destination made
of normal segments (`a/b/c`) these are its proper prefixes at separators (`a`
and `a/b`).  That entry has type `dir` unless its destination is itself the
combined destination of a raw entry. -/
theorem loadManifest_parents (keyOrder valueOrder : RangeOrder (Str × ManifestEntry))
    (pfx : Str) (raws : List ManifestEntry) :
    ∃ r, loadManifest keyOrder valueOrder pfx raws = some r ∧
      (∀ e ∈ r.entries, ∀ j, Dir^[j + 1] e.Dest ≠ ['.'] →
        ∃ e1 ∈ r.entries, e1.Dest = Dir^[j + 1] e.Dest ∧
          (e1.Typ = ENTRY_IS_DIR ∨ ∃ x ∈ raws, combinePaths pfx x.Dest = e1.Dest)) ∧
      (∀ e ∈ r.entries, ∀ segs : List Str, (∀ s ∈ segs, normalSeg s) →
        e.Dest = joinSegs segs → ∀ n, 0 < n → n < segs.length →
        ∃ e1 ∈ r.entries, e1.Dest = joinSegs (segs.take n) ∧
          (e1.Typ = ENTRY_IS_DIR ∨ ∃ x ∈ raws, combinePaths pfx x.Dest = e1.Dest)) := by
  obtain ⟨m1, hs, hch, hr⟩ := loadManifest_run keyOrder valueOrder pfx raws
  have key : ∀ e ∈ sortByDest ((valueOrder.perm m1).map Prod.snd), ∀ j,
      Dir^[j + 1] e.Dest ≠ ['.'] →
      ∃ e1 ∈ sortByDest ((valueOrder.perm m1).map Prod.snd), e1.Dest = Dir^[j + 1] e.Dest ∧
        (e1.Typ = ENTRY_IS_DIR ∨ ∃ x ∈ raws, combinePaths pfx x.Dest = e1.Dest) := by
    intro e he j hj
    have hget := (mem_entries_iff valueOrder m1 hs.1 e).mp he
    have hin := hch e.Dest (by rw [hget]; exact Option.some_ne_none _) j hj
    obtain ⟨v, hv⟩ := Option.ne_none_iff_exists'.mp hin
    have hvd : v.Dest = Dir^[j + 1] e.Dest :=
      hs.1.2 _ ((mapGet_eq_some_iff m1 hs.1.1 _ v).mp hv)
    refine ⟨v, (mem_entries_iff valueOrder m1 hs.1 v).mpr (by rw [hvd]; exact hv), hvd, ?_⟩
    cases h0 : mapGet (readEntries pfx raws []) (Dir^[j + 1] e.Dest) with
    | none =>
      obtain ⟨d, e0, i, _, _, _, hpar⟩ := hs.2.2 _ v h0 hv
      left; rw [hpar]; rfl
    | some e0 =>
      right
      rcases (readEntries_get_ne_none pfx raws [] (Dir^[j + 1] e.Dest)).mp
        (by rw [h0]; exact Option.some_ne_none _) with h1 | ⟨x, hx, hxd⟩
      · exact absurd rfl h1
      · exact ⟨x, hx, by rw [hvd]; exact hxd⟩
  refine ⟨_, hr, key, ?_⟩
  intro e he segs hsegs hdest n hn0 hn
  have hk : segs.length - n < segs.length := by omega
  have hit := Dir_iterate_joinSegs segs hsegs (segs.length - n) hk
  have hnn : segs.length - (segs.length - n) = n := by omega
  rw [hnn] at hit
  obtain ⟨j, hj⟩ : ∃ j, segs.length - n = j + 1 := ⟨segs.length - n - 1, by omega⟩
  rw [hj, ← hdest] at hit
  have hne : Dir^[j + 1] e.Dest ≠ ['.'] := by
    rw [hit]
    exact joinSegs_ne_dot _ (fun s hs1 => hsegs s (List.mem_of_mem_take hs1))
  obtain ⟨e1, he1, hd1, ht1⟩ := key e he j hne
  exact ⟨e1, he1, by rw [hd1, hit], ht1⟩

/-- The raw entries `x/y/z.txt` and `x/y`: the resolved manifest holds `x` as a
synthesized directory and `x/y` as the raw file entry. -/
theorem loadManifest_parents_witness :
    ∃ r, loadManifest (RangeOrder.insertion _) (RangeOrder.reversed _) ['/']
        [fileEntry "x/y/z.txt".toList "z".toList [], fileEntry "x/y".toList "y".toList []] =
          some r ∧
      (∀ e ∈ r.entries, ∀ j, Dir^[j + 1] e.Dest ≠ ['.'] →
        ∃ e1 ∈ r.entries, e1.Dest = Dir^[j + 1] e.Dest ∧
          (e1.Typ = ENTRY_IS_DIR ∨
            ∃ x ∈ [fileEntry "x/y/z.txt".toList "z".toList [],
              fileEntry "x/y".toList "y".toList []], combinePaths ['/'] x.Dest = e1.Dest)) ∧
      (∀ e ∈ r.entries, ∀ segs : List Str, (∀ s ∈ segs, normalSeg s) →
        e.Dest = joinSegs segs → ∀ n, 0 < n → n < segs.length →
        ∃ e1 ∈ r.entries, e1.Dest = joinSegs (segs.take n) ∧
          (e1.Typ = ENTRY_IS_DIR ∨
            ∃ x ∈ [fileEntry "x/y/z.txt".toList "z".toList [],
              fileEntry "x/y".toList "y".toList []], combinePaths ['/'] x.Dest = e1.Dest)) :=
  loadManifest_parents (RangeOrder.insertion _) (RangeOrder.reversed _) ['/']
    [fileEntry "x/y/z.txt".toList "z".toList [], fileEntry "x/y".toList "y".toList []]

/-- C1 fails as stated.  With the raw file entries `a` and `a/b`, the ancestor
`a` of `a/b` is in the resolved manifest only as the file entry.  With the
single raw entry `x/../y`, the manifest holds that entry alone: no entry has
destination `x` or `x/..`. -/
theorem loadManifest_parents_counterexample :
    (∃ r, loadManifest (RangeOrder.insertion _) (RangeOrder.insertion _) ['/']
        [fileEntry "a".toList "1".toList [], fileEntry "a/b".toList "2".toList []] = some r ∧
      r.entries = [fileEntry "a".toList "1".toList [], fileEntry "a/b".toList "2".toList []] ∧
      ¬ ParentComplete r.entries) ∧
    (∃ r, loadManifest (RangeOrder.insertion _) (RangeOrder.insertion _) ['/']
        [fileEntry "x/../y".toList "1".toList []] = some r ∧
      r.entries = [fileEntry "x/../y".toList "1".toList []] ∧
      ¬ ParentComplete r.entries) := by
  constructor
  · refine ⟨⟨[fileEntry "a".toList "1".toList [], fileEntry "a/b".toList "2".toList []],
      ["a".toList, "a/b".toList]⟩, by decide, rfl, ?_⟩
    intro h
    obtain ⟨e1, he1, hd, ht⟩ := h (fileEntry "a/b".toList "2".toList []) (by simp)
      "a".toList "b".toList (by decide) (by decide)
    simp only [List.mem_cons, List.mem_singleton, List.not_mem_nil, or_false] at he1
    rcases he1 with h1 | h1
    · rw [h1] at ht; exact absurd ht (by decide)
    · rw [h1] at hd; exact absurd hd (by decide)
  · refine ⟨⟨[fileEntry "x/../y".toList "1".toList []], ["x/../y".toList]⟩, by decide, rfl, ?_⟩
    intro h
    obtain ⟨e1, he1, hd, _⟩ := h (fileEntry "x/../y".toList "1".toList []) (by simp)
      "x".toList "../y".toList (by decide) (by decide)
    simp only [List.mem_singleton] at he1
    rw [he1] at hd; exact absurd hd (by decide)

/-! ## The models of `Clean` and of the sort do not depend on their devices -/

theorem dropWhile_length_le (l : Str) :
    (l.dropWhile (fun x => x ≠ '/')).length ≤ l.length :=
  (List.dropWhile_suffix _).length_le

/-- Fuel beyond the length of the input does not change the result of the loop
of `Clean`: the loop has exited by then. -/
theorem cleanLoop_fuel (rooted : Bool) (fuel : Nat) :
    ∀ (fuel1 : Nat) (rest out : Str) (dd : Nat), rest.length ≤ fuel → rest.length ≤ fuel1 →
      cleanLoop rooted fuel rest out dd = cleanLoop rooted fuel1 rest out dd := by
  induction fuel with
  | zero =>
    intro fuel1 rest out dd h _
    have : rest = [] := List.length_eq_zero.mp (Nat.le_zero.mp h)
    subst this
    rw [cleanLoop_nil, cleanLoop_nil]
  | succ n ih =>
    intro fuel1 rest out dd h h1
    cases rest with
    | nil => rw [cleanLoop_nil, cleanLoop_nil]
    | cons c t =>
      obtain ⟨m, hm⟩ : ∃ m, fuel1 = m + 1 := ⟨fuel1 - 1, by simp at h1; omega⟩
      subst hm
      simp only [List.length_cons] at h h1
      have ht : t.tail.length ≤ t.length := by simp
      rw [cleanLoop_succ_cons, cleanLoop_succ_cons]
      by_cases h2 : c = '/'
      · rw [if_pos h2, if_pos h2]
        exact ih m t out dd (by omega) (by omega)
      · rw [if_neg h2, if_neg h2]
        have hd : ((c :: t).dropWhile (fun x => x ≠ '/')).length ≤ t.length := by
          rw [List.dropWhile_cons]
          simp only [ne_eq, h2, not_false_eq_true, decide_True, if_true]
          exact dropWhile_length_le t
        rw [ih m t out dd (by omega) (by omega)]
        rw [ih m t.tail _ dd (by omega) (by omega)]
        rw [ih m t.tail _ _ (by omega) (by omega)]
        rw [ih m t.tail out dd (by omega) (by omega)]
        rw [ih m ((c :: t).dropWhile (fun x => x ≠ '/')) _ dd (by omega) (by omega)]

theorem eq_of_perm_of_map_eq {α β : Type} (f : α → β) :
    ∀ l1 l2 : List α, l1.Perm l2 → l1.map f = l2.map f → (l1.map f).Nodup → l1 = l2 := by
  intro l1
  induction l1 with
  | nil => intro l2 hp _ _; exact hp.nil_eq
  | cons a l1 ih =>
    intro l2 hp hm hn
    cases l2 with
    | nil => exact absurd hp.symm.nil_eq (by simp)
    | cons b l2 =>
      simp only [List.map_cons, List.cons.injEq] at hm
      simp only [List.map_cons, List.nodup_cons] at hn
      have hab : a = b := by
        have hmem : a ∈ b :: l2 := hp.mem_iff.mp (List.mem_cons_self _ _)
        rcases List.mem_cons.mp hmem with h | h
        · exact h
        · exfalso
          apply hn.1
          rw [hm.2]
          exact List.mem_map_of_mem f h
      subst hab
      rw [ih l2 (List.Perm.cons_inv hp) hm.2 hn.2]

/-- Any arrangement of entries with pairwise distinct destinations that is in
order of destination is the one `sortByDest` yields: the result of
`sort.Slice` is determined, whatever the algorithm. -/
theorem sortByDest_unique (l l1 : List ManifestEntry) (hp : l1.Perm l)
    (hs : (l1.map (fun e => e.Dest)).Sorted (· ≤ ·))
    (hn : (l.map (fun e => e.Dest)).Nodup) : l1 = sortByDest l := by
  have hp2 : l1.Perm (sortByDest l) :=
    hp.trans (List.perm_insertionSort (fun a b : ManifestEntry => a.Dest ≤ b.Dest) l).symm
  have hm : l1.map (fun e => e.Dest) = (sortByDest l).map (fun e => e.Dest) :=
    List.eq_of_perm_of_sorted (hp2.map _) hs (sortByDest_sorted l)
  exact eq_of_perm_of_map_eq (fun e : ManifestEntry => e.Dest) l1 (sortByDest l) hp2 hm
    (((hp.map _).nodup_iff).mpr hn)

/-- More fuel does not change the result of a parent walk that has exited. -/
theorem parentLoop_fuel (dest : Str) (fuel : Nat) :
    ∀ (parent : Str) (m m1 : GoMap ManifestEntry),
      parentLoop dest fuel parent m = some m1 → parentLoop dest (fuel + 1) parent m = some m1 := by
  induction fuel with
  | zero =>
    intro parent m m1 h
    by_cases hp : parent = ['.']
    · simp only [parentLoop, hp, if_true] at h ⊢
      exact h
    · simp [parentLoop, hp] at h
  | succ n ih =>
    intro parent m m1 h
    by_cases hp : parent = ['.']
    · simp only [parentLoop, hp, if_true] at h ⊢
      exact h
    · rw [parentLoop] at h ⊢
      rw [if_neg hp] at h ⊢
      simp only [] at h ⊢
      by_cases hc : Dir parent ≠ ['.'] ∧ mapGet m (Dir parent) = none
      · rw [if_pos hc] at h ⊢
        cases hd : mapGet m dest with
        | none => rw [hd] at h; exact absurd h (by simp)
        | some e =>
          rw [hd] at h
          exact ih _ _ _ h
      · rw [if_neg hc] at h ⊢
        exact ih _ _ _ h

/-! ## `ParseUint` and `ParseInt` on every string -/

theorem digitsFrom_ge (base : Nat) (s : Str) (n : Nat) (hb : 0 < base) :
    n ≤ digitsFrom base s n := by
  unfold digitsFrom
  induction s generalizing n with
  | nil => exact le_refl n
  | cons c s ih =>
    simp only [List.foldl_cons]
    refine le_trans ?_ (ih _)
    calc n ≤ base * n := Nat.le_mul_of_pos_left n hb
      _ ≤ _ := Nat.le_add_right _ _

theorem digitsFrom_cons (base : Nat) (c : Char) (s : Str) (n : Nat) :
    digitsFrom base (c :: s) n = digitsFrom base s (base * n + (c.toNat - '0'.toNat)) := rfl

theorem digitVal_of_digit (base : Nat) (c : Char) (hb : base ≤ 10)
    (h : isDigitOf base c = true) :
    digitVal c = some (c.toNat - '0'.toNat) ∧ c.toNat - '0'.toNat < base := by
  have h0 : '0'.toNat = 48 := by decide
  have h9 : '9'.toNat = 57 := by decide
  simp only [isDigitOf, decide_eq_true_eq] at h
  have h1 : '0'.toNat ≤ c.toNat ∧ c.toNat ≤ '9'.toNat := by omega
  refine ⟨by simp only [digitVal, h1, and_self, if_true], by omega⟩

theorem digitVal_of_not_digit (base : Nat) (c : Char) (hb : base ≤ 10)
    (h : isDigitOf base c = false) :
    digitVal c = none ∨ ∃ d, digitVal c = some d ∧ d ≥ base := by
  have h0 : '0'.toNat = 48 := by decide
  have h9 : '9'.toNat = 57 := by decide
  simp only [isDigitOf, decide_eq_false_iff_not] at h
  unfold digitVal
  split_ifs with h1 h2
  · right; exact ⟨_, rfl, by omega⟩
  · right; exact ⟨_, rfl, by omega⟩
  · left; rfl

/-- The digit loop of `ParseUint` on every string, for a base up to ten: with
`pre` the longest prefix of digits and `v` its value read after `n`, the loop
reports a range error when `v` exceeds the maximum, else a syntax error when
the string goes on after `pre`, else `v`. -/
theorem parseUintLoop_spec (base cutoff maxVal : Nat) (hb0 : 0 < base) (hb : base ≤ 10)
    (hmax : maxVal < 2 ^ 64) (hlo : ∀ n, n < cutoff → n * base < 2 ^ 64)
    (hhi : ∀ n, n ≥ cutoff → n * base > maxVal) (s : Str) :
    ∀ n, n ≤ maxVal →
      parseUintLoop base cutoff maxVal s n =
        if digitsFrom base (s.takeWhile (isDigitOf base)) n > maxVal then
          (maxVal, some NumError.ErrRange)
        else if (s.takeWhile (isDigitOf base)).length < s.length then
          (0, some NumError.ErrSyntax)
        else (digitsFrom base (s.takeWhile (isDigitOf base)) n, none) := by
  induction s with
  | nil =>
    intro n hn
    have h1 : digitsFrom base [] n = n := rfl
    simp only [parseUintLoop, List.takeWhile_nil, h1, List.length_nil, lt_self_iff_false,
      if_false]
    rw [if_neg (by omega)]
  | cons c s ih =>
    intro n hn
    cases hc : isDigitOf base c with
    | false =>
      have hpre : (c :: s).takeWhile (isDigitOf base) = [] := by
        simp [List.takeWhile_cons, hc]
      rw [hpre]
      have h0 : digitsFrom base [] n = n := rfl
      rw [h0, if_neg (by omega), if_pos (by simp)]
      rcases digitVal_of_not_digit base c hb hc with h | ⟨d, hd, hdb⟩
      · simp only [parseUintLoop, h]
      · simp only [parseUintLoop, hd, hdb, if_true]
    | true =>
      obtain ⟨hd, hdb⟩ := digitVal_of_digit base c hb hc
      have hpre : (c :: s).takeWhile (isDigitOf base) = c :: s.takeWhile (isDigitOf base) := by
        simp [List.takeWhile_cons, hc]
      rw [hpre, digitsFrom_cons]
      have hge := digitsFrom_ge base (s.takeWhile (isDigitOf base))
        (base * n + (c.toNat - '0'.toNat)) hb0
      simp only [parseUintLoop, hd]
      rw [if_neg (by omega)]
      by_cases hcut : n ≥ cutoff
      · rw [if_pos hcut]
        have := hhi n hcut
        have h2 : base * n = n * base := Nat.mul_comm _ _
        rw [if_pos (by omega)]
      · rw [if_neg hcut]
        have hlo1 := hlo n (by omega)
        have h2 : base * n = n * base := Nat.mul_comm _ _
        rw [Nat.mod_eq_of_lt hlo1]
        by_cases hov : n * base + (c.toNat - '0'.toNat) ≥ 2 ^ 64
        · have hm : (n * base + (c.toNat - '0'.toNat)) % 2 ^ 64 =
              n * base + (c.toNat - '0'.toNat) - 2 ^ 64 := by
            rw [Nat.mod_eq_sub_mod hov, Nat.mod_eq_of_lt (by omega)]
          rw [hm, if_pos (Or.inl (by omega)), if_pos (by omega)]
        · rw [Nat.mod_eq_of_lt (by omega)]
          by_cases hmx : n * base + (c.toNat - '0'.toNat) > maxVal
          · rw [if_pos (Or.inr hmx), if_pos (by omega)]
          · rw [if_neg (by omega)]
            rw [← h2, ih _ (by omega)]
            simp only [List.length_cons, Nat.add_lt_add_iff_right]

/-- `ParseUint` in base 8 for 32 bits, on every string. -/
theorem ParseUint_8_32 (s : Str) :
    ParseUint s 8 32 =
      if s = [] then (0, some NumError.ErrSyntax)
      else if digitsFrom 8 (s.takeWhile (isDigitOf 8)) 0 > 2 ^ 32 - 1 then
        (2 ^ 32 - 1, some NumError.ErrRange)
      else if (s.takeWhile (isDigitOf 8)).length < s.length then (0, some NumError.ErrSyntax)
      else (digitsFrom 8 (s.takeWhile (isDigitOf 8)) 0, none) := by
  unfold ParseUint
  by_cases hs : s = []
  · rw [if_pos hs, if_pos hs]
  · rw [if_neg hs, if_neg hs, if_neg (by decide)]
    exact parseUintLoop_spec 8 ((2 ^ 64 - 1) / 8 + 1) (2 ^ 32 - 1) (by decide) (by decide)
      (by norm_num) (fun n hn => by norm_num at hn ⊢; omega)
      (fun n hn => by norm_num at hn ⊢; omega) s 0 (by norm_num)

/-- `ParseUint` in base 10 for 64 bits, on every string. -/
theorem ParseUint_10_64 (s : Str) :
    ParseUint s 10 64 =
      if s = [] then (0, some NumError.ErrSyntax)
      else if digitsFrom 10 (s.takeWhile (isDigitOf 10)) 0 > 2 ^ 64 - 1 then
        (2 ^ 64 - 1, some NumError.ErrRange)
      else if (s.takeWhile (isDigitOf 10)).length < s.length then (0, some NumError.ErrSyntax)
      else (digitsFrom 10 (s.takeWhile (isDigitOf 10)) 0, none) := by
  unfold ParseUint
  by_cases hs : s = []
  · rw [if_pos hs, if_pos hs]
  · rw [if_neg hs, if_neg hs, if_neg (by decide)]
    exact parseUintLoop_spec 10 ((2 ^ 64 - 1) / 10 + 1) (2 ^ 64 - 1) (by decide) (by decide)
      (by norm_num) (fun n hn => by norm_num at hn ⊢; omega)
      (fun n hn => by norm_num at hn ⊢; omega) s 0 (by norm_num)

/-! ## Entry modes that do not parse (C14) -/

/-- C14, as the code has it: a header is produced for every non-empty entry
mode, without process exit and whatever the default mode.  With `pre` the
longest prefix of octal digits of the mode: when the value of `pre` is below
`2 ^ 32` and the mode goes on after `pre` (an invalid character, as in `0o755`
or `rwx`), the parse fails and `ExternalAttrs = 0`; when the value of `pre` is
`2 ^ 32` or more (out of range, as in `777777777777`), the parse fails with
the value `2 ^ 32 - 1` and `ExternalAttrs = 0xFFFF0000`. -/
theorem makeZipInfo_unparsed_mode (zw : ZipWriter) (path mode : Str) :
    (digitsFrom 8 (mode.takeWhile (isDigitOf 8)) 0 < 2 ^ 32 →
      (mode.takeWhile (isDigitOf 8)).length < mode.length →
      (ParseUint mode 8 32).2 = some NumError.ErrSyntax ∧
      ∃ h, makeZipInfo zw path mode = some h ∧ h.ExternalAttrs = 0) ∧
    (digitsFrom 8 (mode.takeWhile (isDigitOf 8)) 0 ≥ 2 ^ 32 →
      (ParseUint mode 8 32).2 = some NumError.ErrRange ∧
      ∃ h, makeZipInfo zw path mode = some h ∧ h.ExternalAttrs = 0xFFFF0000) ∧
    (mode ≠ [] → ∀ zw1 : ZipWriter,
      (makeZipInfo zw1 path mode).map (fun h => h.ExternalAttrs) =
        (makeZipInfo zw path mode).map (fun h => h.ExternalAttrs) ∧
      makeZipInfo zw path mode ≠ none) := by
  refine ⟨?_, ?_, ?_⟩
  · intro hv hlen
    have hne : mode ≠ [] := by
      intro h; rw [h] at hlen; simp at hlen
    have hp : ParseUint mode 8 32 = (0, some NumError.ErrSyntax) := by
      rw [ParseUint_8_32, if_neg hne, if_neg (by norm_num at hv ⊢; omega), if_pos hlen]
    refine ⟨by rw [hp], _, makeZipInfo_of_mode zw path mode hne, ?_⟩
    simp only [hp]
    norm_num
  · intro hv
    have hne : mode ≠ [] := by
      intro h; rw [h] at hv
      have : digitsFrom 8 (List.takeWhile (isDigitOf 8) ([] : Str)) 0 = 0 := rfl
      rw [this] at hv
      norm_num at hv
    have hp : ParseUint mode 8 32 = (2 ^ 32 - 1, some NumError.ErrRange) := by
      rw [ParseUint_8_32, if_neg hne, if_pos (by norm_num at hv ⊢; omega)]
    refine ⟨by rw [hp], _, makeZipInfo_of_mode zw path mode hne, ?_⟩
    simp only [hp]
    norm_num
  · intro hne zw1
    rw [makeZipInfo_of_mode zw1 path mode hne, makeZipInfo_of_mode zw path mode hne]
    exact ⟨rfl, Option.some_ne_none _⟩

/-- The entry mode `0o755` has the octal prefix `0` and goes on with `o`: the
header gets `ExternalAttrs = 0`. -/
theorem makeZipInfo_unparsed_mode_witness :
    (ParseUint "0o755".toList 8 32).2 = some NumError.ErrSyntax ∧
    ∃ h, makeZipInfo { exampleWriter with defaultMode := "644".toList } "a.txt".toList
        "0o755".toList = some h ∧ h.ExternalAttrs = 0 :=
  (makeZipInfo_unparsed_mode { exampleWriter with defaultMode := "644".toList } "a.txt".toList
    "0o755".toList).1 (by decide) (by decide)

/-- C14 fails as stated: the entry mode `777777777777` is out of range for 32
bits, `ParseUint` returns the maximum with a range error, and the header gets
`ExternalAttrs = 0xFFFF0000`, not 0. -/
theorem makeZipInfo_unparsed_mode_counterexample :
    ParseUint "777777777777".toList 8 32 = (4294967295, some NumError.ErrRange) ∧
    (makeZipInfo exampleWriter "a.txt".toList "777777777777".toList).map
      (fun h => h.ExternalAttrs) = some 4294901760 ∧
    (4294901760 : Nat) ≠ 0 := by
  decide

/-! ## `Atoi` and decimal integers (C11, C12) -/

theorem takeWhile_all (p : Char → Bool) (s : Str) :
    ¬ ((s.takeWhile p).length < s.length) ↔ s.all p = true := by
  rw [List.all_eq_true, ← List.takeWhile_eq_self_iff]
  constructor
  · intro h
    exact (List.takeWhile_prefix p).eq_of_length_le (by omega)
  · intro h
    rw [h]; exact lt_irrefl _

theorem digitsValue_eq_some (base : Nat) (s : Str) (v : Nat) :
    digitsValue base s = some v ↔
      s ≠ [] ∧ ¬ ((s.takeWhile (isDigitOf base)).length < s.length) ∧
        digitsFrom base (s.takeWhile (isDigitOf base)) 0 = v := by
  unfold digitsValue
  rw [takeWhile_all]
  constructor
  · intro h
    split_ifs at h with h1
    have h2 : s.takeWhile (isDigitOf base) = s :=
      List.takeWhile_eq_self_iff.mpr (List.all_eq_true.mp h1.2)
    rw [h2]
    exact ⟨h1.1, h1.2, Option.some.inj h⟩
  · rintro ⟨h1, h2, h3⟩
    have h4 : s.takeWhile (isDigitOf base) = s :=
      List.takeWhile_eq_self_iff.mpr (List.all_eq_true.mp h2)
    rw [h4] at h3
    rw [if_pos ⟨h1, h2⟩, h3]

theorem digitsValue_eq_none (base : Nat) (s : Str) :
    digitsValue base s = none ↔
      s = [] ∨ (s.takeWhile (isDigitOf base)).length < s.length := by
  unfold digitsValue
  rw [← not_iff_not, not_or, takeWhile_all]
  constructor
  · intro h
    split_ifs at h with h1
    · exact h1
    · exact absurd rfl h
  · intro h
    rw [if_pos h]
    exact Option.some_ne_none _

/-- `ParseUint` in base 10 for 64 bits: it returns the value of a string of
decimal digits below `2 ^ 64` without error, and an error for every other
string: a syntax error, or a range error with the value `2 ^ 64 - 1`. -/
theorem ParseUint_10_64_cases (s : Str) :
    (∃ v, digitsValue 10 s = some v ∧ v < 2 ^ 64 ∧ ParseUint s 10 64 = (v, none)) ∨
    ((digitsValue 10 s = none ∨ ∃ v, digitsValue 10 s = some v ∧ v ≥ 2 ^ 64) ∧
      ((ParseUint s 10 64).2 = some NumError.ErrSyntax ∨
        ParseUint s 10 64 = (2 ^ 64 - 1, some NumError.ErrRange))) := by
  rw [ParseUint_10_64]
  by_cases hs : s = []
  · right
    rw [if_pos hs]
    exact ⟨Or.inl ((digitsValue_eq_none 10 s).mpr (Or.inl hs)), Or.inl rfl⟩
  rw [if_neg hs]
  by_cases hr : digitsFrom 10 (s.takeWhile (isDigitOf 10)) 0 > 2 ^ 64 - 1
  · right
    rw [if_pos hr]
    refine ⟨?_, Or.inr rfl⟩
    by_cases hl : (s.takeWhile (isDigitOf 10)).length < s.length
    · exact Or.inl ((digitsValue_eq_none 10 s).mpr (Or.inr hl))
    · exact Or.inr ⟨_, (digitsValue_eq_some 10 s _).mpr ⟨hs, hl, rfl⟩, by omega⟩
  rw [if_neg hr]
  by_cases hl : (s.takeWhile (isDigitOf 10)).length < s.length
  · right
    rw [if_pos hl]
    exact ⟨Or.inl ((digitsValue_eq_none 10 s).mpr (Or.inr hl)), Or.inl rfl⟩
  · left
    rw [if_neg hl]
    exact ⟨_, (digitsValue_eq_some 10 s _).mpr ⟨hs, hl, rfl⟩, by omega, rfl⟩

theorem ParseInt_of_malformed (s s1 : Str) (hs : s ≠ [])
    (hs1 : (if s.head? = some '+' ∨ s.head? = some '-' then s.tail else s) = s1)
    (h : (ParseUint s1 10 64).2 = some NumError.ErrSyntax) :
    ParseInt s 10 64 = (0, some NumError.ErrSyntax) := by
  unfold ParseInt
  rw [if_neg hs]
  simp only [hs1]
  cases hp : ParseUint s1 10 64 with
  | mk un err =>
    rw [hp] at h
    simp only at h
    subst h
    rfl

theorem ParseInt_of_range (s s1 : Str) (hs : s ≠ [])
    (hs1 : (if s.head? = some '+' ∨ s.head? = some '-' then s.tail else s) = s1)
    (h : ParseUint s1 10 64 = (2 ^ 64 - 1, some NumError.ErrRange)) :
    (ParseInt s 10 64).2 = some NumError.ErrRange := by
  unfold ParseInt
  rw [if_neg hs]
  simp only [hs1, h]
  by_cases hneg : s.head? = some '-'
  · simp [hneg]
  · simp [hneg]

theorem ParseInt_of_value (s s1 : Str) (v : Nat) (hs : s ≠ [])
    (hs1 : (if s.head? = some '+' ∨ s.head? = some '-' then s.tail else s) = s1)
    (h : ParseUint s1 10 64 = (v, none)) :
    ParseInt s 10 64 =
      if s.head? = some '-' then
        (if v > 2 ^ 63 then (-(2 ^ 63 : Int), some NumError.ErrRange) else (-(v : Int), none))
      else
        (if v ≥ 2 ^ 63 then ((2 ^ 63 - 1 : Int), some NumError.ErrRange) else ((v : Int), none)) := by
  unfold ParseInt
  rw [if_neg hs]
  simp only [hs1, h]
  by_cases hneg : s.head? = some '-'
  · by_cases hv : v > 2 ^ 63
    · simp [hneg, hv]
    · simp [hneg, hv]
  · by_cases hv : v ≥ 2 ^ 63
    · simp [hneg, hv]
    · simp [hneg, hv]

theorem decimalValue_eq (s : Str) :
    decimalValue s =
      (digitsValue 10 (if s.head? = some '+' ∨ s.head? = some '-' then s.tail else s)).map
        (fun (v : Nat) => if s.head? = some '-' then -(v : Int) else (v : Int)) := by
  unfold decimalValue
  by_cases hneg : s.head? = some '-'
  · simp only [hneg, if_true, or_true]
  · by_cases hpos : s.head? = some '+'
    · have hne : ¬ ((some '+' : Option Char) = some '-') := by decide
      simp only [hpos, hne, if_true, if_false, true_or]
    · simp only [hneg, hpos, if_false, or_self]

/-- `Atoi` returns `n` without error exactly for the decimal integers `n` of
the range of a 64-bit `int`. -/
theorem Atoi_eq_ok_iff (s : Str) (n : Int) :
    Atoi s = (n, none) ↔ decimalValue s = some n ∧ -(2 ^ 63) ≤ n ∧ n < 2 ^ 63 := by
  unfold Atoi
  by_cases hs : s = []
  · subst hs
    constructor
    · intro h
      have : ParseInt [] 10 64 = (0, some NumError.ErrSyntax) := rfl
      rw [this] at h
      exact absurd (congrArg Prod.snd h) (by simp)
    · rintro ⟨h, _⟩
      have : decimalValue [] = none := rfl
      rw [this] at h
      exact absurd h (by simp)
  rw [decimalValue_eq]
  generalize hs1 : (if s.head? = some '+' ∨ s.head? = some '-' then s.tail else s) = s1
  rcases ParseUint_10_64_cases s1 with ⟨v, hv, hlt, hp⟩ | ⟨hd, he⟩
  · rw [ParseInt_of_value s s1 v hs hs1 hp, hv]
    simp only [Option.map_some']
    by_cases hneg : s.head? = some '-'
    · simp only [hneg, if_true]
      by_cases hr : v > 2 ^ 63
      · rw [if_pos hr]
        constructor
        · intro h; exact absurd (congrArg Prod.snd h) (by simp)
        · rintro ⟨h1, h2, _⟩
          have h3 := Option.some.inj h1
          omega
      · rw [if_neg hr]
        constructor
        · intro h
          have h1 := congrArg Prod.fst h
          simp only at h1
          exact ⟨by rw [h1], by omega, by omega⟩
        · rintro ⟨h1, _⟩
          rw [Option.some.inj h1]
    · simp only [hneg, if_false]
      by_cases hr : v ≥ 2 ^ 63
      · rw [if_pos hr]
        constructor
        · intro h; exact absurd (congrArg Prod.snd h) (by simp)
        · rintro ⟨h1, _, h2⟩
          have h3 := Option.some.inj h1
          omega
      · rw [if_neg hr]
        constructor
        · intro h
          have h1 := congrArg Prod.fst h
          simp only at h1
          exact ⟨by rw [h1], by omega, by omega⟩
        · rintro ⟨h1, _⟩
          rw [Option.some.inj h1]
  · have herr : (ParseInt s 10 64).2 ≠ none := by
      rcases he with he | he
      · rw [ParseInt_of_malformed s s1 hs hs1 he]; simp
      · rw [ParseInt_of_range s s1 hs hs1 he]; simp
    constructor
    · intro h
      rw [h] at herr
      exact absurd rfl herr
    · rintro ⟨h1, h2, h3⟩
      rcases hd with hd | ⟨v, hv, hge⟩
      · rw [hd] at h1
        exact absurd h1 (by simp)
      · rw [hv] at h1
        simp only [Option.map_some', Option.some.injEq] at h1
        split_ifs at h1 <;> omega

/-- `Atoi` returns the value 0 with every error that is not a range error, and
a value with no error only as stated in `Atoi_eq_ok_iff`. -/
theorem Atoi_error_iff (s : Str) :
    (Atoi s).2 ≠ none ↔ ¬ ∃ n, decimalValue s = some n ∧ -(2 ^ 63) ≤ n ∧ n < 2 ^ 63 := by
  constructor
  · rintro h ⟨n, hn⟩
    rw [(Atoi_eq_ok_iff s n).mpr hn] at h
    exact h rfl
  · intro h he
    apply h
    refine ⟨(Atoi s).1, (Atoi_eq_ok_iff s _).mp ?_⟩
    rw [← he]

/-! ## `parseCompressionLevel` (C11) -/

/-- C11, as the code has it: `parseCompressionLevel` returns 0 without error
for the empty string; for a non-empty string it returns an error exactly when
the string is not a decimal integer of the range of a 64-bit `int`; and for
such an integer `n` it returns `n mod 2 ^ 16`, the conversion to `uint16`,
which is `n` itself when `0 ≤ n < 2 ^ 16`. -/
theorem parseCompressionLevel_spec (s : Str) :
    parseCompressionLevel [] = Except.ok 0 ∧
    (s ≠ [] →
      ((∃ e, parseCompressionLevel s = Except.error e) ↔
        ¬ ∃ n, decimalValue s = some n ∧ -(2 ^ 63) ≤ n ∧ n < 2 ^ 63)) ∧
    (∀ n, s ≠ [] → decimalValue s = some n → -(2 ^ 63) ≤ n → n < 2 ^ 63 →
      parseCompressionLevel s = Except.ok (n % 2 ^ 16).toNat ∧
      (0 ≤ n → n < 2 ^ 16 → parseCompressionLevel s = Except.ok n.toNat)) := by
  refine ⟨rfl, ?_, ?_⟩
  · intro hs
    rw [← Atoi_error_iff]
    unfold parseCompressionLevel
    rw [if_neg hs]
    cases ha : Atoi s with
    | mk v err =>
      cases err with
      | none => simp
      | some e => simp
  · intro n hs hd hlo hhi
    have ha := (Atoi_eq_ok_iff s n).mpr ⟨hd, hlo, hhi⟩
    have h1 : parseCompressionLevel s = Except.ok (n % 2 ^ 16).toNat := by
      unfold parseCompressionLevel
      rw [if_neg hs, ha]
    refine ⟨h1, ?_⟩
    intro h0 h16
    rw [h1, Int.emod_eq_of_lt h0 h16]

/-- The level `9` is returned as 9. -/
theorem parseCompressionLevel_spec_witness :
    parseCompressionLevel "9".toList = Except.ok (9 % 2 ^ 16 : Int).toNat ∧
    ((0 : Int) ≤ 9 → (9 : Int) < 2 ^ 16 → parseCompressionLevel "9".toList = Except.ok (9 : Int).toNat) :=
  (parseCompressionLevel_spec "9".toList).2.2 9 (by decide) (by decide) (by decide) (by decide)

/-- C11 fails as stated: `70000` is a decimal integer and the returned level is
4464, and `-1` gives 65535: the conversion to `uint16` alters the value. -/
theorem parseCompressionLevel_counterexample :
    decimalValue "70000".toList = some 70000 ∧
    parseCompressionLevel "70000".toList = Except.ok 4464 ∧
    decimalValue "-1".toList = some (-1) ∧
    parseCompressionLevel "-1".toList = Except.ok 65535 := by
  refine ⟨by decide, rfl, by decide, rfl⟩

/-! ## `GetTimestamp` (C12) -/

theorem splitByte_cons_ne (x c : Char) (s : Str) (hx : x ≠ c) :
    splitByte (x :: s) c = (x :: (splitByte s c).headD []) :: (splitByte s c).tail := by
  simp only [splitByte, hx, if_false]
  cases splitByte s c with
  | nil => rfl
  | cons p ps => rfl

theorem splitByte_of_not_mem (a : Str) (c : Char) (h : c ∉ a) : splitByte a c = [a] := by
  induction a with
  | nil => rfl
  | cons x a ih =>
    have hx : x ≠ c := fun e => h (e ▸ List.mem_cons_self _ _)
    have ha : c ∉ a := fun e => h (List.mem_cons_of_mem _ e)
    rw [splitByte_cons_ne x c _ hx, ih ha]
    rfl

theorem splitByte_append (a r : Str) (c : Char) (h : c ∉ a) :
    splitByte (a ++ c :: r) c = a :: splitByte r c := by
  induction a with
  | nil => simp only [List.nil_append, splitByte, if_true]
  | cons x a ih =>
    have hx : x ≠ c := fun e => h (e ▸ List.mem_cons_self _ _)
    have ha : c ∉ a := fun e => h (List.mem_cons_of_mem _ e)
    rw [List.cons_append, splitByte_cons_ne x c _ hx, ih ha]
    rfl

theorem splitByte_ne_nil (s : Str) (c : Char) : splitByte s c ≠ [] := by
  induction s with
  | nil => simp [splitByte]
  | cons x s ih =>
    by_cases hx : x = c
    · simp [splitByte, hx]
    · simp only [splitByte, hx, if_false]
      cases h : splitByte s c with
      | nil => simp
      | cons p ps => simp

/-- A string either lacks the separator, or splits at its first occurrence. -/
theorem split_first (s : Str) (c : Char) :
    c ∉ s ∨ ∃ a r, s = a ++ c :: r ∧ c ∉ a := by
  induction s with
  | nil => left; simp
  | cons x s ih =>
    by_cases hx : x = c
    · right; exact ⟨[], s, by rw [hx]; rfl, by simp⟩
    · rcases ih with h | ⟨a, r, h1, h2⟩
      · left
        intro hm
        rcases List.mem_cons.mp hm with e | e
        · exact hx e.symm
        · exact h e
      · right
        refine ⟨x :: a, r, by rw [h1]; rfl, ?_⟩
        intro hm
        rcases List.mem_cons.mp hm with e | e
        · exact hx e.symm
        · exact h2 e

/-- A line whose parts at single spaces are more than one, the first of them
the key, starts with the key and a space once trimmed. -/
theorem parts_key (t : Str) (h1 : (splitByte t ' ').length > 1)
    (h2 : (splitByte t ' ').head? = some timestampKey) :
    ∃ r, t = timestampKey ++ ' ' :: r ∧ (splitByte t ' ').getD 1 [] = (splitByte r ' ').headD [] := by
  rcases split_first t ' ' with h | ⟨a, r, ht, ha⟩
  · rw [splitByte_of_not_mem t ' ' h] at h1
    simp at h1
  · rw [ht, splitByte_append a r ' ' ha] at h2 ⊢
    simp only [List.head?_cons, Option.some.injEq] at h2
    refine ⟨r, by rw [h2], ?_⟩
    cases hr : splitByte r ' ' with
    | nil => exact absurd hr (splitByte_ne_nil r ' ')
    | cons p ps => rfl

theorem key_nonspace : ∀ c ∈ timestampKey, (!isSpace c) = true := by decide

theorem key_no_space : ' ' ∉ timestampKey := by decide

theorem isSpace_space : isSpace ' ' = true := by decide

theorem digit_nonspace (c : Char) (h : isDigitOf 10 c = true) : isSpace c = false := by
  have h0 : '0'.toNat = 48 := by decide
  simp only [isDigitOf, decide_eq_true_eq] at h
  have hsp : c ≠ ' ' := by
    intro e
    rw [e] at h
    exact absurd h (by decide)
  simp only [isSpace, Bool.or_eq_false_iff, decide_eq_false_iff_not, Bool.and_eq_false_iff]
  refine ⟨⟨⟨⟨⟨⟨⟨⟨⟨⟨⟨⟨⟨⟨?_, ?_⟩, ?_⟩, ?_⟩, ?_⟩, ?_⟩, ?_⟩, ?_⟩, ?_⟩, ?_⟩, ?_⟩, ?_⟩, ?_⟩, ?_⟩, ?_⟩ <;>
    first
    | exact hsp
    | omega

theorem decimal_chars (v : Str) (n : Int) (h : decimalValue v = some n) :
    v ≠ [] ∧ ∀ c ∈ v, isSpace c = false := by
  rw [decimalValue_eq] at h
  obtain ⟨w, hw, _⟩ := Option.map_eq_some'.mp h
  obtain ⟨hne, hall, _⟩ := (digitsValue_eq_some 10 _ w).mp hw
  have hall1 := List.all_eq_true.mp ((takeWhile_all _ _).mp hall)
  by_cases hsign : v.head? = some '+' ∨ v.head? = some '-'
  · rw [if_pos hsign] at hne hall1
    cases v with
    | nil => simp at hsign
    | cons c t =>
      refine ⟨by simp, ?_⟩
      intro x hx
      rcases List.mem_cons.mp hx with e | e
      · simp only [List.head?_cons, Option.some.injEq] at hsign
        rcases hsign with e1 | e1
        · rw [e, e1]; decide
        · rw [e, e1]; decide
      · exact digit_nonspace x (hall1 x e)
  · rw [if_neg hsign] at hne hall1
    exact ⟨hne, fun x hx => digit_nonspace x (hall1 x hx)⟩

theorem takeWhile_key (x : Str) :
    (timestampKey ++ ' ' :: x).takeWhile (fun c => !isSpace c) = timestampKey ∧
    (timestampKey ++ ' ' :: x).dropWhile (fun c => !isSpace c) = ' ' :: x := by
  constructor
  · rw [List.takeWhile_append_of_pos key_nonspace]
    simp [List.takeWhile_cons, isSpace_space]
  · rw [List.dropWhile_append_of_pos key_nonspace]
    simp [List.dropWhile_cons, isSpace_space]

/-- A line that, once trimmed, starts with the key and a space has the key as
its first token, and the rest of the line goes on with that space. -/
theorem tokens_of_trim (l r : Str) (h : trimSpace l = timestampKey ++ ' ' :: r) :
    firstToken l = timestampKey ∧ ∃ trailing, afterFirstToken l = ' ' :: (r ++ trailing) := by
  have hpre : trimSpace l <+: l.dropWhile isSpace := List.rdropWhile_prefix _ _
  obtain ⟨trailing, ht⟩ := hpre
  rw [h] at ht
  have e : l.dropWhile isSpace = timestampKey ++ ' ' :: (r ++ trailing) := by
    rw [← ht]; simp
  unfold firstToken afterFirstToken
  rw [e]
  exact ⟨(takeWhile_key _).1, trailing, (takeWhile_key _).2⟩

theorem scanTimestamp_cons (f line : Str) (lines : List Str) :
    scanTimestamp f (line :: lines) =
      if (splitByte (trimSpace line) ' ').length > 1 ∧
          (splitByte (trimSpace line) ' ').head? = some "BUILD_TIMESTAMP".toList then
        match Atoi ((splitByte (trimSpace line) ' ').getD 1 []) with
        | (timestamp, none) => (timestamp, none)
        | (_, some _) => (0, some (Err.notANumber ((splitByte (trimSpace line) ' ').getD 1 [])))
      else scanTimestamp f lines := rfl

/-- A line whose first token is not the key is passed over. -/
theorem scanTimestamp_skip (f line : Str) (lines : List Str)
    (h : firstToken line ≠ timestampKey) :
    scanTimestamp f (line :: lines) = scanTimestamp f lines := by
  rw [scanTimestamp_cons, if_neg]
  rintro ⟨h1, h2⟩
  obtain ⟨r, hr, _⟩ := parts_key (trimSpace line) h1 h2
  exact h (tokens_of_trim line r hr).1

/-- A line that, once trimmed, is the key, one space and a part without a
space, followed by nothing or by a space, is decided by `Atoi` on that part. -/
theorem scanTimestamp_hit (f line v tail : Str) (lines : List Str)
    (h : trimSpace line = timestampKey ++ ' ' :: (v ++ tail)) (hv : ' ' ∉ v)
    (htail : tail = [] ∨ tail.head? = some ' ') :
    scanTimestamp f (line :: lines) =
      match Atoi v with
      | (timestamp, none) => (timestamp, none)
      | (_, some _) => (0, some (Err.notANumber v)) := by
  have hparts : ∃ ps, splitByte (trimSpace line) ' ' = timestampKey :: v :: ps := by
    rw [h, splitByte_append _ _ _ key_no_space]
    rcases htail with ht | ht
    · subst ht
      rw [List.append_nil, splitByte_of_not_mem v ' ' hv]
      exact ⟨[], rfl⟩
    · cases tail with
      | nil => simp at ht
      | cons c t =>
        have hc : c = ' ' := by simpa using ht
        subst hc
        rw [splitByte_append v t ' ' hv]
        exact ⟨_, rfl⟩
  obtain ⟨ps, hps⟩ := hparts
  rw [scanTimestamp_cons, hps, if_pos ⟨by simp, rfl⟩]
  rfl

theorem splitByte_head_prefix (r : Str) (c : Char) :
    ∃ rest, r = (splitByte r c).headD [] ++ rest := by
  rcases split_first r c with h | ⟨a, r2, h1, h2⟩
  · rw [splitByte_of_not_mem r c h]
    exact ⟨[], by simp⟩
  · rw [h1, splitByte_append a r2 c h2]
    exact ⟨c :: r2, rfl⟩

/-- Where `Atoi` reads the second part of a line that starts with the key and
a space, the line has a second token. -/
theorem secondToken_of_hit (line r : Str) (ts : Int)
    (h : trimSpace line = timestampKey ++ ' ' :: r)
    (ha : Atoi ((splitByte r ' ').headD []) = (ts, none)) :
    secondToken line ≠ [] := by
  obtain ⟨_, trailing, haft⟩ := tokens_of_trim line r h
  obtain ⟨hne, hns⟩ := decimal_chars _ ts ((Atoi_eq_ok_iff _ ts).mp ha).1
  obtain ⟨rest, hrest⟩ := splitByte_head_prefix r ' '
  cases hp : (splitByte r ' ').headD [] with
  | nil => exact absurd hp hne
  | cons x p =>
    have hx : isSpace x = false := hns x (by rw [hp]; exact List.mem_cons_self _ _)
    rw [hp] at hrest
    unfold secondToken firstToken
    rw [haft, hrest]
    simp [List.dropWhile_cons, List.takeWhile_cons, isSpace_space, hx]

theorem scanTimestamp_none (f : Str) (lines : List Str)
    (h : ∀ l ∈ lines, ¬ (firstToken l = timestampKey ∧ secondToken l ≠ [])) :
    (scanTimestamp f lines).2 ≠ none := by
  induction lines with
  | nil => simp [scanTimestamp]
  | cons line lines ih =>
    rw [scanTimestamp_cons]
    by_cases hc : (splitByte (trimSpace line) ' ').length > 1 ∧
        (splitByte (trimSpace line) ' ').head? = some "BUILD_TIMESTAMP".toList
    · rw [if_pos hc]
      obtain ⟨r, hr, hget⟩ := parts_key (trimSpace line) hc.1 hc.2
      cases ha : Atoi ((splitByte (trimSpace line) ' ').getD 1 []) with
      | mk ts err =>
        cases err with
        | some e => simp
        | none =>
          exfalso
          rw [hget] at ha
          exact h line (List.mem_cons_self _ _)
            ⟨(tokens_of_trim line r hr).1, secondToken_of_hit line r ts hr ha⟩
    · rw [if_neg hc]
      exact ih (fun l hl => h l (List.mem_cons_of_mem _ hl))

theorem scanTimestamp_found (f : Str) (pre : List Str) (line v tail : Str) (post : List Str)
    (n : Int) (hpre : ∀ l ∈ pre, firstToken l ≠ timestampKey)
    (hline : trimSpace line = timestampKey ++ ' ' :: (v ++ tail))
    (htail : tail = [] ∨ tail.head? = some ' ')
    (hv : decimalValue v = some n) (hlo : -(2 ^ 63) ≤ n) (hhi : n < 2 ^ 63) :
    scanTimestamp f (pre ++ line :: post) = (n, none) := by
  induction pre with
  | nil =>
    have hsp : ' ' ∉ v := by
      intro hm
      have := (decimal_chars v n hv).2 ' ' hm
      rw [isSpace_space] at this
      exact absurd this (by simp)
    rw [List.nil_append, scanTimestamp_hit f line v tail post hline hsp htail,
      (Atoi_eq_ok_iff v n).mpr ⟨hv, hlo, hhi⟩]
  | cons l pre ih =>
    rw [List.cons_append, scanTimestamp_skip f l _ (hpre l (List.mem_cons_self _ _))]
    exact ih (fun x hx => hpre x (List.mem_cons_of_mem _ hx))

/-- A line decides in the loop of `GetTimestamp` exactly when, once trimmed, it
is the key and a space followed by anything. -/
theorem decides_iff (t : Str) :
    ((splitByte t ' ').length > 1 ∧ (splitByte t ' ').head? = some timestampKey) ↔
      ∃ r, t = timestampKey ++ ' ' :: r := by
  constructor
  · rintro ⟨h1, h2⟩
    obtain ⟨r, hr, _⟩ := parts_key t h1 h2
    exact ⟨r, hr⟩
  · rintro ⟨r, hr⟩
    rw [hr, splitByte_append _ _ _ key_no_space]
    cases hs : splitByte r ' ' with
    | nil => exact absurd hs (splitByte_ne_nil r ' ')
    | cons p ps => exact ⟨by simp, rfl⟩

/-- A line that, once trimmed, is not the key and a space followed by anything
is passed over. -/
theorem scanTimestamp_pass (f line : Str) (lines : List Str)
    (h : ∀ r, trimSpace line ≠ timestampKey ++ ' ' :: r) :
    scanTimestamp f (line :: lines) = scanTimestamp f lines := by
  rw [scanTimestamp_cons, if_neg]
  intro hd
  obtain ⟨r, hr⟩ := (decides_iff (trimSpace line)).mp hd
  exact h r hr

/-- A line that decides gives a value or a parse error, not the error of the
missing key. -/
theorem scanTimestamp_decided (f line : Str) (lines : List Str) (r : Str)
    (h : trimSpace line = timestampKey ++ ' ' :: r) :
    scanTimestamp f (line :: lines) ≠ (0, some (Err.missingTimestamp f)) := by
  have hd : (splitByte (trimSpace line) ' ').length > 1 ∧
      (splitByte (trimSpace line) ' ').head? = some "BUILD_TIMESTAMP".toList :=
    (decides_iff (trimSpace line)).mpr ⟨r, h⟩
  rw [scanTimestamp_cons, if_pos hd]
  cases Atoi ((splitByte (trimSpace line) ' ').getD 1 []) with
  | mk v err =>
    cases err with
    | none => intro hc; cases hc
    | some e => intro hc; cases hc

theorem scanTimestamp_missing_iff (f : Str) (lines : List Str) :
    scanTimestamp f lines = (0, some (Err.missingTimestamp f)) ↔
      ∀ l ∈ lines, ∀ r, trimSpace l ≠ timestampKey ++ ' ' :: r := by
  induction lines with
  | nil => simp [scanTimestamp]
  | cons line lines ih =>
    constructor
    · intro h l hl r hr
      by_cases hd : ∃ r1, trimSpace line = timestampKey ++ ' ' :: r1
      · obtain ⟨r1, hr1⟩ := hd
        exact scanTimestamp_decided f line lines r1 hr1 h
      · have hp : ∀ r1, trimSpace line ≠ timestampKey ++ ' ' :: r1 :=
          fun r1 h1 => hd ⟨r1, h1⟩
        rw [scanTimestamp_pass f line lines hp] at h
        rcases List.mem_cons.mp hl with e | e
        · rw [e] at hr; exact hp r hr
        · exact ih.mp h l e r hr
    · intro h
      rw [scanTimestamp_pass f line lines (h line (List.mem_cons_self _ _))]
      exact ih.mpr (fun l hl => h l (List.mem_cons_of_mem _ hl))

/-- Passing over the lines that do not decide. -/
theorem scanTimestamp_pass_all (f : Str) (pre lines : List Str)
    (h : ∀ l ∈ pre, ∀ r, trimSpace l ≠ timestampKey ++ ' ' :: r) :
    scanTimestamp f (pre ++ lines) = scanTimestamp f lines := by
  induction pre with
  | nil => rfl
  | cons l pre ih =>
    rw [List.cons_append, scanTimestamp_pass f l _ (h l (List.mem_cons_self _ _))]
    exact ih (fun l1 hl1 => h l1 (List.mem_cons_of_mem _ hl1))

/-- A line that does not decide can be left out of the file. -/
theorem scanTimestamp_remove (f line : Str) (pre post : List Str)
    (h : ∀ r, trimSpace line ≠ timestampKey ++ ' ' :: r) :
    scanTimestamp f (pre ++ line :: post) = scanTimestamp f (pre ++ post) := by
  induction pre with
  | nil => exact scanTimestamp_pass f line post h
  | cons l pre ih =>
    rw [List.cons_append, List.cons_append, scanTimestamp_cons, scanTimestamp_cons f l, ih]

/-- The key followed by a character other than a space is not the key followed
by a space. -/
theorem key_then_ne (c : Char) (rest r : Str) (hc : c ≠ ' ') :
    timestampKey ++ c :: rest ≠ timestampKey ++ ' ' :: r := by
  intro h
  have h1 := List.append_cancel_left h
  exact hc (List.cons.inj h1).1

/-- A line that, once trimmed, starts with the key and a white space character
has the key as its first token. -/
theorem firstToken_of_trim (l : Str) (c : Char) (rest : Str) (hc : isSpace c = true)
    (h : trimSpace l = timestampKey ++ c :: rest) : firstToken l = timestampKey := by
  have hpre : trimSpace l <+: l.dropWhile isSpace := List.rdropWhile_prefix _ _
  obtain ⟨trailing, ht⟩ := hpre
  rw [h] at ht
  have e : l.dropWhile isSpace = timestampKey ++ c :: (rest ++ trailing) := by
    rw [← ht]; simp
  unfold firstToken
  rw [e, List.takeWhile_append_of_pos key_nonspace]
  simp [List.takeWhile_cons, hc]

/-- C12, as the code has it, for a status file that reads as `content`; a line
decides when, once trimmed of white space, it is the key `BUILD_TIMESTAMP` and
a space followed by anything.  If a line, once trimmed, is the key, exactly one
space, and a decimal integer `n` (of the range of `int`) followed by nothing or
by a space, and no earlier line has the key as its first token, the result is
`n` without error.  If no line has the key as its first token followed by a
second token, the result is an error.  If a line, once trimmed, is the key and
two spaces followed by anything, and no earlier line decides, the part read is
empty and the result is the parse error, whatever follows the spaces.  The
result is the error of the missing key exactly when no line decides.  A line
that, once trimmed, is the key and a character other than a space (a tab)
followed by anything is passed over: the result is that of the file without
the line, though the key is the first token of the line when that character is
white space. -/
theorem GetTimestamp_spec (fs : FileSystem) (path content : Str)
    (hread : fs.readFile path = some content) :
    (∀ (pre : List Str) (line : Str) (post : List Str) (v tail : Str) (n : Int),
      splitByte content (Char.ofNat 10) = pre ++ line :: post →
      (∀ l ∈ pre, firstToken l ≠ timestampKey) →
      trimSpace line = timestampKey ++ ' ' :: (v ++ tail) →
      (tail = [] ∨ tail.head? = some ' ') →
      decimalValue v = some n → -(2 ^ 63) ≤ n → n < 2 ^ 63 →
      GetTimestamp fs path = (n, none)) ∧
    ((∀ l ∈ splitByte content (Char.ofNat 10),
        ¬ (firstToken l = timestampKey ∧ secondToken l ≠ [])) →
      (GetTimestamp fs path).2 ≠ none) ∧
    (∀ (pre : List Str) (line : Str) (post : List Str) (rest : Str),
      splitByte content (Char.ofNat 10) = pre ++ line :: post →
      (∀ l ∈ pre, ∀ r, trimSpace l ≠ timestampKey ++ ' ' :: r) →
      trimSpace line = timestampKey ++ ' ' :: ' ' :: rest →
      GetTimestamp fs path = (0, some (Err.notANumber [])) ∧
      firstToken line = timestampKey) ∧
    (GetTimestamp fs path = (0, some (Err.missingTimestamp path)) ↔
      ∀ l ∈ splitByte content (Char.ofNat 10), ∀ r, trimSpace l ≠ timestampKey ++ ' ' :: r) ∧
    (∀ (pre : List Str) (line : Str) (post : List Str) (c : Char) (rest : Str),
      splitByte content (Char.ofNat 10) = pre ++ line :: post →
      trimSpace line = timestampKey ++ c :: rest → c ≠ ' ' →
      GetTimestamp fs path = scanTimestamp path (pre ++ post) ∧
      (isSpace c = true → firstToken line = timestampKey)) := by
  have hG : GetTimestamp fs path = scanTimestamp path (splitByte content (Char.ofNat 10)) := by
    unfold GetTimestamp
    rw [hread]
  refine ⟨?_, ?_, ?_, ?_, ?_⟩
  · intro pre line post v tail n hsplit hpre hline htail hv hlo hhi
    rw [hG, hsplit]
    exact scanTimestamp_found path pre line v tail post n hpre hline htail hv hlo hhi
  · intro h
    rw [hG]
    exact scanTimestamp_none path _ h
  · intro pre line post rest hsplit hpre hline
    refine ⟨?_, (tokens_of_trim line (' ' :: rest) hline).1⟩
    rw [hG, hsplit, scanTimestamp_pass_all path pre _ hpre,
      scanTimestamp_hit path line [] (' ' :: rest) post hline (by simp) (Or.inr rfl)]
    rfl
  · rw [hG]
    exact scanTimestamp_missing_iff path _
  · intro pre line post c rest hsplit hline hc
    refine ⟨?_, fun hsp => firstToken_of_trim line c rest hsp hline⟩
    rw [hG, hsplit]
    apply scanTimestamp_remove
    intro r hr
    rw [hline] at hr
    exact key_then_ne c rest r hc hr

/-- A status file with the lines `FOO 1` and `BUILD_TIMESTAMP 1700000000`: the
result is 1700000000. -/
theorem GetTimestamp_spec_witness :
    GetTimestamp
      (statusFS ("FOO 1".toList ++ [Char.ofNat 10] ++ "BUILD_TIMESTAMP 1700000000".toList))
      "status.txt".toList = (1700000000, none) :=
  (GetTimestamp_spec
    (statusFS ("FOO 1".toList ++ [Char.ofNat 10] ++ "BUILD_TIMESTAMP 1700000000".toList))
    "status.txt".toList _ rfl).1 ["FOO 1".toList] "BUILD_TIMESTAMP 1700000000".toList []
    "1700000000".toList [] 1700000000 (by decide) (by decide) (by decide) (Or.inl rfl)
    (by decide) (by decide) (by decide)

/-- C12 fails as stated: with two spaces between the key and the value the
second part at single spaces is empty and the result is an error, and with a
tab between them the line is passed over and the result is an error; in both
lines the first token is the key and the second token is the decimal integer
17. -/
theorem GetTimestamp_counterexample :
    firstToken "BUILD_TIMESTAMP  17".toList = timestampKey ∧
    secondToken "BUILD_TIMESTAMP  17".toList = "17".toList ∧
    decimalValue "17".toList = some 17 ∧
    GetTimestamp (statusFS "BUILD_TIMESTAMP  17".toList) "status.txt".toList =
      (0, some (Err.notANumber [])) ∧
    firstToken ("BUILD_TIMESTAMP".toList ++ [Char.ofNat 9] ++ "17".toList) = timestampKey ∧
    secondToken ("BUILD_TIMESTAMP".toList ++ [Char.ofNat 9] ++ "17".toList) = "17".toList ∧
    GetTimestamp (statusFS ("BUILD_TIMESTAMP".toList ++ [Char.ofNat 9] ++ "17".toList))
      "status.txt".toList = (0, some (Err.missingTimestamp "status.txt".toList)) := by
  decide

/-! ## The timestamp of the run (C13) -/

theorem scanTimestamp_error_zero (f : Str) (lines : List Str)
    (h : (scanTimestamp f lines).2 ≠ none) : (scanTimestamp f lines).1 = 0 := by
  induction lines with
  | nil => rfl
  | cons line lines ih =>
    rw [scanTimestamp_cons] at h ⊢
    by_cases hc : (splitByte (trimSpace line) ' ').length > 1 ∧
        (splitByte (trimSpace line) ' ').head? = some "BUILD_TIMESTAMP".toList
    · rw [if_pos hc] at h ⊢
      cases ha : Atoi ((splitByte (trimSpace line) ' ').getD 1 []) with
      | mk ts err =>
        rw [ha] at h
        cases err with
        | none => exact absurd rfl h
        | some e => rfl
    · rw [if_neg hc] at h ⊢
      exact ih h

/-- `GetTimestamp` returns the value 0 with every error. -/
theorem GetTimestamp_error_zero (fs : FileSystem) (f : Str)
    (h : (GetTimestamp fs f).2 ≠ none) : (GetTimestamp fs f).1 = 0 := by
  unfold GetTimestamp at h ⊢
  cases hr : fs.readFile f with
  | none => rfl
  | some content =>
    rw [hr] at h
    exact scanTimestamp_error_zero f _ h

/-- C13, as the code has it.  Every header `makeZipInfo` produces for a writer
carries the timestamp of the writer, and `NewZipWriter` gives the writer the
timestamp it is called with.  Without a status file that timestamp is
`max(zipEpoch, requested)`, never before the ZIP epoch 315532800; with a status
file it is the value `GetTimestamp` returns.  When `GetTimestamp` returns an
error, as for a status file without the key, `main` drops the error and the run
goes on with the timestamp 0, which is before the ZIP epoch. -/
theorem mainTimestamp_spec (fs : FileSystem) (timestamp : Int) (stampFrom : Str) :
    (∀ (zw : ZipWriter) (path mode : Str) (h : FileHeader),
      makeZipInfo zw path mode = some h → h.Modified = zw.timeStamp) ∧
    (∀ (w w1 : World) (outputPath defaultMode compressionType compressionLevel : Str)
      (zw : ZipWriter),
      NewZipWriter fs w outputPath (mainTimestamp fs timestamp stampFrom) defaultMode
        compressionType compressionLevel = (Except.ok zw, w1) →
      zw.timeStamp = mainTimestamp fs timestamp stampFrom) ∧
    (stampFrom = [] →
      mainTimestamp fs timestamp stampFrom = max zipEpoch timestamp ∧
      zipEpoch ≤ mainTimestamp fs timestamp stampFrom ∧ zipEpoch = 315532800) ∧
    (stampFrom ≠ [] → ∀ n, GetTimestamp fs stampFrom = (n, none) →
      mainTimestamp fs timestamp stampFrom = n) ∧
    (stampFrom ≠ [] → (GetTimestamp fs stampFrom).2 ≠ none →
      mainTimestamp fs timestamp stampFrom = 0) ∧
    (GetTimestamp (statusFS "FOO 1".toList) "status.txt".toList =
        (0, some (Err.missingTimestamp "status.txt".toList)) ∧
      mainTimestamp (statusFS "FOO 1".toList) 1700000000 "status.txt".toList = 0 ∧
      (0 : Int) < zipEpoch) := by
  refine ⟨?_, ?_, ?_, ?_, ?_, by decide⟩
  · intro zw path mode h hh
    exact (makeZipInfo_fields zw path mode h hh).2.1
  · intro w w1 outputPath defaultMode compressionType compressionLevel zw h
    unfold NewZipWriter at h
    cases hc : parseCompression compressionType with
    | error e => rw [hc] at h; simp at h
    | ok c =>
      rw [hc] at h
      cases hl : parseCompressionLevel compressionLevel with
      | error e => rw [hl] at h; simp at h
      | ok l =>
        rw [hl] at h
        simp only at h
        by_cases hcr : fs.createOk outputPath = false
        · rw [if_pos hcr] at h; simp at h
        · rw [if_neg hcr] at h
          simp only [Prod.mk.injEq, Except.ok.injEq] at h
          rw [← h.1]
  · intro hs
    have e : mainTimestamp fs timestamp stampFrom = max zipEpoch timestamp := by
      unfold mainTimestamp
      rw [if_neg (by simp [hs])]
    exact ⟨e, by rw [e]; exact le_max_left _ _, rfl⟩
  · intro hs n hn
    unfold mainTimestamp
    rw [if_pos hs, hn]
  · intro hs he
    unfold mainTimestamp
    rw [if_pos hs]
    exact GetTimestamp_error_zero fs stampFrom he

/-! ## Entry types without a branch (C15) -/

theorem AddManifestEntry_other (fs : FileSystem) (treeOrder : RangeOrder (Str × Str))
    (zw : ZipWriter) (entry : ManifestEntry) (hf : entry.Typ ≠ ENTRY_IS_FILE)
    (ht : entry.Typ ≠ ENTRY_IS_TREE) :
    (AddManifestEntry fs treeOrder zw entry = some (zw, none) ∨
      AddManifestEntry fs treeOrder zw entry = none) ∧
    ((entry.Mode ≠ [] ∨ parseMode zw.defaultMode ≠ none) →
      AddManifestEntry fs treeOrder zw entry = some (zw, none)) := by
  have hsome : (entry.Mode ≠ [] ∨ parseMode zw.defaultMode ≠ none) →
      ∀ p, makeZipInfo zw p entry.Mode ≠ none := by
    intro hm p
    by_cases hmode : entry.Mode = []
    · rw [hmode, makeZipInfo_of_empty]
      rcases hm with hm | hm
      · exact absurd hmode hm
      · obtain ⟨d, hd⟩ := Option.ne_none_iff_exists'.mp hm
        rw [hd]; exact Option.some_ne_none _
    · rw [makeZipInfo_of_mode _ _ _ hmode]; exact Option.some_ne_none _
  unfold AddManifestEntry
  simp only [hf, ht, if_false]
  constructor
  · split
    · exact Or.inr rfl
    · exact Or.inl rfl
  · intro hm
    split
    · rename_i heq
      exact absurd heq (hsome hm _)
    · rfl

/-- C15, as the code has it: for an entry of type `symlink` or `empty-file`,
`AddManifestEntry` creates no record and reports no error: it returns nil with
the archive as it was (or the process exits in `parseMode`, for an empty entry
mode and a default mode that does not parse). -/
theorem AddManifestEntry_link_writes_nothing (fs : FileSystem)
    (treeOrder : RangeOrder (Str × Str)) (zw : ZipWriter) (entry : ManifestEntry)
    (h : entry.Typ = ENTRY_IS_LINK ∨ entry.Typ = ENTRY_IS_EMPTY_FILE) :
    (AddManifestEntry fs treeOrder zw entry = some (zw, none) ∨
      AddManifestEntry fs treeOrder zw entry = none) ∧
    ((entry.Mode ≠ [] ∨ parseMode zw.defaultMode ≠ none) →
      AddManifestEntry fs treeOrder zw entry = some (zw, none)) := by
  apply AddManifestEntry_other
  · rcases h with h | h <;> rw [h] <;> decide
  · rcases h with h | h <;> rw [h] <;> decide

/-- A symlink entry `l` with mode `777`: nil is returned and the archive stays
empty. -/
theorem AddManifestEntry_link_writes_nothing_witness :
    (AddManifestEntry exampleFS (RangeOrder.insertion _) exampleWriter
        { Typ := ENTRY_IS_LINK, Dest := "l".toList, Src := "target".toList,
          Mode := "777".toList, User := [], Group := [], UID := 0, GID := 0, Origin := [] } =
          some (exampleWriter, none) ∨
      AddManifestEntry exampleFS (RangeOrder.insertion _) exampleWriter
        { Typ := ENTRY_IS_LINK, Dest := "l".toList, Src := "target".toList,
          Mode := "777".toList, User := [], Group := [], UID := 0, GID := 0, Origin := [] } =
          none) ∧
    ((("777".toList : Str) ≠ [] ∨ parseMode exampleWriter.defaultMode ≠ none) →
      AddManifestEntry exampleFS (RangeOrder.insertion _) exampleWriter
        { Typ := ENTRY_IS_LINK, Dest := "l".toList, Src := "target".toList,
          Mode := "777".toList, User := [], Group := [], UID := 0, GID := 0, Origin := [] } =
          some (exampleWriter, none)) :=
  AddManifestEntry_link_writes_nothing exampleFS (RangeOrder.insertion _) exampleWriter
    { Typ := ENTRY_IS_LINK, Dest := "l".toList, Src := "target".toList,
      Mode := "777".toList, User := [], Group := [], UID := 0, GID := 0, Origin := [] }
    (Or.inl rfl)

/-! ## What `loadManifest` prints (C16) -/

theorem printed_perm (valueOrder : RangeOrder (Str × ManifestEntry))
    (m1 : GoMap ManifestEntry) :
    (((valueOrder.perm m1).map Prod.snd).map (fun e => e.Dest)).Perm
      ((sortByDest ((valueOrder.perm m1).map Prod.snd)).map (fun e => e.Dest)) := by
  unfold sortByDest
  exact ((List.perm_insertionSort (fun a b : ManifestEntry => a.Dest ≤ b.Dest)
    ((valueOrder.perm m1).map Prod.snd)).map (fun e => e.Dest)).symm

/-- C16, as the code has it: `loadManifest` prints one line per entry of the
returned list, each destination once, in the order in which the `range` loop
visits the map, before the sort: the printed lines are a rearrangement of the
destinations of the returned list, and they are that sequence itself exactly
when the map happens to be visited in ascending order of destination. -/
theorem loadManifest_printed (keyOrder valueOrder : RangeOrder (Str × ManifestEntry))
    (pfx : Str) (raws : List ManifestEntry) :
    ∃ r, loadManifest keyOrder valueOrder pfx raws = some r ∧
      r.printed.Perm (r.entries.map (fun e => e.Dest)) ∧
      r.printed.length = r.entries.length ∧
      r.printed.Nodup ∧
      (∃ visited : List ManifestEntry, r.entries = sortByDest visited ∧
        r.printed = visited.map (fun e => e.Dest)) ∧
      (r.printed = r.entries.map (fun e => e.Dest) ↔ r.printed.Sorted (· ≤ ·)) := by
  obtain ⟨m1, hs, _, hr⟩ := loadManifest_run keyOrder valueOrder pfx raws
  have hp := printed_perm valueOrder m1
  have hn := entries_dest_nodup valueOrder m1 hs.1
  refine ⟨_, hr, hp, ?_, hp.nodup_iff.mpr hn, ⟨_, rfl, rfl⟩, ?_⟩
  · have := hp.length_eq
    simpa using this
  · constructor
    · intro h
      simp only at h
      simp only [h]
      exact sortByDest_sorted _
    · intro h
      exact List.eq_of_perm_of_sorted hp h (sortByDest_sorted _)

/-- The raw entries `b` and `a`, with the map visited in insertion order: the
lines printed are a rearrangement of the destinations returned. -/
theorem loadManifest_printed_witness :
    ∃ r, loadManifest (RangeOrder.insertion _) (RangeOrder.insertion _) ['/']
        [fileEntry "b".toList "1".toList [], fileEntry "a".toList "2".toList []] = some r ∧
      r.printed.Perm (r.entries.map (fun e => e.Dest)) ∧
      r.printed.length = r.entries.length ∧
      r.printed.Nodup ∧
      (∃ visited : List ManifestEntry, r.entries = sortByDest visited ∧
        r.printed = visited.map (fun e => e.Dest)) ∧
      (r.printed = r.entries.map (fun e => e.Dest) ↔ r.printed.Sorted (· ≤ ·)) :=
  loadManifest_printed (RangeOrder.insertion _) (RangeOrder.insertion _) ['/']
    [fileEntry "b".toList "1".toList [], fileEntry "a".toList "2".toList []]

/-- C16 fails as stated: for the raw entries `d/a` and `d/b`, with the map
visited in insertion order, the lines printed are `d/a`, `d/b`, `d`, while the
destinations of the returned list are `d`, `d/a`, `d/b`. -/
theorem loadManifest_printed_counterexample :
    (loadManifest (RangeOrder.insertion _) (RangeOrder.insertion _) ['/']
        [fileEntry "d/a".toList "1".toList [], fileEntry "d/b".toList "2".toList []]).map
        (fun r => (r.printed, r.entries.map (fun e => e.Dest))) =
      some (["d/a".toList, "d/b".toList, "d".toList],
            ["d".toList, "d/a".toList, "d/b".toList]) ∧
    ["d/a".toList, "d/b".toList, "d".toList] ≠ ["d".toList, "d/a".toList, "d/b".toList] := by
  decide

/-! ## No spurious entries (C19) -/

/-- C19: every entry of the list `loadManifest` returns is explicit, its
destination the combined destination of a raw entry, or synthesized: of type
`dir`, its destination other than `.` and reached by one or more directory-name
steps from the combined destination of a raw entry; and an empty raw manifest
gives an empty resolved manifest. -/
theorem loadManifest_no_spurious (keyOrder valueOrder : RangeOrder (Str × ManifestEntry))
    (pfx : Str) (raws : List ManifestEntry) :
    (∃ r, loadManifest keyOrder valueOrder pfx raws = some r ∧
      ∀ e ∈ r.entries,
        (∃ x ∈ raws, combinePaths pfx x.Dest = e.Dest) ∨
        (e.Typ = ENTRY_IS_DIR ∧ e.Dest ≠ ['.'] ∧
          ∃ x ∈ raws, ∃ j, e.Dest = Dir^[j + 1] (combinePaths pfx x.Dest))) ∧
    (∃ r, loadManifest keyOrder valueOrder pfx [] = some r ∧ r.entries = []) := by
  have main : ∀ raws1 : List ManifestEntry,
      ∃ r, loadManifest keyOrder valueOrder pfx raws1 = some r ∧
      ∀ e ∈ r.entries,
        (∃ x ∈ raws1, combinePaths pfx x.Dest = e.Dest) ∨
        (e.Typ = ENTRY_IS_DIR ∧ e.Dest ≠ ['.'] ∧
          ∃ x ∈ raws1, ∃ j, e.Dest = Dir^[j + 1] (combinePaths pfx x.Dest)) := by
    intro raws1
    obtain ⟨m1, hs, _, hr⟩ := loadManifest_run keyOrder valueOrder pfx raws1
    refine ⟨_, hr, ?_⟩
    intro e he
    have hget := (mem_entries_iff valueOrder m1 hs.1 e).mp he
    cases h0 : mapGet (readEntries pfx raws1 []) e.Dest with
    | some e0 =>
      left
      rcases (readEntries_get_ne_none pfx raws1 [] e.Dest).mp
        (by rw [h0]; exact Option.some_ne_none _) with h1 | h1
      · exact absurd rfl h1
      · exact h1
    | none =>
      right
      obtain ⟨d, e0, j, hd, hk, hdot, hv⟩ := hs.2.2 e.Dest e h0 hget
      rcases readEntries_get_some pfx raws1 [] d e0 hd with h1 | ⟨x, hx, hxd, _⟩
      · exact absurd h1 (by simp [mapGet])
      · refine ⟨by rw [hv]; rfl, hdot, x, hx, j, ?_⟩
        rw [hxd]; exact hk
  refine ⟨main raws, ?_⟩
  obtain ⟨r, hr, hall⟩ := main []
  refine ⟨r, hr, ?_⟩
  apply List.eq_nil_iff_forall_not_mem.mpr
  intro e he
  rcases hall e he with ⟨x, hx, _⟩ | ⟨_, _, x, hx, _⟩
  · exact absurd hx (List.not_mem_nil x)
  · exact absurd hx (List.not_mem_nil x)

/-! ## The order of the keys shows in the origins (C18) -/

theorem Synth_keys_sub (m0 m1 m2 : GoMap ManifestEntry) (hs1 : Synth m0 m1)
    (hs2 : Synth m0 m2) (hch2 : ∀ k, mapGet m2 k ≠ none → ChainIn m2 k) (k : Str)
    (h : mapGet m1 k ≠ none) : mapGet m2 k ≠ none := by
  obtain ⟨v, hv⟩ := Option.ne_none_iff_exists'.mp h
  cases h0 : mapGet m0 k with
  | some e0 =>
    rw [hs2.2.1 k (by rw [h0]; exact Option.some_ne_none _), h0]
    exact Option.some_ne_none _
  | none =>
    obtain ⟨d, e0, j, hd, hk, hdot, _⟩ := hs1.2.2 k v h0 hv
    have hd2 : mapGet m2 d ≠ none := by
      rw [hs2.2.1 d (by rw [hd]; exact Option.some_ne_none _), hd]
      exact Option.some_ne_none _
    rw [hk]
    exact hch2 d hd2 j (by rw [← hk]; exact hdot)

theorem Synth_values (m0 m1 m2 : GoMap ManifestEntry) (hs1 : Synth m0 m1)
    (hs2 : Synth m0 m2) (k : Str) (v1 v2 : ManifestEntry) (h1 : mapGet m1 k = some v1)
    (h2 : mapGet m2 k = some v2) :
    dropOrigin v1 = dropOrigin v2 ∧ (mapGet m0 k ≠ none → v1 = v2) := by
  cases h0 : mapGet m0 k with
  | some e0 =>
    have hne : mapGet m0 k ≠ none := by rw [h0]; exact Option.some_ne_none _
    rw [hs1.2.1 k hne, h0] at h1
    rw [hs2.2.1 k hne, h0] at h2
    have e : v1 = v2 := by rw [← Option.some.inj h1, ← Option.some.inj h2]
    exact ⟨by rw [e], fun _ => e⟩
  | none =>
    obtain ⟨_, _, _, _, _, _, hv1⟩ := hs1.2.2 k v1 h0 h1
    obtain ⟨_, _, _, _, _, _, hv2⟩ := hs2.2.2 k v2 h0 h2
    refine ⟨by rw [hv1, hv2]; rfl, fun h => absurd rfl h⟩

theorem map_eq_of_dest_eq (f : ManifestEntry → ManifestEntry) :
    ∀ l1 l2 : List ManifestEntry, l1.map (fun e => e.Dest) = l2.map (fun e => e.Dest) →
      (∀ e1 ∈ l1, ∀ e2 ∈ l2, e1.Dest = e2.Dest → f e1 = f e2) → l1.map f = l2.map f := by
  intro l1
  induction l1 with
  | nil =>
    intro l2 h _
    cases l2 with
    | nil => rfl
    | cons b l2 => simp at h
  | cons a l1 ih =>
    intro l2 h hf
    cases l2 with
    | nil => simp at h
    | cons b l2 =>
      simp only [List.map_cons, List.cons.injEq] at h
      simp only [List.map_cons]
      rw [hf a (List.mem_cons_self _ _) b (List.mem_cons_self _ _) h.1,
        ih l2 h.2 (fun e1 h1 e2 h2 => hf e1 (List.mem_cons_of_mem _ h1) e2
          (List.mem_cons_of_mem _ h2))]

theorem mem_dest_iff (valueOrder : RangeOrder (Str × ManifestEntry))
    (m1 : GoMap ManifestEntry) (hm : MapOK m1) (k : Str) :
    k ∈ (sortByDest ((valueOrder.perm m1).map Prod.snd)).map (fun e => e.Dest) ↔
      mapGet m1 k ≠ none := by
  constructor
  · intro h
    obtain ⟨e, he, hk⟩ := List.mem_map.mp h
    have := (mem_entries_iff valueOrder m1 hm e).mp he
    rw [← hk, this]
    exact Option.some_ne_none _
  · intro h
    obtain ⟨v, hv⟩ := Option.ne_none_iff_exists'.mp h
    have hvd : v.Dest = k := hm.2 _ ((mapGet_eq_some_iff m1 hm.1 _ v).mp hv)
    exact List.mem_map.mpr
      ⟨v, (mem_entries_iff valueOrder m1 hm v).mpr (by rw [hvd]; exact hv), hvd⟩

/-- C18, as the code has it.  For any two choices of the iteration orders, the
two lists `loadManifest` returns have the same entries but for the origins of
synthesized parents: they are equal once origins are dropped, and every
explicit entry of one is an entry of the other.  The origin of a synthesized
parent follows the order in which the keys are visited: for the raw entries
`d/a` with origin `A` and `d/b` with origin `B`, the parent `d` has origin
`parent directory of A` when the keys are visited in insertion order and
`parent directory of B` in the reverse order, so the two lists differ. -/
theorem loadManifest_origin_order
    (keyOrder valueOrder keyOrder1 valueOrder1 : RangeOrder (Str × ManifestEntry))
    (pfx : Str) (raws : List ManifestEntry) :
    (∃ r r1, loadManifest keyOrder valueOrder pfx raws = some r ∧
      loadManifest keyOrder1 valueOrder1 pfx raws = some r1 ∧
      r.entries.map dropOrigin = r1.entries.map dropOrigin ∧
      ∀ e ∈ r.entries, (∃ x ∈ raws, combinePaths pfx x.Dest = e.Dest) → e ∈ r1.entries) ∧
    (loadManifest (RangeOrder.insertion _) (RangeOrder.insertion _) ['/']
        [originEntry "d/a".toList "A".toList, originEntry "d/b".toList "B".toList]).map
        (fun r => r.entries) =
      some [parentEntry "d".toList "A".toList, originEntry "d/a".toList "A".toList,
            originEntry "d/b".toList "B".toList] ∧
    (loadManifest (RangeOrder.reversed _) (RangeOrder.insertion _) ['/']
        [originEntry "d/a".toList "A".toList, originEntry "d/b".toList "B".toList]).map
        (fun r => r.entries) =
      some [parentEntry "d".toList "B".toList, originEntry "d/a".toList "A".toList,
            originEntry "d/b".toList "B".toList] ∧
    parentEntry "d".toList "A".toList ≠ parentEntry "d".toList "B".toList := by
  refine ⟨?_, by decide, by decide, by decide⟩
  obtain ⟨m1, hs1, hch1, hr1⟩ := loadManifest_run keyOrder valueOrder pfx raws
  obtain ⟨m2, hs2, hch2, hr2⟩ := loadManifest_run keyOrder1 valueOrder1 pfx raws
  refine ⟨_, _, hr1, hr2, ?_, ?_⟩
  · have hperm : ((sortByDest ((valueOrder.perm m1).map Prod.snd)).map (fun e => e.Dest)).Perm
        ((sortByDest ((valueOrder1.perm m2).map Prod.snd)).map (fun e => e.Dest)) := by
      rw [List.perm_ext_iff_of_nodup (entries_dest_nodup valueOrder m1 hs1.1)
        (entries_dest_nodup valueOrder1 m2 hs2.1)]
      intro k
      rw [mem_dest_iff valueOrder m1 hs1.1, mem_dest_iff valueOrder1 m2 hs2.1]
      exact ⟨Synth_keys_sub _ m1 m2 hs1 hs2 hch2 k, Synth_keys_sub _ m2 m1 hs2 hs1 hch1 k⟩
    have hdest := List.eq_of_perm_of_sorted hperm (sortByDest_sorted _) (sortByDest_sorted _)
    apply map_eq_of_dest_eq dropOrigin _ _ hdest
    intro e1 he1 e2 he2 hd
    have h1 := (mem_entries_iff valueOrder m1 hs1.1 e1).mp he1
    have h2 := (mem_entries_iff valueOrder1 m2 hs2.1 e2).mp he2
    rw [← hd] at h2
    exact (Synth_values _ m1 m2 hs1 hs2 e1.Dest e1 e2 h1 h2).1
  · intro e he ⟨x, hx, hxd⟩
    have h1 := (mem_entries_iff valueOrder m1 hs1.1 e).mp he
    have h0 : mapGet (readEntries pfx raws []) e.Dest ≠ none :=
      (readEntries_get_ne_none pfx raws [] e.Dest).mpr (Or.inr ⟨x, hx, hxd⟩)
    apply (mem_entries_iff valueOrder1 m2 hs2.1 e).mpr
    rw [hs2.2.1 _ h0, ← hs1.2.1 _ h0]
    exact h1

/-! ## The number of steps of the parent walk (C17) -/

theorem count_takeWhile_seg (l : Str) :
    (l.takeWhile (fun x => x ≠ '/')).count '/' = 0 := by
  rw [List.count_eq_zero]
  intro h
  have := List.mem_takeWhile_imp h
  simp at this

theorem count_dropWhile_seg (l : Str) :
    (l.dropWhile (fun x => x ≠ '/')).count '/' = l.count '/' := by
  have h := congrArg (List.count '/') (List.takeWhile_append_dropWhile (fun x => decide (x ≠ '/')) l)
  rw [List.count_append, count_takeWhile_seg] at h
  omega

theorem endsSlash_le_count (l : Str) : endsSlash l ≤ l.count '/' := by
  unfold endsSlash
  split
  · rename_i h
    have hm : '/' ∈ l := List.mem_of_getLast?_eq_some h
    exact List.count_pos_iff.mpr hm
  · exact Nat.zero_le _

theorem sep_count (out : Str) :
    (if out = [] then out else out ++ ['/']).count '/' =
      out.count '/' + (if out = [] then 0 else 1) := by
  cases out with
  | nil => simp
  | cons a out =>
    rw [if_neg (by simp), if_neg (by simp), List.count_append]
    rfl

/-- The loop of `Clean` on a path that is not rooted writes at most as many
separators as it had and reads, one less when the input ends in a
separator. -/
theorem cleanLoop_seps (fuel : Nat) : ∀ (rest out : Str) (dd : Nat),
    (cleanLoop false fuel rest out dd).count '/' + endsSlash rest
      ≤ out.count '/' + rest.count '/' + needSep rest out := by
  induction fuel with
  | zero =>
    intro rest out dd
    have := endsSlash_le_count rest
    simp only [cleanLoop_zero]; omega
  | succ n ih =>
    intro rest out dd
    cases rest with
    | nil => simp [cleanLoop_nil, endsSlash]
    | cons c t =>
      rw [cleanLoop_false_succ_cons]
      by_cases h1 : c = '/'
      · rw [if_pos h1]
        subst h1
        have := ih t out dd
        have h8 := needSep_le_one t out
        rw [endsSlash_slash_cons, List.count_cons_self]
        by_cases ht : t = []
        · subst ht; simp [cleanLoop_nil]
        · simp only [ht, if_false]; omega
      rw [if_neg h1]
      have hcnt : (c :: t).count '/' = t.count '/' :=
        List.count_cons_of_ne (fun h => h1 h.symm) t
      have hs : needSep (c :: t) out = if out = [] then 0 else 1 := by
        by_cases ho : out = [] <;> simp [needSep, ho, h1]
      by_cases h2 : c = '.' ∧ (t = [] ∨ t.head? = some '/')
      · rw [if_pos h2]
        have := ih t out dd
        rw [needSep_of_boundary t out h2.2] at this
        have := endsSlash_cons_le c t h1
        omega
      rw [if_neg h2]
      by_cases h3 : c = '.' ∧ t.head? = some '.' ∧ (t.tail = [] ∨ t.tail.head? = some '/')
      · rw [if_pos h3]
        have h7 := endsSlash_cons_le c t h1
        have h8 : endsSlash t ≤ endsSlash t.tail := endsSlash_tail_le t (by simp [h3.2.1])
        have h10 : t.tail.count '/' = t.count '/' := by
          cases t with
          | nil => rfl
          | cons b t =>
            have hb : b = '.' := by simpa using h3.2.1
            rw [hb]
            exact (List.count_cons_of_ne (by decide) t).symm
        by_cases h4 : out.length > dd
        · rw [if_pos h4]
          have := ih t.tail (out.take (backtrackTo out dd (out.length - 1))) dd
          rw [needSep_of_boundary _ _ h3.2.2] at this
          have h9 : (out.take (backtrackTo out dd (out.length - 1))).count '/' ≤ out.count '/' :=
            (List.take_sublist _ _).count_le _
          omega
        · rw [if_neg h4]
          have := ih t.tail ((if out = [] then out else out ++ ['/']) ++ ['.', '.'])
            ((if out = [] then out else out ++ ['/']) ++ ['.', '.']).length
          rw [needSep_of_boundary _ _ h3.2.2] at this
          have hl : ((if out = [] then out else out ++ ['/']) ++ ['.', '.']).count '/'
              = out.count '/' + (if out = [] then 0 else 1) := by
            rw [List.count_append, sep_count]; rfl
          rw [hs]
          omega
      · rw [if_neg h3]
        have := ih ((c :: t).dropWhile (fun x => x ≠ '/'))
          ((if out = [] then out else out ++ ['/']) ++ (c :: t).takeWhile (fun x => x ≠ '/')) dd
        rw [needSep_of_boundary _ _ (dropWhile_boundary _), List.count_append, sep_count,
          count_takeWhile_seg, count_dropWhile_seg] at this
        have h7 := endsSlash_dropWhile (c :: t)
        rw [hs]
        omega

theorem Clean_seps (path : Str) (h : path.head? ≠ some '/') :
    Clean path = ['.'] ∨ (Clean path).count '/' + endsSlash path ≤ path.count '/' := by
  rw [Clean_of_not_rooted path h]
  split_ifs with h1
  · simp
  · right
    have := cleanLoop_seps path.length path [] 0
    rw [needSep_nil_out] at this
    simpa using this

/-- One step of the parent walk on a path that is not rooted: the directory
name is `.` or has fewer separators. -/
theorem Dir_step_seps (p : Str) (h : p.head? ≠ some '/') :
    Dir p = ['.'] ∨ (Dir p).count '/' < p.count '/' := by
  have hpre : p.rdropWhile (fun x => x ≠ '/') <+: p := List.rdropWhile_prefix _ _
  have hh : (p.rdropWhile (fun x => x ≠ '/')).head? ≠ some '/' := by
    obtain ⟨t, ht⟩ := hpre
    intro hq
    apply h
    rw [← ht]
    cases hq1 : p.rdropWhile (fun x => x ≠ '/') with
    | nil => rw [hq1] at hq; simp at hq
    | cons a l => rw [hq1] at hq; simpa using hq
  unfold Dir
  by_cases hq : p.rdropWhile (fun x => x ≠ '/') = []
  · left; rw [hq]; decide
  · rcases Clean_seps _ hh with h1 | h1
    · exact Or.inl h1
    · right
      rw [endsSlash_rdropWhile p hq] at h1
      have := hpre.sublist.count_le '/'
      omega

/-- The chain of directory names of a path that is not rooted reaches `.`
within one step more than the path has separators. -/
theorem Dir_chain_bound (n : Nat) : ∀ p : Str, p.head? ≠ some '/' → p.count '/' < n →
    ∃ k, k ≤ n ∧ Dir^[k] p = ['.'] := by
  induction n with
  | zero => intro p _ h; exact absurd h (Nat.not_lt_zero _)
  | succ n ih =>
    intro p hp hn
    rcases Dir_step_seps p hp with h | h
    · exact ⟨1, by omega, by rw [Function.iterate_one]; exact h⟩
    · obtain ⟨k, hk, hd⟩ := ih (Dir p) (Dir_step p hp).1 (by omega)
      exact ⟨k + 1, by omega, by rw [Function.iterate_succ_apply]; exact hd⟩

/-- The parent walk exits within one iteration more than its starting point
has separators. -/
theorem parentLoop_exits (dest : Str) (fuel : Nat) :
    ∀ (parent : Str) (m : GoMap ManifestEntry), parent.head? ≠ some '/' →
      (parent = ['.'] ∨ parent.count '/' < fuel) → mapGet m dest ≠ none →
      ∃ m1, parentLoop dest fuel parent m = some m1 := by
  induction fuel with
  | zero =>
    intro parent m _ hlen _
    rcases hlen with h | h
    · exact ⟨m, by simp [parentLoop, h]⟩
    · exact absurd h (Nat.not_lt_zero _)
  | succ n ih =>
    intro parent m hroot hlen hd
    by_cases hp : parent = ['.']
    · exact ⟨m, by simp [parentLoop, hp]⟩
    · have hstep := Dir_step parent hroot
      have hlen1 : Dir parent = ['.'] ∨ (Dir parent).count '/' < n := by
        rcases Dir_step_seps parent hroot with h | h
        · exact Or.inl h
        · rcases hlen with h2 | h2
          · exact absurd h2 hp
          · right; omega
      obtain ⟨e0, he0⟩ := Option.ne_none_iff_exists'.mp hd
      by_cases hc : Dir parent ≠ ['.'] ∧ mapGet m (Dir parent) = none
      · have hd1 : mapGet (mapSet m (Dir parent) (parentEntry (Dir parent) e0.Origin)) dest
            ≠ none := by
          rw [Grows_mapSet m _ _ hc.2 dest hd]; exact hd
        obtain ⟨m1, hm1⟩ := ih (Dir parent) _ hstep.1 hlen1 hd1
        refine ⟨m1, ?_⟩
        simp only [parentLoop, hp, if_false, hc, he0]
        simpa [hc.1] using hm1
      · obtain ⟨m1, hm1⟩ := ih (Dir parent) m hstep.1 hlen1 hd
        refine ⟨m1, ?_⟩
        simp only [parentLoop, hp, if_false, hc]
        exact hm1

theorem parentLoop_fuel_le (dest : Str) (fuel extra : Nat) (parent : Str)
    (m m1 : GoMap ManifestEntry) (h : parentLoop dest fuel parent m = some m1) :
    parentLoop dest (fuel + extra) parent m = some m1 := by
  induction extra with
  | zero => exact h
  | succ k ih => exact parentLoop_fuel dest (fuel + k) parent m m1 ih

theorem parentLoop_dot (dest : Str) (fuel : Nat) (m : GoMap ManifestEntry) :
    parentLoop dest fuel ['.'] m = some m := by
  cases fuel <;> simp [parentLoop]

/-- C17: for every prefix and raw destination the chain of directory names of
the combined destination reaches `.` within one step more than the combined
destination has separators, the loop of `loadManifest` for that key exits
within as many iterations, and `loadManifest` returns for every input; from `.`
the loop exits at once and leaves the map as it is, so a single raw entry whose
combined destination is `.` is returned alone, its other fields kept. -/
theorem parent_walk_terminates (keyOrder valueOrder : RangeOrder (Str × ManifestEntry))
    (pfx : Str) (raws : List ManifestEntry) (raw : Str) :
    (∃ r, loadManifest keyOrder valueOrder pfx raws = some r) ∧
    (∃ k, k ≤ (combinePaths pfx raw).count '/' + 1 ∧ Dir^[k] (combinePaths pfx raw) = ['.']) ∧
    (∀ m : GoMap ManifestEntry, mapGet m (combinePaths pfx raw) ≠ none →
      ∃ m1, parentLoop (combinePaths pfx raw) ((combinePaths pfx raw).count '/' + 1)
          (combinePaths pfx raw) m = some m1 ∧
        parentLoop (combinePaths pfx raw) ((combinePaths pfx raw).length + 1)
          (combinePaths pfx raw) m = some m1) ∧
    (∀ (dest : Str) (fuel : Nat) (m : GoMap ManifestEntry),
      parentLoop dest fuel ['.'] m = some m) ∧
    (∀ e : ManifestEntry, combinePaths pfx e.Dest = ['.'] →
      ∃ r, loadManifest keyOrder valueOrder pfx [e] = some r ∧
        r.entries = [{ e with Dest := ['.'] }]) := by
  refine ⟨?_, ?_, ?_, parentLoop_dot, ?_⟩
  · obtain ⟨m1, _, _, hr⟩ := loadManifest_run keyOrder valueOrder pfx raws
    exact ⟨_, hr⟩
  · exact Dir_chain_bound _ _ (combinePaths_head pfx raw) (Nat.lt_succ_self _)
  · intro m hm
    obtain ⟨m1, hm1⟩ := parentLoop_exits (combinePaths pfx raw) _ (combinePaths pfx raw) m
      (combinePaths_head pfx raw) (Or.inr (Nat.lt_succ_self _)) hm
    refine ⟨m1, hm1, ?_⟩
    have hle : (combinePaths pfx raw).count '/' ≤ (combinePaths pfx raw).length :=
      List.count_le_length _ _
    have := parentLoop_fuel_le (combinePaths pfx raw) ((combinePaths pfx raw).count '/' + 1)
      ((combinePaths pfx raw).length - (combinePaths pfx raw).count '/') _ m m1 hm1
    have e : (combinePaths pfx raw).count '/' + 1 +
        ((combinePaths pfx raw).length - (combinePaths pfx raw).count '/') =
        (combinePaths pfx raw).length + 1 := by omega
    rw [e] at this
    exact this
  · intro e he
    have hm0 : readEntries pfx [e] [] = [(['.'], { e with Dest := ['.'] })] := by
      simp only [readEntries, mapSet, he]
    have hk : keyOrder.perm [((['.'] : Str), ({ e with Dest := ['.'] } : ManifestEntry))] =
        [(['.'], { e with Dest := ['.'] })] := List.perm_singleton.mp (keyOrder.isPerm _)
    have hv : valueOrder.perm [((['.'] : Str), ({ e with Dest := ['.'] } : ManifestEntry))] =
        [(['.'], { e with Dest := ['.'] })] := List.perm_singleton.mp (valueOrder.isPerm _)
    have hrun : loadManifest keyOrder valueOrder pfx [e] =
        some { entries := sortByDest [{ e with Dest := ['.'] }], printed := [['.']] } := by
      unfold loadManifest
      simp only [hm0, hk, List.map_cons, List.map_nil, synthesizeParents, parentLoop_dot, hv]
    exact ⟨_, hrun, by simp [sortByDest]⟩

/-! ## Archive names (C20) -/

/-- The header of `AddManifestEntry` is made for the name `entryDstPath`. -/
theorem AddManifestEntry_name (fs : FileSystem) (treeOrder : RangeOrder (Str × Str))
    (zw : ZipWriter) (entry : ManifestEntry) :
    AddManifestEntry fs treeOrder zw entry =
      match makeZipInfo zw (entryDstPath entry) entry.Mode with
      | none => none
      | some entryInfo =>
        if entry.Typ = ENTRY_IS_FILE then
          match fs.contents entry.Src with
          | none => some (zw, some (Err.openFailed entry.Src))
          | some bytes =>
            some (createRecord zw { entryInfo with Method := zw.compressionType } bytes, none)
        else if entry.Typ = ENTRY_IS_TREE then
          AddTree fs treeOrder zw entry.Src entry.Dest entry.Mode
        else some (zw, none) := rfl

theorem hasSuffix_nil : hasSuffix [] ['/'] = false := rfl

theorem hasSuffix_concat (l : Str) (x : Char) :
    hasSuffix (l ++ [x]) ['/'] = decide (x = '/') := by
  unfold hasSuffix
  have h1 : (l ++ [x]).length - ['/'].length = l.length := by simp
  rw [h1, List.drop_left]
  by_cases hx : x = '/'
  · simp [hx]
  · simp [hx]

theorem trimSuffix_concat (l : Str) (x : Char) :
    trimSuffix (l ++ [x]) ['/'] = if x = '/' then l else l ++ [x] := by
  unfold trimSuffix
  rw [hasSuffix_concat]
  have h1 : (l ++ [x]).length - ['/'].length = l.length := by simp
  rw [h1, List.take_left]
  by_cases hx : x = '/'
  · simp [hx]
  · simp [hx]

theorem stripTrailing_trimSuffix (d : Str) :
    stripTrailing (trimSuffix d ['/']) = stripTrailing d := by
  induction d using List.reverseRecOn with
  | nil => rfl
  | append_singleton l x _ =>
    rw [trimSuffix_concat]
    by_cases hx : x = '/'
    · rw [if_pos hx, hx]
      unfold stripTrailing
      rw [List.rdropWhile_concat_pos _ _ _ (by simp)]
    · rw [if_neg hx]

theorem stripTrailing_of_no_slash (d : Str) (h : hasSuffix d ['/'] = false) :
    stripTrailing d = d := by
  induction d using List.reverseRecOn with
  | nil => rfl
  | append_singleton l x _ =>
    rw [hasSuffix_concat] at h
    unfold stripTrailing
    rw [List.rdropWhile_concat_neg _ _ _ (by simpa using h)]

/-- The archive name of an entry and its destination agree up to trailing
separators. -/
theorem stripTrailing_entryDstPath (e : ManifestEntry) :
    stripTrailing (entryDstPath e) = stripTrailing e.Dest := by
  unfold entryDstPath
  split_ifs
  · unfold stripTrailing
    rw [List.rdropWhile_concat_pos _ _ _ (by simp)]
    exact stripTrailing_trimSuffix e.Dest
  · exact stripTrailing_trimSuffix e.Dest

/-- C20, as the code has it: two entries of one resolved manifest get the same
archive name only if their destinations agree up to trailing separators; so
among the entries whose destination does not end in a separator the archive
names are pairwise distinct, files and directories alike. -/
theorem archive_names_distinct (keyOrder valueOrder : RangeOrder (Str × ManifestEntry))
    (pfx : Str) (raws : List ManifestEntry) :
    ∃ r, loadManifest keyOrder valueOrder pfx raws = some r ∧
      ∀ e1 ∈ r.entries, ∀ e2 ∈ r.entries, entryDstPath e1 = entryDstPath e2 →
        stripTrailing e1.Dest = stripTrailing e2.Dest ∧
        (hasSuffix e1.Dest ['/'] = false → hasSuffix e2.Dest ['/'] = false → e1 = e2) := by
  obtain ⟨m1, hs, _, hr⟩ := loadManifest_run keyOrder valueOrder pfx raws
  refine ⟨_, hr, ?_⟩
  intro e1 he1 e2 he2 hname
  have hst : stripTrailing e1.Dest = stripTrailing e2.Dest := by
    rw [← stripTrailing_entryDstPath e1, ← stripTrailing_entryDstPath e2, hname]
  refine ⟨hst, ?_⟩
  intro h1 h2
  rw [stripTrailing_of_no_slash _ h1, stripTrailing_of_no_slash _ h2] at hst
  have g1 := (mem_entries_iff valueOrder m1 hs.1 e1).mp he1
  have g2 := (mem_entries_iff valueOrder m1 hs.1 e2).mp he2
  rw [hst] at g1
  rw [g1] at g2
  exact Option.some.inj g2

/-- The raw file entries `a` and `b/c`: the three entries of the resolved
manifest have destinations without a trailing separator and distinct names. -/
theorem archive_names_distinct_witness :
    ∃ r, loadManifest (RangeOrder.insertion _) (RangeOrder.insertion _) ['/']
        [fileEntry "a".toList "1".toList [], fileEntry "b/c".toList "2".toList []] = some r ∧
      ∀ e1 ∈ r.entries, ∀ e2 ∈ r.entries, entryDstPath e1 = entryDstPath e2 →
        stripTrailing e1.Dest = stripTrailing e2.Dest ∧
        (hasSuffix e1.Dest ['/'] = false → hasSuffix e2.Dest ['/'] = false → e1 = e2) :=
  archive_names_distinct (RangeOrder.insertion _) (RangeOrder.insertion _) ['/']
    [fileEntry "a".toList "1".toList [], fileEntry "b/c".toList "2".toList []]

/-- C20 fails as stated: the raw file entries `a` and `a/` are both in the
resolved manifest, as two file entries, and both get the archive name `a`. -/
theorem archive_names_counterexample :
    (loadManifest (RangeOrder.insertion _) (RangeOrder.insertion _) ['/']
        [fileEntry "a".toList "1".toList [], fileEntry "a/".toList "2".toList []]).map
        (fun r => r.entries) =
      some [fileEntry "a".toList "1".toList [], fileEntry "a/".toList "2".toList []] ∧
    entryDstPath (fileEntry "a".toList "1".toList []) = "a".toList ∧
    entryDstPath (fileEntry "a/".toList "2".toList []) = "a".toList ∧
    fileEntry "a".toList "1".toList [] ≠ fileEntry "a/".toList "2".toList [] := by
  decide

end BuildZip
